import Mathlib

/-!
# Verification of the Guppy function-body compiler core

A shallow embedding, in Lean 4, of the parts of the Guppy compiler
(CQCL/guppy) that the specification's claims are about:

* the fixed-point program analyses of `guppy/cfg.py`
  (`CFG._analyze_liveness`, `CFG._analyze_definite_assignment`);
* the CFG construction of `guppy/cfg.py` (`CFG.new_bb`, `CFG.link`,
  `CFGBuilder`, `ExprBuilder`, `BranchBuilder`);
* the type-checking of CFGs in `guppy/checker/cfg_checker.py`
  (`check_bb`, `check_rows_match`);
* the Hugr compiler of `guppy/compiler.py` (`merge_variables`,
  `ExpressionCompiler.visit_Name`, `ExpressionCompiler.binary_arith_op`,
  `StatementCompiler.visit_Assign`).

Each definition is translated directly from the named Python source
function; the doc comment of every definition points at its origin.
Python dictionaries keyed by variable names are modelled by the sets or
association lists of their keys whenever only the keys matter to the
behaviour being verified, and source locations and AST nodes are
modelled by natural-number tokens.
-/

namespace Guppy

/-! ## The CFG data used by the program analyses (`guppy/cfg.py`)

A `BB` of the source stores `predecessors`, `successors`, and a
`vars : VariableStats` record with the `used` and `assigned` name maps.
The analyses only consult the *keys* of `used` / `assigned` (the mapped
AST nodes are carried for error reporting and never influence which
names are in a set), so the embedding keeps those key sets.  Basic
blocks are identified by their index `idx`, as in the source (`BB.idx`);
a CFG with `n` blocks uses indices `0 … n-1`. -/

/-- The data of a `CFG` consulted by `_analyze_liveness` and
`_analyze_definite_assignment`: predecessor and successor index lists,
the `used` and `assigned` key sets of every block, and the entry and
exit block indices (`CFG.entry_bb` is created first, `CFG.exit_bb`
second, so they are `0` and `1` in the source; here they are kept
abstract). -/
structure ACfg where
  n : ℕ
  preds : ℕ → List ℕ
  succs : ℕ → List ℕ
  used : ℕ → Finset ℕ
  assigned : ℕ → Finset ℕ
  entry : ℕ
  exit : ℕ

/-- All names used anywhere in the CFG; every `live_before` set computed
by the liveness analysis stays inside this universe. -/
def allUsed (c : ACfg) : Finset ℕ :=
  (Finset.range c.n).biUnion c.used

/-- All names used or assigned anywhere in the CFG.  This is the
`all_vars = set.union(*(bb.vars.used.keys() | bb.vars.assigned.keys() ...))`
of `_analyze_definite_assignment`. -/
def allVars (c : ACfg) : Finset ℕ :=
  (Finset.range c.n).biUnion fun b => c.used b ∪ c.assigned b

/-- Well-formedness used by the liveness theorem: the exit index is a
real block, predecessor lists mention real blocks, and the exit block
has no successors (it is never a predecessor).  These are the CFG
invariants of the source (`CFG.__post_init__` creates the exit block and
nothing ever links out of it). -/
def LiveWf (c : ACfg) : Prop :=
  c.exit < c.n ∧
  (∀ b, b < c.n → ∀ p ∈ c.preds b, p < c.n) ∧
  (∀ b, b < c.n → c.exit ∉ c.preds b)

instance (c : ACfg) : Decidable (LiveWf c) := by
  unfold LiveWf; infer_instance

/-- The worklist state of an analysis pass: the per-block result sets and
the queue of pending blocks.  The source uses a Python `set` as queue;
this embedding uses a duplicate-free list popped from the front. -/
structure WorkState where
  sets : ℕ → Finset ℕ
  queue : List ℕ

/-- Adding a block to the worklist (`queue.add(pred)`); a Python set
ignores re-insertion of a present element. -/
def enqueue (q : List ℕ) (b : ℕ) : List ℕ :=
  if b ∈ q then q else q ++ [b]

/-- The initial liveness state of `_analyze_liveness`: every
`live_before` is empty except the exit block, whose `live_before` is its
`used` set, and every block is on the worklist. -/
def liveInit (c : ACfg) : WorkState :=
  ⟨fun b => if b = c.exit then c.used c.exit else ∅, List.range c.n⟩

/-- The inner loop of `_analyze_liveness`: for each predecessor `p` of
the popped block `bb`, compute
`live_before = {x : x ∈ used(p)} ∪ {x ∈ live_before(bb) : x ∉ assigned(p)}`
and, if it is not contained in `live_before(p)`, enlarge `live_before(p)`
by it and re-queue `p`.  The source reads `bb.vars.live_before` afresh on
every iteration, which the threading of `lv` reproduces. -/
def liveProc (c : ACfg) (bb : ℕ) :
    List ℕ → (ℕ → Finset ℕ) → List ℕ → (ℕ → Finset ℕ) × List ℕ
  | [], lv, q => (lv, q)
  | p :: ps, lv, q =>
    let new := c.used p ∪ (lv bb \ c.assigned p)
    if new ⊆ lv p then liveProc c bb ps lv q
    else liveProc c bb ps (Function.update lv p (lv p ∪ new)) (enqueue q p)

/-- One iteration of the `while len(queue) > 0` loop of
`_analyze_liveness`: pop a block and process all its predecessors. -/
def liveStep (c : ACfg) (s : WorkState) : WorkState :=
  match s.queue with
  | [] => s
  | bb :: rest =>
    let r := liveProc c bb (c.preds bb) s.sets rest
    ⟨r.1, r.2⟩

/-- The worklist loop of `_analyze_liveness`, with explicit fuel; it
returns the `live_before` map once the queue is exhausted.  The main
theorem shows that enough fuel always exists. -/
def liveRun (c : ACfg) : ℕ → WorkState → Option (ℕ → Finset ℕ)
  | 0, _ => none
  | fuel + 1, s =>
    if s.queue.isEmpty then some s.sets else liveRun c fuel (liveStep c s)

/-- A solution of the backward may-liveness constraint system: the exit
obligation and, for every edge `p → b`, the transfer inequality. -/
def LiveSol (c : ACfg) (L : ℕ → Finset ℕ) : Prop :=
  c.used c.exit ⊆ L c.exit ∧
  ∀ b, b < c.n → ∀ p ∈ c.preds b, c.used p ∪ (L b \ c.assigned p) ⊆ L p

/-! ### Elementary facts about `enqueue` and `liveProc` -/

theorem enqueue_subset (q : List ℕ) (b : ℕ) : q ⊆ enqueue q b := by
  unfold enqueue; split
  · exact fun x hx => hx
  · exact fun x hx => List.mem_append_left _ hx

theorem mem_enqueue_self (q : List ℕ) (b : ℕ) : b ∈ enqueue q b := by
  unfold enqueue; split
  · assumption
  · exact List.mem_append_right _ (List.mem_singleton.mpr rfl)

theorem mem_enqueue (q : List ℕ) (b x : ℕ) (hx : x ∈ enqueue q b) :
    x ∈ q ∨ x = b := by
  unfold enqueue at hx; split at hx
  · exact Or.inl hx
  · rcases List.mem_append.mp hx with h | h
    · exact Or.inl h
    · exact Or.inr (List.mem_singleton.mp h)

theorem enqueue_nodup (q : List ℕ) (b : ℕ) (h : q.Nodup) :
    (enqueue q b).Nodup := by
  unfold enqueue; split
  · exact h
  · exact List.Nodup.append h (List.nodup_singleton b)
      (by simpa using fun hb => by simp_all)

theorem liveProc_mono (c : ACfg) (bb : ℕ) :
    ∀ (ps : List ℕ) (lv : ℕ → Finset ℕ) (q : List ℕ) (b : ℕ),
    lv b ⊆ (liveProc c bb ps lv q).1 b := by
  intro ps
  induction ps with
  | nil => intro lv q b; exact fun x hx => hx
  | cons p ps ih =>
    intro lv q b
    simp only [liveProc]
    split
    · exact ih lv q b
    · refine Finset.Subset.trans ?_ (ih _ _ b)
      by_cases hb : b = p
      · subst hb; rw [Function.update_same]; exact Finset.subset_union_left
      · rw [Function.update_noteq hb]

theorem liveProc_queue_subset (c : ACfg) (bb : ℕ) :
    ∀ (ps : List ℕ) (lv : ℕ → Finset ℕ) (q : List ℕ),
    q ⊆ (liveProc c bb ps lv q).2 := by
  intro ps
  induction ps with
  | nil => intro lv q; exact fun x hx => hx
  | cons p ps ih =>
    intro lv q
    simp only [liveProc]
    split
    · exact ih lv q
    · exact fun x hx => ih _ _ (enqueue_subset q p hx)

theorem liveProc_queue_mem (c : ACfg) (bb : ℕ) :
    ∀ (ps : List ℕ) (lv : ℕ → Finset ℕ) (q : List ℕ) (x : ℕ),
    x ∈ (liveProc c bb ps lv q).2 → x ∈ q ∨ x ∈ ps := by
  intro ps
  induction ps with
  | nil => intro lv q x hx; exact Or.inl hx
  | cons p ps ih =>
    intro lv q x hx
    simp only [liveProc] at hx
    split at hx
    · rcases ih _ _ _ hx with h | h
      · exact Or.inl h
      · exact Or.inr (List.mem_cons_of_mem _ h)
    · rcases ih _ _ _ hx with h | h
      · rcases mem_enqueue _ _ _ h with h' | h'
        · exact Or.inl h'
        · exact Or.inr (h' ▸ List.mem_cons_self _ _)
      · exact Or.inr (List.mem_cons_of_mem _ h)

theorem liveProc_queue_nodup (c : ACfg) (bb : ℕ) :
    ∀ (ps : List ℕ) (lv : ℕ → Finset ℕ) (q : List ℕ), q.Nodup →
    (liveProc c bb ps lv q).2.Nodup := by
  intro ps
  induction ps with
  | nil => intro lv q h; exact h
  | cons p ps ih =>
    intro lv q h
    simp only [liveProc]
    split
    · exact ih _ _ h
    · exact ih _ _ (enqueue_nodup q p h)

/-- A block absent from the final queue was never enlarged: every
enlargement of `live_before(p)` re-queues `p`, and the queue only
grows. -/
theorem liveProc_not_queued_eq (c : ACfg) (bb : ℕ) :
    ∀ (ps : List ℕ) (lv : ℕ → Finset ℕ) (q : List ℕ) (b : ℕ),
    b ∉ (liveProc c bb ps lv q).2 → (liveProc c bb ps lv q).1 b = lv b := by
  intro ps
  induction ps with
  | nil => intro lv q b _; rfl
  | cons p ps ih =>
    intro lv q b hb
    simp only [liveProc] at hb ⊢
    by_cases hsub : c.used p ∪ lv bb \ c.assigned p ⊆ lv p
    · rw [if_pos hsub] at hb ⊢
      exact ih _ _ _ hb
    · rw [if_neg hsub] at hb ⊢
      rw [ih _ _ _ hb]
      have hbp : b ≠ p := by
        intro h; subst h
        exact hb (liveProc_queue_subset c bb ps _ _ (mem_enqueue_self q b))
      rw [Function.update_noteq hbp]

/-- If the popped block `bb` did not get re-queued, its own constraints
for all processed predecessors hold at the final sets. -/
theorem liveProc_con_self (c : ACfg) (bb : ℕ) :
    ∀ (ps : List ℕ) (lv : ℕ → Finset ℕ) (q : List ℕ),
    bb ∉ (liveProc c bb ps lv q).2 →
    ∀ p ∈ ps,
      c.used p ∪ ((liveProc c bb ps lv q).1 bb \ c.assigned p) ⊆
        (liveProc c bb ps lv q).1 p := by
  intro ps
  induction ps with
  | nil => intro lv q _ p hp; cases hp
  | cons p₀ ps ih =>
    intro lv q hbb p hp
    have hbbeq : (liveProc c bb (p₀ :: ps) lv q).1 bb = lv bb :=
      liveProc_not_queued_eq c bb _ lv q bb hbb
    simp only [liveProc] at hbb hbbeq ⊢
    by_cases hsub : c.used p₀ ∪ lv bb \ c.assigned p₀ ⊆ lv p₀
    · rw [if_pos hsub] at hbb hbbeq ⊢
      rcases List.mem_cons.mp hp with hpeq | hptl
      · subst hpeq
        rw [hbbeq]
        exact Finset.Subset.trans hsub (liveProc_mono c bb ps lv q p)
      · exact ih lv q hbb p hptl
    · rw [if_neg hsub] at hbb hbbeq ⊢
      rcases List.mem_cons.mp hp with hpeq | hptl
      · subst hpeq
        rw [hbbeq]
        refine Finset.Subset.trans ?_
          (liveProc_mono c bb ps (Function.update lv p (lv p ∪ _)) (enqueue q p) p)
        rw [Function.update_same]
        exact Finset.subset_union_right
      · exact ih _ _ hbb p hptl

/-- Every set stays inside a universe that contains all the `used` sets
of the processed predecessors. -/
theorem liveProc_ub (c : ACfg) (bb : ℕ) (A : Finset ℕ) :
    ∀ (ps : List ℕ) (lv : ℕ → Finset ℕ) (q : List ℕ),
    (∀ b, lv b ⊆ A) → (∀ p ∈ ps, c.used p ⊆ A) →
    ∀ b, (liveProc c bb ps lv q).1 b ⊆ A := by
  intro ps
  induction ps with
  | nil => intro lv q hlv _ b; exact hlv b
  | cons p ps ih =>
    intro lv q hlv hps b
    simp only [liveProc]
    split
    · exact ih _ _ hlv (fun p' hp' => hps p' (List.mem_cons_of_mem _ hp')) b
    · refine ih _ _ ?_ (fun p' hp' => hps p' (List.mem_cons_of_mem _ hp')) b
      intro b'
      by_cases hb' : b' = p
      · subst hb'; rw [Function.update_same]
        refine Finset.union_subset (hlv b') (Finset.union_subset ?_ ?_)
        · exact hps b' (List.mem_cons_self _ _)
        · exact Finset.Subset.trans (Finset.sdiff_subset) (hlv bb)
      · rw [Function.update_noteq hb']; exact hlv b'

/-- Lower-bound invariant: the computed sets never exceed any solution
of the constraint system. -/
theorem liveProc_lb (c : ACfg) (bb : ℕ) (L : ℕ → Finset ℕ)
    (hL : LiveSol c L) (hbb : bb < c.n) :
    ∀ (ps : List ℕ) (lv : ℕ → Finset ℕ) (q : List ℕ),
    (∀ p ∈ ps, p ∈ c.preds bb) → (∀ b, lv b ⊆ L b) →
    ∀ b, (liveProc c bb ps lv q).1 b ⊆ L b := by
  intro ps
  induction ps with
  | nil => intro lv q _ hlv b; exact hlv b
  | cons p ps ih =>
    intro lv q hps hlv b
    simp only [liveProc]
    split
    · exact ih _ _ (fun p' hp' => hps p' (List.mem_cons_of_mem _ hp')) hlv b
    · refine ih _ _ (fun p' hp' => hps p' (List.mem_cons_of_mem _ hp')) ?_ b
      intro b'
      by_cases hb' : b' = p
      · subst hb'; rw [Function.update_same]
        refine Finset.union_subset (hlv b') ?_
        refine Finset.Subset.trans ?_
          (hL.2 bb hbb b' (hps b' (List.mem_cons_self _ _)))
        refine Finset.union_subset Finset.subset_union_left ?_
        refine Finset.Subset.trans ?_ Finset.subset_union_right
        exact Finset.sdiff_subset_sdiff (hlv bb) (fun x hx => hx)
      · rw [Function.update_noteq hb']; exact hlv b'

/-- Blocks that are not processed predecessors keep their sets. -/
theorem liveProc_eq_of_not_mem (c : ACfg) (bb : ℕ) :
    ∀ (ps : List ℕ) (lv : ℕ → Finset ℕ) (q : List ℕ) (b : ℕ), b ∉ ps →
    (liveProc c bb ps lv q).1 b = lv b := by
  intro ps
  induction ps with
  | nil => intro lv q b _; rfl
  | cons p ps ih =>
    intro lv q b hb
    have hbp : b ≠ p := fun h => hb (h ▸ List.mem_cons_self _ _)
    have hbps : b ∉ ps := fun h => hb (List.mem_cons_of_mem _ h)
    simp only [liveProc]
    split
    · exact ih _ _ _ hbps
    · rw [ih _ _ _ hbps, Function.update_noteq hbp]

/-! ### Termination of the liveness worklist -/

/-- The total size of the computed sets over all blocks; it can only
grow, and it is bounded, which drives termination. -/
def phiOf (c : ACfg) (f : ℕ → Finset ℕ) : ℕ :=
  (Finset.range c.n).sum fun b => (f b).card

theorem phiOf_mono (c : ACfg) (f g : ℕ → Finset ℕ) (h : ∀ b, f b ⊆ g b) :
    phiOf c f ≤ phiOf c g :=
  Finset.sum_le_sum fun b _ => Finset.card_le_card (h b)

theorem phiOf_le (c : ACfg) (f : ℕ → Finset ℕ) (A : Finset ℕ)
    (h : ∀ b, f b ⊆ A) : phiOf c f ≤ c.n * A.card := by
  calc phiOf c f ≤ (Finset.range c.n).sum fun _ => A.card :=
        Finset.sum_le_sum fun b _ => Finset.card_le_card (h b)
    _ = c.n * A.card := by simp [Finset.sum_const, Finset.card_range, mul_comm]

/-- Either nothing changed at all, or the total size strictly grew. -/
theorem liveProc_grow (c : ACfg) (bb : ℕ) :
    ∀ (ps : List ℕ) (lv : ℕ → Finset ℕ) (q : List ℕ),
    (∀ p ∈ ps, p < c.n) →
    (liveProc c bb ps lv q).1 = lv ∧ (liveProc c bb ps lv q).2 = q ∨
      phiOf c lv < phiOf c (liveProc c bb ps lv q).1 := by
  intro ps
  induction ps with
  | nil => intro lv q _; exact Or.inl ⟨rfl, rfl⟩
  | cons p ps ih =>
    intro lv q hps
    simp only [liveProc]
    by_cases hsub : c.used p ∪ lv bb \ c.assigned p ⊆ lv p
    · rw [if_pos hsub]
      exact ih lv q fun p' hp' => hps p' (List.mem_cons_of_mem _ hp')
    · rw [if_neg hsub]
      refine Or.inr (lt_of_lt_of_le ?_ (phiOf_mono c _ _
        (liveProc_mono c bb ps _ (enqueue q p))))
      have hgrow : lv p ⊂ lv p ∪ (c.used p ∪ lv bb \ c.assigned p) := by
        refine Finset.ssubset_iff_of_subset Finset.subset_union_left |>.mpr ?_
        rcases Finset.not_subset.mp hsub with ⟨x, hx, hxn⟩
        exact ⟨x, Finset.mem_union_right _ hx, hxn⟩
      refine Finset.sum_lt_sum (fun b _ => ?_) ⟨p, Finset.mem_range.mpr
        (hps p (List.mem_cons_self _ _)), ?_⟩
      · by_cases hb : b = p
        · subst hb; rw [Function.update_same]
          exact Finset.card_le_card Finset.subset_union_left
        · rw [Function.update_noteq hb]
      · rw [Function.update_same]
        exact Finset.card_lt_card hgrow

/-- The worklist invariant of `_analyze_liveness`. -/
structure LiveInv (c : ACfg) (s : WorkState) : Prop where
  ub : ∀ b, s.sets b ⊆ allUsed c
  nd : s.queue.Nodup
  lt : ∀ b ∈ s.queue, b < c.n
  exit_eq : s.sets c.exit = c.used c.exit
  lb : ∀ L, LiveSol c L → ∀ b, s.sets b ⊆ L b
  con : ∀ b, b < c.n → b ∉ s.queue →
    ∀ p ∈ c.preds b, c.used p ∪ (s.sets b \ c.assigned p) ⊆ s.sets p

theorem liveStep_inv (c : ACfg) (s : WorkState) (hwf : LiveWf c)
    (hinv : LiveInv c s) (hne : s.queue ≠ []) : LiveInv c (liveStep c s) := by
  obtain ⟨bb, rest, hq⟩ := List.exists_cons_of_ne_nil hne
  have hbbn : bb < c.n := hinv.lt bb (by rw [hq]; exact List.mem_cons_self _ _)
  have hpred : ∀ p ∈ c.preds bb, p < c.n := hwf.2.1 bb hbbn
  have hrest : rest.Nodup ∧ bb ∉ rest := by
    have := hinv.nd; rw [hq] at this
    exact ⟨this.of_cons, (List.nodup_cons.mp this).1⟩
  unfold liveStep
  rw [hq]
  refine ⟨?_, ?_, ?_, ?_, ?_, ?_⟩ <;> dsimp only
  · exact liveProc_ub c bb (allUsed c) (c.preds bb) s.sets rest hinv.ub
      fun p hp => Finset.subset_biUnion_of_mem c.used
        (Finset.mem_range.mpr (hpred p hp))
  · exact liveProc_queue_nodup c bb _ _ _ hrest.1
  · intro b hb
    rcases liveProc_queue_mem c bb _ _ _ b hb with h | h
    · exact hinv.lt b (by rw [hq]; exact List.mem_cons_of_mem _ h)
    · exact hpred b h
  · rw [liveProc_eq_of_not_mem c bb _ _ _ c.exit (hwf.2.2 bb hbbn)]
    exact hinv.exit_eq
  · intro L hL b
    exact liveProc_lb c bb L hL hbbn (c.preds bb) s.sets rest
      (fun p hp => hp) (hinv.lb L hL) b
  · intro b hbn hbq p hp
    by_cases hbbb : b = bb
    · subst hbbb
      exact liveProc_con_self c b (c.preds b) s.sets rest hbq p hp
    · have hbq' : b ∉ s.queue := by
        rw [hq]
        intro hmem
        rcases List.mem_cons.mp hmem with h | h
        · exact hbbb h
        · exact hbq (liveProc_queue_subset c bb _ _ _ h)
      have hbeq : (liveProc c bb (c.preds bb) s.sets rest).1 b = s.sets b :=
        liveProc_not_queued_eq c bb _ _ _ b hbq
      rw [hbeq]
      exact Finset.Subset.trans (hinv.con b hbn hbq' p hp)
        (liveProc_mono c bb _ _ _ p)

/-- The termination measure for the liveness worklist. -/
def liveMeasure (c : ACfg) (s : WorkState) : ℕ :=
  (c.n * (allUsed c).card - phiOf c s.sets) * (c.n + 1) + s.queue.length

theorem queue_length_le (c : ACfg) (s : WorkState) (hinv : LiveInv c s) :
    s.queue.length ≤ c.n := by
  have h1 : s.queue.length = s.queue.toFinset.card :=
    (List.toFinset_card_of_nodup hinv.nd).symm
  rw [h1]
  refine Finset.card_le_card ?_ |>.trans (le_of_eq (Finset.card_range c.n))
  intro x hx
  exact Finset.mem_range.mpr (hinv.lt x (List.mem_toFinset.mp hx))

theorem liveStep_measure (c : ACfg) (s : WorkState) (hwf : LiveWf c)
    (hinv : LiveInv c s) (hne : s.queue ≠ []) :
    liveMeasure c (liveStep c s) < liveMeasure c s := by
  obtain ⟨bb, rest, hq⟩ := List.exists_cons_of_ne_nil hne
  have hbbn : bb < c.n := hinv.lt bb (by rw [hq]; exact List.mem_cons_self _ _)
  have hpred : ∀ p ∈ c.preds bb, p < c.n := hwf.2.1 bb hbbn
  have hstep : liveStep c s =
      ⟨(liveProc c bb (c.preds bb) s.sets rest).1,
       (liveProc c bb (c.preds bb) s.sets rest).2⟩ := by
    unfold liveStep; rw [hq]
  have hinv' := liveStep_inv c s hwf hinv hne
  have hqlen' : (liveStep c s).queue.length ≤ c.n := queue_length_le c _ hinv'
  have hphi : phiOf c s.sets ≤ c.n * (allUsed c).card :=
    phiOf_le c s.sets (allUsed c) hinv.ub
  have hphi' : phiOf c (liveStep c s).sets ≤ c.n * (allUsed c).card :=
    phiOf_le c _ (allUsed c) hinv'.ub
  rcases liveProc_grow c bb (c.preds bb) s.sets rest hpred with ⟨h1, h2⟩ | hgrow
  · unfold liveMeasure
    rw [hstep]
    simp only [h1, h2]
    have : rest.length < s.queue.length := by rw [hq]; simp
    omega
  · unfold liveMeasure
    rw [hstep] at hqlen' hphi' ⊢
    simp only at hqlen' hphi' ⊢
    have hql : 1 ≤ s.queue.length := by rw [hq]; simp
    have hgrow' : phiOf c s.sets < phiOf c (liveProc c bb (c.preds bb) s.sets rest).1 :=
      hgrow
    -- (M - Φ')*(n+1) + len' < (M - Φ)*(n+1) + len  follows arithmetically
    set M := c.n * (allUsed c).card with hM
    set a := phiOf c s.sets with ha
    set a' := phiOf c (liveProc c bb (c.preds bb) s.sets rest).1 with ha'
    set l' := (liveProc c bb (c.preds bb) s.sets rest).2.length with hl'
    have : M - a' < M - a := by omega
    nlinarith [this, hqlen', hql, Nat.sub_le M a']

/-- With fuel exceeding the measure, the worklist empties and the final
sets satisfy, and are below every solution of, the constraint system. -/
theorem liveRun_total (c : ACfg) (hwf : LiveWf c) :
    ∀ (k : ℕ) (s : WorkState), LiveInv c s → liveMeasure c s ≤ k →
    ∃ lv, liveRun c (k + 1) s = some lv ∧
      lv c.exit = c.used c.exit ∧
      (∀ b, b < c.n → ∀ p ∈ c.preds b,
        c.used p ∪ (lv b \ c.assigned p) ⊆ lv p) ∧
      (∀ L, LiveSol c L → ∀ b, lv b ⊆ L b) := by
  intro k
  induction k with
  | zero =>
    intro s hinv hk
    have hq : s.queue = [] := by
      have := hk
      unfold liveMeasure at this
      exact List.eq_nil_of_length_eq_zero (by omega)
    refine ⟨s.sets, ?_, hinv.exit_eq, ?_, hinv.lb⟩
    · unfold liveRun
      rw [if_pos (by simp [hq])]
    · intro b hb p hp
      exact hinv.con b hb (by simp [hq]) p hp
  | succ k ih =>
    intro s hinv hk
    by_cases hq : s.queue = []
    · refine ⟨s.sets, ?_, hinv.exit_eq, ?_, hinv.lb⟩
      · unfold liveRun
        rw [if_pos (by simp [hq])]
      · intro b hb p hp
        exact hinv.con b hb (by simp [hq]) p hp
    · have hinv' := liveStep_inv c s hwf hinv hq
      have hmeas := liveStep_measure c s hwf hinv hq
      obtain ⟨lv, hrun, hprops⟩ := ih (liveStep c s) hinv' (by omega)
      refine ⟨lv, ?_, hprops⟩
      unfold liveRun
      rw [if_neg (by simpa using hq)]
      exact hrun

/-- Claim C2: `CFG._analyze_liveness` computes the least fixed point of
the backward may-liveness equations.  For every well-formed CFG the
worklist iteration terminates (some fuel suffices) and the computed
`live_before` map satisfies `live_before(exit) = used(exit)`, satisfies
`live_before(p) ⊇ used(p) ∪ (live_before(b) \ assigned(p))` for every
block `b` and every predecessor `p` of `b`, and is pointwise contained
in every other family of sets satisfying those constraints — i.e. it is
exactly the smallest solution. -/
theorem analyze_liveness_least_fixpoint (c : ACfg) (hwf : LiveWf c) :
    ∃ fuel lv, liveRun c fuel (liveInit c) = some lv ∧
      lv c.exit = c.used c.exit ∧
      (∀ b, b < c.n → ∀ p ∈ c.preds b,
        c.used p ∪ (lv b \ c.assigned p) ⊆ lv p) ∧
      (∀ L, LiveSol c L → ∀ b, lv b ⊆ L b) := by
  have hinv : LiveInv c (liveInit c) := by
    refine ⟨?_, List.nodup_range _, ?_, ?_, ?_, ?_⟩
    · intro b
      dsimp only [liveInit]
      split
      · next hb =>
        subst hb
        exact Finset.subset_biUnion_of_mem c.used (Finset.mem_range.mpr hwf.1)
      · exact Finset.empty_subset _
    · intro b hb
      exact List.mem_range.mp hb
    · dsimp only [liveInit]
      rw [if_pos rfl]
    · intro L hL b
      dsimp only [liveInit]
      split
      · next hb => subst hb; exact hL.1
      · exact Finset.empty_subset _
    · intro b hb hbq
      exact absurd (List.mem_range.mpr hb) hbq
  obtain ⟨lv, hrun, hprops⟩ :=
    liveRun_total c hwf (liveMeasure c (liveInit c)) (liveInit c) hinv le_rfl
  exact ⟨liveMeasure c (liveInit c) + 1, lv, hrun, hprops⟩

/-- A two-block CFG (entry `0`, exit `1`, one edge `0 → 1`) with
`used(0) = {7}`, `assigned(0) = {3}`, `used(1) = {3}`: the shape of
`def f(): x = g(y); return x` after return-variable lowering. -/
def exLiveCfg : ACfg where
  n := 2
  preds := fun b => if b = 1 then [0] else []
  succs := fun b => if b = 0 then [1] else []
  used := fun b => if b = 0 then {7} else if b = 1 then {3} else ∅
  assigned := fun b => if b = 0 then {3} else ∅
  entry := 0
  exit := 1

theorem analyze_liveness_least_fixpoint_witness :
    LiveWf exLiveCfg ∧
    ∃ fuel lv, liveRun exLiveCfg fuel (liveInit exLiveCfg) = some lv ∧
      lv exLiveCfg.exit = exLiveCfg.used exLiveCfg.exit ∧
      (∀ b, b < exLiveCfg.n → ∀ p ∈ exLiveCfg.preds b,
        exLiveCfg.used p ∪ (lv b \ exLiveCfg.assigned p) ⊆ lv p) ∧
      (∀ L, LiveSol exLiveCfg L → ∀ b, lv b ⊆ L b) :=
  ⟨by decide, analyze_liveness_least_fixpoint exLiveCfg (by decide)⟩

/-! ## Definite assignment (`CFG._analyze_definite_assignment`)

The source initialises `assigned_before` of every block to `all_vars`,
then overwrites the *entry* block with the **empty set**
(`self.entry_bb.vars.assigned_before = set()`), and iterates: popping
`bb`, it computes `assigned_after = assigned_before(bb) ∪ assigned(bb)`
once, and for each successor intersects `assigned_before(succ)` with it
(re-queuing the successor when the set shrank).  Note that
`assigned_after` is computed *before* the successor loop and is not
refreshed inside it, which the `after` parameter below reproduces. -/

/-- Well-formedness used by the definite-assignment theorem: the entry
index is a real block, successor lists mention real blocks, and the
entry block is never a successor (it has no predecessors). -/
def AssignWf (c : ACfg) : Prop :=
  c.entry < c.n ∧
  (∀ b, b < c.n → ∀ s ∈ c.succs b, s < c.n) ∧
  (∀ b, b < c.n → c.entry ∉ c.succs b)

instance (c : ACfg) : Decidable (AssignWf c) := by
  unfold AssignWf; infer_instance

/-- The initial state of `_analyze_definite_assignment`: all blocks get
`all_vars`, then the entry block is overwritten with `∅`, and every
block is queued. -/
def assignInit (c : ACfg) : WorkState :=
  ⟨fun b => if b = c.entry then ∅ else allVars c, List.range c.n⟩

/-- The inner `for succ in bb.successors` loop of
`_analyze_definite_assignment`, with the pre-computed `assigned_after`
set held fixed exactly as in the source. -/
def assignProc (c : ACfg) (after : Finset ℕ) :
    List ℕ → (ℕ → Finset ℕ) → List ℕ → (ℕ → Finset ℕ) × List ℕ
  | [], av, q => (av, q)
  | sc :: ss, av, q =>
    if av sc ⊆ after then assignProc c after ss av q
    else assignProc c after ss (Function.update av sc (av sc ∩ after)) (enqueue q sc)

/-- One iteration of the `while` loop of
`_analyze_definite_assignment`. -/
def assignStep (c : ACfg) (s : WorkState) : WorkState :=
  match s.queue with
  | [] => s
  | bb :: rest =>
    let after := s.sets bb ∪ c.assigned bb
    let r := assignProc c after (c.succs bb) s.sets rest
    ⟨r.1, r.2⟩

/-- The worklist loop of `_analyze_definite_assignment` with explicit
fuel. -/
def assignRun (c : ACfg) : ℕ → WorkState → Option (ℕ → Finset ℕ)
  | 0, _ => none
  | fuel + 1, s =>
    if s.queue.isEmpty then some s.sets
    else assignRun c fuel (assignStep c s)

/-- A solution of the forward must-assignment constraint system (with
the empty entry set actually used by the source, and bounded by the
universe of names, which is where the iteration starts). -/
def AssignSol (c : ACfg) (L : ℕ → Finset ℕ) : Prop :=
  L c.entry = ∅ ∧
  (∀ b, b < c.n → ∀ sc ∈ c.succs b, L sc ⊆ L b ∪ c.assigned b) ∧
  (∀ b, L b ⊆ allVars c)

theorem assignProc_anti (c : ACfg) (after : Finset ℕ) :
    ∀ (ss : List ℕ) (av : ℕ → Finset ℕ) (q : List ℕ) (b : ℕ),
    (assignProc c after ss av q).1 b ⊆ av b := by
  intro ss
  induction ss with
  | nil => intro av q b; exact fun x hx => hx
  | cons sc ss ih =>
    intro av q b
    simp only [assignProc]
    split
    · exact ih av q b
    · refine Finset.Subset.trans (ih _ _ b) ?_
      by_cases hb : b = sc
      · subst hb; rw [Function.update_same]; exact Finset.inter_subset_left
      · rw [Function.update_noteq hb]

theorem assignProc_queue_subset (c : ACfg) (after : Finset ℕ) :
    ∀ (ss : List ℕ) (av : ℕ → Finset ℕ) (q : List ℕ),
    q ⊆ (assignProc c after ss av q).2 := by
  intro ss
  induction ss with
  | nil => intro av q; exact fun x hx => hx
  | cons sc ss ih =>
    intro av q
    simp only [assignProc]
    split
    · exact ih av q
    · exact fun x hx => ih _ _ (enqueue_subset q sc hx)

theorem assignProc_queue_mem (c : ACfg) (after : Finset ℕ) :
    ∀ (ss : List ℕ) (av : ℕ → Finset ℕ) (q : List ℕ) (x : ℕ),
    x ∈ (assignProc c after ss av q).2 → x ∈ q ∨ x ∈ ss := by
  intro ss
  induction ss with
  | nil => intro av q x hx; exact Or.inl hx
  | cons sc ss ih =>
    intro av q x hx
    simp only [assignProc] at hx
    split at hx
    · rcases ih _ _ _ hx with h | h
      · exact Or.inl h
      · exact Or.inr (List.mem_cons_of_mem _ h)
    · rcases ih _ _ _ hx with h | h
      · rcases mem_enqueue _ _ _ h with h' | h'
        · exact Or.inl h'
        · exact Or.inr (h' ▸ List.mem_cons_self _ _)
      · exact Or.inr (List.mem_cons_of_mem _ h)

theorem assignProc_queue_nodup (c : ACfg) (after : Finset ℕ) :
    ∀ (ss : List ℕ) (av : ℕ → Finset ℕ) (q : List ℕ), q.Nodup →
    (assignProc c after ss av q).2.Nodup := by
  intro ss
  induction ss with
  | nil => intro av q h; exact h
  | cons sc ss ih =>
    intro av q h
    simp only [assignProc]
    split
    · exact ih _ _ h
    · exact ih _ _ (enqueue_nodup q sc h)

theorem assignProc_not_queued_eq (c : ACfg) (after : Finset ℕ) :
    ∀ (ss : List ℕ) (av : ℕ → Finset ℕ) (q : List ℕ) (b : ℕ),
    b ∉ (assignProc c after ss av q).2 →
    (assignProc c after ss av q).1 b = av b := by
  intro ss
  induction ss with
  | nil => intro av q b _; rfl
  | cons sc ss ih =>
    intro av q b hb
    simp only [assignProc] at hb ⊢
    by_cases hsub : av sc ⊆ after
    · rw [if_pos hsub] at hb ⊢
      exact ih _ _ _ hb
    · rw [if_neg hsub] at hb ⊢
      rw [ih _ _ _ hb]
      have hbp : b ≠ sc := by
        intro h; subst h
        exact hb (assignProc_queue_subset c after ss _ _ (mem_enqueue_self q b))
      rw [Function.update_noteq hbp]

/-- After the successor loop, every processed successor is below the
(fixed) `assigned_after` set. -/
theorem assignProc_con (c : ACfg) (after : Finset ℕ) :
    ∀ (ss : List ℕ) (av : ℕ → Finset ℕ) (q : List ℕ),
    ∀ sc ∈ ss, (assignProc c after ss av q).1 sc ⊆ after := by
  intro ss
  induction ss with
  | nil => intro av q sc hsc; cases hsc
  | cons s₀ ss ih =>
    intro av q sc hsc
    simp only [assignProc]
    by_cases hsub : av s₀ ⊆ after
    · rw [if_pos hsub]
      rcases List.mem_cons.mp hsc with heq | htl
      · subst heq
        exact Finset.Subset.trans (assignProc_anti c after ss av q sc) hsub
      · exact ih av q sc htl
    · rw [if_neg hsub]
      rcases List.mem_cons.mp hsc with heq | htl
      · subst heq
        refine Finset.Subset.trans
          (assignProc_anti c after ss _ (enqueue q sc) sc) ?_
        rw [Function.update_same]
        exact Finset.inter_subset_right
      · exact ih _ _ sc htl

/-- Upper-bound invariant: every solution stays below the computed
sets. -/
theorem assignProc_gb (c : ACfg) (bb : ℕ) (L : ℕ → Finset ℕ)
    (hL : AssignSol c L) (hbb : bb < c.n) (after : Finset ℕ)
    (hafter : L bb ∪ c.assigned bb ⊆ after) :
    ∀ (ss : List ℕ) (av : ℕ → Finset ℕ) (q : List ℕ),
    (∀ sc ∈ ss, sc ∈ c.succs bb) → (∀ b, L b ⊆ av b) →
    ∀ b, L b ⊆ (assignProc c after ss av q).1 b := by
  intro ss
  induction ss with
  | nil => intro av q _ hav b; exact hav b
  | cons sc ss ih =>
    intro av q hss hav b
    simp only [assignProc]
    split
    · exact ih _ _ (fun s' hs' => hss s' (List.mem_cons_of_mem _ hs')) hav b
    · refine ih _ _ (fun s' hs' => hss s' (List.mem_cons_of_mem _ hs')) ?_ b
      intro b'
      by_cases hb' : b' = sc
      · subst hb'; rw [Function.update_same]
        refine Finset.subset_inter (hav b') ?_
        refine Finset.Subset.trans ?_ hafter
        exact Finset.Subset.trans
          (hL.2.1 bb hbb b' (hss b' (List.mem_cons_self _ _)))
          (Finset.union_subset_union (fun x hx => hx) (fun x hx => hx))
      · rw [Function.update_noteq hb']; exact hav b'

theorem assignProc_eq_of_not_mem (c : ACfg) (after : Finset ℕ) :
    ∀ (ss : List ℕ) (av : ℕ → Finset ℕ) (q : List ℕ) (b : ℕ), b ∉ ss →
    (assignProc c after ss av q).1 b = av b := by
  intro ss
  induction ss with
  | nil => intro av q b _; rfl
  | cons sc ss ih =>
    intro av q b hb
    have hbp : b ≠ sc := fun h => hb (h ▸ List.mem_cons_self _ _)
    have hbps : b ∉ ss := fun h => hb (List.mem_cons_of_mem _ h)
    simp only [assignProc]
    split
    · exact ih _ _ _ hbps
    · rw [ih _ _ _ hbps, Function.update_noteq hbp]

/-- Either nothing changed, or the total size strictly shrank. -/
theorem assignProc_shrink (c : ACfg) (after : Finset ℕ) :
    ∀ (ss : List ℕ) (av : ℕ → Finset ℕ) (q : List ℕ),
    (∀ sc ∈ ss, sc < c.n) →
    (assignProc c after ss av q).1 = av ∧ (assignProc c after ss av q).2 = q ∨
      phiOf c (assignProc c after ss av q).1 < phiOf c av := by
  intro ss
  induction ss with
  | nil => intro av q _; exact Or.inl ⟨rfl, rfl⟩
  | cons sc ss ih =>
    intro av q hss
    simp only [assignProc]
    by_cases hsub : av sc ⊆ after
    · rw [if_pos hsub]
      exact ih av q fun s' hs' => hss s' (List.mem_cons_of_mem _ hs')
    · rw [if_neg hsub]
      refine Or.inr (lt_of_le_of_lt (phiOf_mono c _ _
        (assignProc_anti c after ss _ (enqueue q sc))) ?_)
      have hshrink : av sc ∩ after ⊂ av sc := by
        refine Finset.ssubset_iff_of_subset Finset.inter_subset_left |>.mpr ?_
        rcases Finset.not_subset.mp hsub with ⟨x, hx, hxn⟩
        exact ⟨x, hx, fun hmem => hxn (Finset.mem_of_mem_inter_right hmem)⟩
      refine Finset.sum_lt_sum (fun b _ => ?_) ⟨sc, Finset.mem_range.mpr
        (hss sc (List.mem_cons_self _ _)), ?_⟩
      · by_cases hb : b = sc
        · subst hb; rw [Function.update_same]
          exact Finset.card_le_card Finset.inter_subset_left
        · rw [Function.update_noteq hb]
      · rw [Function.update_same]
        exact Finset.card_lt_card hshrink

/-- The worklist invariant of `_analyze_definite_assignment`. -/
structure AssignInv (c : ACfg) (s : WorkState) : Prop where
  nd : s.queue.Nodup
  lt : ∀ b ∈ s.queue, b < c.n
  entry_eq : s.sets c.entry = ∅
  gb : ∀ L, AssignSol c L → ∀ b, L b ⊆ s.sets b
  con : ∀ b, b < c.n → b ∉ s.queue →
    ∀ sc ∈ c.succs b, s.sets sc ⊆ s.sets b ∪ c.assigned b

theorem assignStep_inv (c : ACfg) (s : WorkState) (hwf : AssignWf c)
    (hinv : AssignInv c s) (hne : s.queue ≠ []) :
    AssignInv c (assignStep c s) := by
  obtain ⟨bb, rest, hq⟩ := List.exists_cons_of_ne_nil hne
  have hbbn : bb < c.n := hinv.lt bb (by rw [hq]; exact List.mem_cons_self _ _)
  have hsucc : ∀ sc ∈ c.succs bb, sc < c.n := hwf.2.1 bb hbbn
  have hrest : rest.Nodup := by
    have := hinv.nd; rw [hq] at this; exact this.of_cons
  unfold assignStep
  rw [hq]
  refine ⟨?_, ?_, ?_, ?_, ?_⟩ <;> dsimp only
  · exact assignProc_queue_nodup c _ _ _ _ hrest
  · intro b hb
    rcases assignProc_queue_mem c _ _ _ _ b hb with h | h
    · exact hinv.lt b (by rw [hq]; exact List.mem_cons_of_mem _ h)
    · exact hsucc b h
  · rw [assignProc_eq_of_not_mem c _ _ _ _ c.entry (hwf.2.2 bb hbbn)]
    exact hinv.entry_eq
  · intro L hL b
    exact assignProc_gb c bb L hL hbbn _
      (Finset.union_subset_union (hinv.gb L hL bb) (fun x hx => hx))
      (c.succs bb) s.sets rest (fun s' hs' => hs') (hinv.gb L hL) b
  · intro b hbn hbq sc hsc
    by_cases hbbb : b = bb
    · subst hbbb
      have hbeq : (assignProc c (s.sets b ∪ c.assigned b) (c.succs b) s.sets rest).1 b
          = s.sets b :=
        assignProc_not_queued_eq c _ _ _ _ b hbq
      rw [hbeq]
      exact assignProc_con c _ (c.succs b) s.sets rest sc hsc
    · have hbq' : b ∉ s.queue := by
        rw [hq]
        intro hmem
        rcases List.mem_cons.mp hmem with h | h
        · exact hbbb h
        · exact hbq (assignProc_queue_subset c _ _ _ _ h)
      have hbeq : (assignProc c (s.sets bb ∪ c.assigned bb) (c.succs bb) s.sets rest).1 b
          = s.sets b :=
        assignProc_not_queued_eq c _ _ _ _ b hbq
      rw [hbeq]
      exact Finset.Subset.trans (assignProc_anti c _ _ _ _ sc)
        (hinv.con b hbn hbq' sc hsc)

/-- The termination measure for the definite-assignment worklist. -/
def assignMeasure (c : ACfg) (s : WorkState) : ℕ :=
  phiOf c s.sets * (c.n + 1) + s.queue.length

theorem assign_queue_length_le (c : ACfg) (s : WorkState)
    (hinv : AssignInv c s) : s.queue.length ≤ c.n := by
  have h1 : s.queue.length = s.queue.toFinset.card :=
    (List.toFinset_card_of_nodup hinv.nd).symm
  rw [h1]
  refine Finset.card_le_card ?_ |>.trans (le_of_eq (Finset.card_range c.n))
  intro x hx
  exact Finset.mem_range.mpr (hinv.lt x (List.mem_toFinset.mp hx))

theorem assignStep_measure (c : ACfg) (s : WorkState) (hwf : AssignWf c)
    (hinv : AssignInv c s) (hne : s.queue ≠ []) :
    assignMeasure c (assignStep c s) < assignMeasure c s := by
  obtain ⟨bb, rest, hq⟩ := List.exists_cons_of_ne_nil hne
  have hbbn : bb < c.n := hinv.lt bb (by rw [hq]; exact List.mem_cons_self _ _)
  have hsucc : ∀ sc ∈ c.succs bb, sc < c.n := hwf.2.1 bb hbbn
  have hstep : assignStep c s =
      ⟨(assignProc c (s.sets bb ∪ c.assigned bb) (c.succs bb) s.sets rest).1,
       (assignProc c (s.sets bb ∪ c.assigned bb) (c.succs bb) s.sets rest).2⟩ := by
    unfold assignStep; rw [hq]
  have hinv' := assignStep_inv c s hwf hinv hne
  have hqlen' : (assignStep c s).queue.length ≤ c.n :=
    assign_queue_length_le c _ hinv'
  rcases assignProc_shrink c (s.sets bb ∪ c.assigned bb) (c.succs bb)
    s.sets rest hsucc with ⟨h1, h2⟩ | hshrink
  · unfold assignMeasure
    rw [hstep]
    simp only [h1, h2]
    have : rest.length < s.queue.length := by rw [hq]; simp
    omega
  · unfold assignMeasure
    rw [hstep] at hqlen' ⊢
    simp only at hqlen' ⊢
    have hql : 1 ≤ s.queue.length := by rw [hq]; simp
    set a := phiOf c s.sets with ha
    set a' := phiOf c
      (assignProc c (s.sets bb ∪ c.assigned bb) (c.succs bb) s.sets rest).1 with ha'
    nlinarith [hshrink, hqlen', hql]

theorem assignRun_total (c : ACfg) (hwf : AssignWf c) :
    ∀ (k : ℕ) (s : WorkState), AssignInv c s → assignMeasure c s ≤ k →
    ∃ av, assignRun c (k + 1) s = some av ∧
      av c.entry = ∅ ∧
      (∀ b, b < c.n → ∀ sc ∈ c.succs b, av sc ⊆ av b ∪ c.assigned b) ∧
      (∀ L, AssignSol c L → ∀ b, L b ⊆ av b) := by
  intro k
  induction k with
  | zero =>
    intro s hinv hk
    have hq : s.queue = [] := by
      unfold assignMeasure at hk
      exact List.eq_nil_of_length_eq_zero (by omega)
    refine ⟨s.sets, ?_, hinv.entry_eq, ?_, hinv.gb⟩
    · unfold assignRun
      rw [if_pos (by simp [hq])]
    · intro b hb sc hsc
      exact hinv.con b hb (by simp [hq]) sc hsc
  | succ k ih =>
    intro s hinv hk
    by_cases hq : s.queue = []
    · refine ⟨s.sets, ?_, hinv.entry_eq, ?_, hinv.gb⟩
      · unfold assignRun
        rw [if_pos (by simp [hq])]
      · intro b hb sc hsc
        exact hinv.con b hb (by simp [hq]) sc hsc
    · have hinv' := assignStep_inv c s hwf hinv hq
      have hmeas := assignStep_measure c s hwf hinv hq
      obtain ⟨av, hrun, hprops⟩ := ih (assignStep c s) hinv' (by omega)
      refine ⟨av, ?_, hprops⟩
      unfold assignRun
      rw [if_neg (by simpa using hq)]
      exact hrun

/-- Claim C3 (amended): `CFG._analyze_definite_assignment` is a forward
must-analysis computing the greatest fixed point, but the entry block is
initialised to the **empty set** — not to the formal parameters and
globals, which the source handles separately when the entry block's
uses are checked during compilation.  Every non-entry block is
initialised to the set of all names (so intersection at joins works on
the first visit), the iteration terminates, the result satisfies
`assigned_before(succ) ⊆ assigned_before(b) ∪ assigned(b)` for every
edge, and every solution of those constraints lies below it. -/
theorem analyze_definite_assignment_greatest_fixpoint (c : ACfg)
    (hwf : AssignWf c) :
    (∀ b, b ≠ c.entry → (assignInit c).sets b = allVars c) ∧
    ∃ fuel av, assignRun c fuel (assignInit c) = some av ∧
      av c.entry = ∅ ∧
      (∀ b, b < c.n → ∀ sc ∈ c.succs b, av sc ⊆ av b ∪ c.assigned b) ∧
      (∀ L, AssignSol c L → ∀ b, L b ⊆ av b) := by
  have hinv : AssignInv c (assignInit c) := by
    refine ⟨List.nodup_range _, ?_, ?_, ?_, ?_⟩
    · intro b hb
      exact List.mem_range.mp hb
    · dsimp only [assignInit]
      rw [if_pos rfl]
    · intro L hL b
      dsimp only [assignInit]
      split
      · next hb => subst hb; rw [hL.1]
      · exact hL.2.2 b
    · intro b hb hbq
      exact absurd (List.mem_range.mpr hb) hbq
  obtain ⟨av, hrun, hprops⟩ :=
    assignRun_total c hwf (assignMeasure c (assignInit c)) (assignInit c)
      hinv le_rfl
  refine ⟨?_, assignMeasure c (assignInit c) + 1, av, hrun, hprops⟩
  intro b hb
  dsimp only [assignInit]
  rw [if_neg hb]

theorem analyze_definite_assignment_greatest_fixpoint_witness :
    AssignWf exLiveCfg ∧
    ((∀ b, b ≠ exLiveCfg.entry → (assignInit exLiveCfg).sets b = allVars exLiveCfg) ∧
    ∃ fuel av, assignRun exLiveCfg fuel (assignInit exLiveCfg) = some av ∧
      av exLiveCfg.entry = ∅ ∧
      (∀ b, b < exLiveCfg.n → ∀ sc ∈ exLiveCfg.succs b,
        av sc ⊆ av b ∪ exLiveCfg.assigned b) ∧
      (∀ L, AssignSol exLiveCfg L → ∀ b, L b ⊆ av b)) :=
  ⟨by decide, analyze_definite_assignment_greatest_fixpoint exLiveCfg (by decide)⟩

/-- Claim C3, counterexample.  For a function with a formal parameter —
say parameter `7`, used in the entry block of `exLiveCfg` — the claim
asserts `assigned_before(entry) = {formals} ∪ {globals} = {7}`.  The
source instead sets `assigned_before(entry)` to the empty set (formals
are special-cased later, in `CFG.compile`): running the analysis on this
CFG yields `∅` at the entry block, not `{7}`. -/
theorem analyze_definite_assignment_entry_not_formals :
    (assignRun exLiveCfg 10 (assignInit exLiveCfg)).map (fun f => f 0) = some ∅ ∧
    (∅ : Finset ℕ) ≠ {7} := by
  constructor
  · decide
  · decide

/-! ## CFG construction (`guppy/cfg.py`: `CFGBuilder`, `ExprBuilder`,
`BranchBuilder`)

Basic blocks are modelled by their adjacency data and branch predicate;
the statement lists and `used`/`assigned` bookkeeping of the source do
not influence which edges are created and are omitted.  A CFG under
construction is the list of its blocks, indexed by position (the source
uses `BB(len(self.bbs), ...)` so a block's index is its position in
`cfg.bbs`).  Expressions are restricted to the shapes that drive
branching: opaque atoms (names, calls, comparisons of atoms, …, which
the `ExprBuilder` returns unchanged), `not`, `and`/`or` chains, and
conditional expressions. -/

/-- A basic block as built by `guppy/cfg.py`: successor and predecessor
index lists and the optional branch predicate installed by
`BranchBuilder.generic_visit` (always an atom in this grammar). -/
structure MBB where
  succs : List ℕ
  preds : List ℕ
  branchPred : Option ℕ
deriving DecidableEq

/-- A CFG under construction: the list `cfg.bbs`. -/
abbrev BState := List MBB

/-- The boolean operator of a `BoolOp` node. -/
inductive BoolOpKind where
  | andOp
  | orOp
deriving DecidableEq

/-- Expressions, as far as CFG construction distinguishes them.  A
`boolop op l r vs` node models a Python `BoolOp` with operand list
`l :: r :: vs` (the parser guarantees at least two operands). -/
inductive GExpr where
  | atom (a : ℕ)
  | bnot (e : GExpr)
  | boolop (op : BoolOpKind) (l r : GExpr) (vs : List GExpr)
  | ifexp (test body orelse : GExpr)

/-- Statements, as far as CFG construction distinguishes them.
`functionalAnno` is a statement satisfying `is_functional_annotation`
(the `_ @ functional` pseudo-decorator). -/
inductive GStmt where
  | assign (value : GExpr)
  | augAssign (value : GExpr)
  | exprStmt (value : GExpr)
  | ifStmt (test : GExpr) (body orelse : List GStmt)
  | whileStmt (test : GExpr) (body : List GStmt)
  | brk
  | cont
  | ret (value : Option GExpr)
  | pass
  | functionalAnno

/-- `is_functional_annotation` of `guppy/cfg.py`. -/
def is_functional_anno : GStmt → Bool
  | .functionalAnno => true
  | _ => false

/-- Point update of one block of the CFG (mutation of a `BB` object in
the source); out-of-range indices never occur in the source and leave
the state unchanged here. -/
def modifyBB : BState → ℕ → (MBB → MBB) → BState
  | [], _, _ => []
  | x :: xs, 0, f => f x :: xs
  | x :: xs, b + 1, f => x :: modifyBB xs b f

/-- Reading a block; out of range yields an empty dummy block. -/
def getBB (s : BState) (b : ℕ) : MBB :=
  s.getD b ⟨[], [], none⟩

/-- `CFG.link`: `src_bb.successors.append(tgt_bb)` and
`tgt_bb.predecessors.append(src_bb)`. -/
def link (s : BState) (a b : ℕ) : BState :=
  modifyBB (modifyBB s a fun x => { x with succs := x.succs ++ [b] }) b
    fun x => { x with preds := x.preds ++ [a] }

/-- The `for p in preds: p.successors.append(bb)` loop of
`CFG.new_bb`. -/
def pushSuccs (s : BState) (idNew : ℕ) : List ℕ → BState
  | [] => s
  | p :: ps =>
    pushSuccs (modifyBB s p fun x => { x with succs := x.succs ++ [idNew] })
      idNew ps

/-- `CFG.new_bb`: append `BB(len(self.bbs), predecessors=preds)` and
register the new block as successor of every given predecessor. -/
def new_bb (s : BState) (preds : List ℕ) : BState :=
  pushSuccs (s ++ [⟨[], preds, none⟩]) s.length preds

/-- Installing `bb.branch_pred = pred` in
`BranchBuilder.generic_visit`. -/
def setBranch (s : BState) (b : ℕ) (a : ℕ) : BState :=
  modifyBB s b fun x => { x with branchPred := some a }

/-- `BranchBuilder.visit`: lower `e` as a branch predicate of block
`bb`, wiring control flow to `t` (true) and `f` (false).

* an atom reaches `generic_visit`: the flattened expression becomes the
  block's `branch_pred` and both targets are linked;
* `visit_UnaryOp` with `not` swaps the targets;
* `visit_BoolOp` creates the fresh `extra_bb`; for more than two
  operands, the source first replaces the operand list
  `v₀, v₁, v₂, …` by the two operands `v₀, BoolOp(v₁, v₂, …)` and
  falls through to the binary case, which is inlined here;
* `visit_IfExp` creates fresh blocks for both arms and branches on the
  test. -/
def visitBranch : GExpr → BState → ℕ → ℕ → ℕ → BState
  | .atom a, s, bb, t, f => link (link (setBranch s bb a) bb t) bb f
  | .bnot e, s, bb, t, f => visitBranch e s bb f t
  | .boolop .andOp l r [], s, bb, t, f =>
    let extra := s.length
    let s₁ := new_bb s []
    visitBranch r (visitBranch l s₁ bb extra f) extra t f
  | .boolop .orOp l r [], s, bb, t, f =>
    let extra := s.length
    let s₁ := new_bb s []
    visitBranch r (visitBranch l s₁ bb t extra) extra t f
  | .boolop .andOp l r (v :: vs), s, bb, t, f =>
    let extra := s.length
    let s₁ := new_bb s []
    visitBranch (.boolop .andOp r v vs) (visitBranch l s₁ bb extra f) extra t f
  | .boolop .orOp l r (v :: vs), s, bb, t, f =>
    let extra := s.length
    let s₁ := new_bb s []
    visitBranch (.boolop .orOp r v vs) (visitBranch l s₁ bb t extra) extra t f
  | .ifexp c a b, s, bb, t, f =>
    let ifId := s.length
    let s₁ := new_bb s []
    let elseId := s₁.length
    let s₂ := new_bb s₁ []
    let s₃ := visitBranch c s₂ bb ifId elseId
    let s₄ := visitBranch a s₃ ifId t f
    visitBranch b s₄ elseId t f
termination_by e _ _ _ _ => sizeOf e
decreasing_by all_goals (simp_wf <;> omega)

/-- `ExprBuilder.visit` (as `build`): flatten an expression into the
current block, possibly creating new blocks, and return the block in
which the flattened expression is available.

* atoms (and `not` applied to its operand, via the node transformer's
  recursion) create nothing;
* a short-circuit expression gets `true`/`false` blocks wired by the
  branch builder, temporaries assigned in both, and a merge block
  (`ExprBuilder.generic_visit`);
* a conditional expression gets two arm blocks, each arm recursively
  built, and a merge block (`ExprBuilder.visit_IfExp`). -/
def exprBuild : GExpr → BState → ℕ → BState × ℕ
  | .atom _, s, bb => (s, bb)
  | .bnot e, s, bb => exprBuild e s bb
  | .boolop op l r vs, s, bb =>
    let trueId := s.length
    let s₁ := new_bb s []
    let falseId := s₁.length
    let s₂ := new_bb s₁ []
    let s₃ := visitBranch (.boolop op l r vs) s₂ bb trueId falseId
    let mergeId := s₃.length
    (new_bb s₃ [trueId, falseId], mergeId)
  | .ifexp c a b, s, bb =>
    let ifId := s.length
    let s₁ := new_bb s []
    let elseId := s₁.length
    let s₂ := new_bb s₁ []
    let s₃ := visitBranch c s₂ bb ifId elseId
    let r₁ := exprBuild a s₃ ifId
    let r₂ := exprBuild b r₁.1 elseId
    let mergeId := r₂.1.length
    (new_bb r₂.1 [r₁.2, r₂.2], mergeId)

/-- The jump targets carried through `CFGBuilder` (`Jumps`). -/
structure Jumps where
  ret : ℕ
  cont : Option ℕ
  brk : Option ℕ

/-- Failures of CFG construction. -/
inductive BuildErr where
  | unreachableCode (stmt : GStmt)
  | internalContinue
  | internalBreak
  | notImpl
  | expectedReturn

mutual

/-- `CFGBuilder.visit_*`: build one statement into the CFG; the result
is the block in which construction continues, or `none` after an
unconditional jump. -/
def visitStmt : GStmt → BState → ℕ → Jumps → Except BuildErr (BState × Option ℕ)
  | .assign value, s, bb, _ =>
    let r := exprBuild value s bb
    .ok (r.1, some r.2)
  | .augAssign _, s, bb, _ => .ok (s, some bb)
  | .exprStmt value, s, bb, _ =>
    let r := exprBuild value s bb
    .ok (r.1, some r.2)
  | .ifStmt test body orelse, s, bb, j => do
    let ifId := s.length
    let s₁ := new_bb s []
    let elseId := s₁.length
    let s₂ := new_bb s₁ []
    let s₃ := visitBranch test s₂ bb ifId elseId
    let r₁ ← visitStmtsAux body s₃ (some ifId) j false
    let r₂ ← visitStmtsAux orelse r₁.1 (some elseId) j false
    match r₁.2, r₂.2 with
    | none, none => .ok (r₂.1, none)
    | none, some e => .ok (r₂.1, some e)
    | some i, none => .ok (r₂.1, some i)
    | some i, some e =>
      let mergeId := r₂.1.length
      .ok (new_bb r₂.1 [i, e], some mergeId)
  | .whileStmt test body, s, bb, j => do
    let headId := s.length
    let s₁ := new_bb s [bb]
    let bodyId := s₁.length
    let s₂ := new_bb s₁ []
    let tailId := s₂.length
    let s₃ := new_bb s₂ []
    let s₄ := visitBranch test s₃ headId bodyId tailId
    let r ← visitStmtsAux body s₄ (some bodyId)
      ⟨j.ret, some headId, some tailId⟩ false
    match r.2 with
    | none => .ok (r.1, some tailId)
    | some b => .ok (link r.1 b headId, some tailId)
  | .cont, s, bb, j =>
    match j.cont with
    | none => .error .internalContinue
    | some t => .ok (link s bb t, none)
  | .brk, s, bb, j =>
    match j.brk with
    | none => .error .internalBreak
    | some t => .ok (link s bb t, none)
  | .ret value, s, bb, j =>
    match value with
    | some e =>
      let r := exprBuild e s bb
      .ok (link r.1 r.2 j.ret, none)
    | none => .ok (link s bb j.ret, none)
  | .pass, s, bb, _ => .ok (s, some bb)
  | .functionalAnno, s, bb, _ => .ok (s, some bb)

/-- `CFGBuilder.visit_stmts`: the statement loop, including the
reachability check raising `Unreachable code`, and the handling of the
`_ @ functional` pseudo-decorator (which makes the *next* statement hit
the source's `raise NotImplementedError()`). -/
def visitStmtsAux :
    List GStmt → BState → Option ℕ → Jumps → Bool → Except BuildErr (BState × Option ℕ)
  | [], s, bbOpt, _, _ => .ok (s, bbOpt)
  | n :: ns, s, bbOpt, j, flag =>
    match bbOpt with
    | none => .error (.unreachableCode n)
    | some bb =>
      if is_functional_anno n then visitStmtsAux ns s bbOpt j true
      else if flag then .error .notImpl
      else do
        let r ← visitStmt n s bb j
        visitStmtsAux ns r.1 r.2 j false

end

/-- `CFGBuilder.build`: create entry (index `0`) and exit (index `1`)
blocks, build the statement list starting in the entry block with the
exit block as return target, and, if a fallthrough block remains, link
it to the exit (erroring when a return row is expected). -/
def buildCFG (nodes : List GStmt) (numReturns : ℕ) :
    Except BuildErr BState := do
  let s₀ : BState := [⟨[], [], none⟩, ⟨[], [], none⟩]
  let r ← visitStmtsAux nodes s₀ (some 0) ⟨1, none, none⟩ false
  match r.2 with
  | some bb =>
    if numReturns > 0 then .error .expectedReturn
    else .ok (link r.1 bb 1)
  | none => .ok r.1

/-! ### Claim C9: unreachable statements are rejected -/

/-- Claim C9: whenever the statements processed so far have
unconditionally left the block (the builder's current-block option has
become `none` — which is what `return`, `break`, `continue`, and an
`if` whose branches both jump produce, as the last four conjuncts
record), the very next statement makes `visit_stmts` fail with an
`Unreachable code` error located at that statement, instead of the
statement being silently discarded. -/
theorem visit_stmts_unreachable_code :
    (∀ (pre : List GStmt) (stmt : GStmt) (rest : List GStmt) (s : BState)
      (bbOpt : Option ℕ) (j : Jumps) (flag : Bool) (s' : BState),
      visitStmtsAux pre s bbOpt j flag = .ok (s', none) →
      visitStmtsAux (pre ++ stmt :: rest) s bbOpt j flag =
        .error (.unreachableCode stmt)) ∧
    (∀ (v : Option GExpr) (s : BState) (bb : ℕ) (j : Jumps),
      ∃ s', visitStmt (.ret v) s bb j = .ok (s', none)) ∧
    (∀ (s : BState) (bb : ℕ) (j : Jumps) (t : ℕ), j.brk = some t →
      visitStmt .brk s bb j = .ok (link s bb t, none)) ∧
    (∀ (s : BState) (bb : ℕ) (j : Jumps) (t : ℕ), j.cont = some t →
      visitStmt .cont s bb j = .ok (link s bb t, none)) ∧
    (∀ (test : GExpr) (body orelse : List GStmt) (s : BState) (bb : ℕ)
      (j : Jumps) (sb se : BState),
      visitStmtsAux body
        (visitBranch test (new_bb (new_bb s []) []) bb s.length
          (new_bb s []).length) (some s.length) j false = .ok (sb, none) →
      visitStmtsAux orelse sb (some (new_bb s []).length) j false =
        .ok (se, none) →
      visitStmt (.ifStmt test body orelse) s bb j = .ok (se, none)) := by
  refine ⟨?_, ?_, ?_, ?_, ?_⟩
  · intro pre
    induction pre with
    | nil =>
      intro stmt rest s bbOpt j flag s' h
      simp only [visitStmtsAux] at h
      obtain ⟨-, h2⟩ : s = s' ∧ bbOpt = none := by
        refine ⟨?_, ?_⟩ <;> cases h <;> rfl
      subst h2
      rfl
    | cons n ns ih =>
      intro stmt rest s bbOpt j flag s' h
      simp only [visitStmtsAux] at h ⊢
      match bbOpt with
      | none => cases h
      | some bb =>
        simp only at h ⊢
        by_cases hfa : is_functional_anno n
        · rw [if_pos hfa] at h ⊢
          exact ih stmt rest s (some bb) j true s' h
        · rw [if_neg hfa] at h ⊢
          cases flag with
          | true => rw [if_pos rfl] at h; cases h
          | false =>
            rw [if_neg (by decide)] at h ⊢
            simp only [Bind.bind, Except.bind] at h ⊢
            match hv : visitStmt n s bb j with
            | .error e => rw [hv] at h; exact Except.noConfusion h
            | .ok r => rw [hv] at h; exact ih stmt rest r.1 r.2 j false s' h
  · intro v s bb j
    match v with
    | some e => exact ⟨_, rfl⟩
    | none => exact ⟨_, rfl⟩
  · intro s bb j t ht
    simp only [visitStmt, ht]
  · intro s bb j t ht
    simp only [visitStmt, ht]
  · intro test body orelse s bb j sb se h1 h2
    unfold visitStmt
    dsimp only
    rw [h1]
    simp only [Bind.bind, Except.bind]
    rw [h2]

/-- The empty two-block CFG (entry `0`, exit `1`) that `CFG.__init__`
creates before any statement is built. -/
def exS0 : BState := [⟨[], [], none⟩, ⟨[], [], none⟩]

theorem visit_stmts_unreachable_code_witness :
    visitStmtsAux [GStmt.ret none] exS0 (some 0) ⟨1, none, none⟩ false =
      .ok (link exS0 0 1, none) ∧
    visitStmtsAux ([GStmt.ret none] ++ [GStmt.pass]) exS0 (some 0)
      ⟨1, none, none⟩ false = .error (.unreachableCode .pass) :=
  ⟨rfl, visit_stmts_unreachable_code.1 [GStmt.ret none] .pass [] exS0 (some 0)
    ⟨1, none, none⟩ false (link exS0 0 1) rfl⟩

/-! ### Claim C8: successor/predecessor lists stay symmetric -/

theorem modifyBB_length (s : BState) (i : ℕ) (f : MBB → MBB) :
    (modifyBB s i f).length = s.length := by
  induction s generalizing i with
  | nil => rfl
  | cons x xs ih =>
    cases i with
    | zero => rfl
    | succ i => simp [modifyBB, ih]

theorem getBB_modifyBB_self (s : BState) (i : ℕ) (f : MBB → MBB)
    (h : i < s.length) : getBB (modifyBB s i f) i = f (getBB s i) := by
  induction s generalizing i with
  | nil => cases h
  | cons x xs ih =>
    cases i with
    | zero => rfl
    | succ i =>
      simp only [modifyBB, getBB, List.getD_cons_succ]
      exact ih i (by simpa using h)

theorem getBB_modifyBB_ne (s : BState) (i j : ℕ) (f : MBB → MBB)
    (h : i ≠ j) : getBB (modifyBB s i f) j = getBB s j := by
  induction s generalizing i j with
  | nil => rfl
  | cons x xs ih =>
    cases i with
    | zero =>
      cases j with
      | zero => exact absurd rfl h
      | succ j => rfl
    | succ i =>
      cases j with
      | zero => rfl
      | succ j =>
        simp only [modifyBB, getBB, List.getD_cons_succ]
        exact ih i j (by omega)

theorem modifyBB_oob (s : BState) (i : ℕ) (f : MBB → MBB)
    (h : ¬ i < s.length) : modifyBB s i f = s := by
  induction s generalizing i with
  | nil => rfl
  | cons x xs ih =>
    cases i with
    | zero => simp at h
    | succ i => simp only [modifyBB]; rw [ih i (by simp at h; omega)]

theorem getBB_modifyBB_succs (s : BState) (i j : ℕ) (f : MBB → MBB)
    (hf : ∀ x, (f x).succs = x.succs) :
    (getBB (modifyBB s i f) j).succs = (getBB s j).succs := by
  by_cases hr : i < s.length
  · by_cases hij : i = j
    · subst hij; rw [getBB_modifyBB_self s i f hr, hf]
    · rw [getBB_modifyBB_ne s i j f hij]
  · rw [modifyBB_oob s i f hr]

theorem getBB_modifyBB_preds (s : BState) (i j : ℕ) (f : MBB → MBB)
    (hf : ∀ x, (f x).preds = x.preds) :
    (getBB (modifyBB s i f) j).preds = (getBB s j).preds := by
  by_cases hr : i < s.length
  · by_cases hij : i = j
    · subst hij; rw [getBB_modifyBB_self s i f hr, hf]
    · rw [getBB_modifyBB_ne s i j f hij]
  · rw [modifyBB_oob s i f hr]

theorem getBB_modifyBB_branch (s : BState) (i j : ℕ) (f : MBB → MBB)
    (hf : ∀ x, (f x).branchPred = x.branchPred) :
    (getBB (modifyBB s i f) j).branchPred = (getBB s j).branchPred := by
  by_cases hr : i < s.length
  · by_cases hij : i = j
    · subst hij; rw [getBB_modifyBB_self s i f hr, hf]
    · rw [getBB_modifyBB_ne s i j f hij]
  · rw [modifyBB_oob s i f hr]

theorem getBB_addSucc_preds (s : BState) (a v j : ℕ) :
    (getBB (modifyBB s a fun x => { x with succs := x.succs ++ [v] }) j).preds =
      (getBB s j).preds :=
  getBB_modifyBB_preds s a j _ (fun _ => rfl)

theorem getBB_addSucc_branch (s : BState) (a v j : ℕ) :
    (getBB (modifyBB s a fun x => { x with succs := x.succs ++ [v] }) j).branchPred =
      (getBB s j).branchPred :=
  getBB_modifyBB_branch s a j _ (fun _ => rfl)

theorem getBB_addPred_succs (s : BState) (b v j : ℕ) :
    (getBB (modifyBB s b fun x => { x with preds := x.preds ++ [v] }) j).succs =
      (getBB s j).succs :=
  getBB_modifyBB_succs s b j _ (fun _ => rfl)

theorem getBB_addPred_branch (s : BState) (b v j : ℕ) :
    (getBB (modifyBB s b fun x => { x with preds := x.preds ++ [v] }) j).branchPred =
      (getBB s j).branchPred :=
  getBB_modifyBB_branch s b j _ (fun _ => rfl)

theorem link_length (s : BState) (a b : ℕ) :
    (link s a b).length = s.length := by
  unfold link; rw [modifyBB_length, modifyBB_length]

theorem getBB_link_succs (s : BState) (a b : ℕ) (ha : a < s.length)
    (j : ℕ) : (getBB (link s a b) j).succs =
      if j = a then (getBB s j).succs ++ [b] else (getBB s j).succs := by
  unfold link
  rw [getBB_addPred_succs]
  by_cases hj : j = a
  · subst hj; rw [if_pos rfl, getBB_modifyBB_self s j _ ha]
  · rw [if_neg hj, getBB_modifyBB_ne s a j _ (fun h => hj h.symm)]

theorem getBB_link_preds (s : BState) (a b : ℕ) (hb : b < s.length)
    (j : ℕ) : (getBB (link s a b) j).preds =
      if j = b then (getBB s j).preds ++ [a] else (getBB s j).preds := by
  unfold link
  by_cases hj : j = b
  · subst hj
    rw [getBB_modifyBB_self _ j _ (by rw [modifyBB_length]; exact hb), if_pos rfl]
    simp only
    rw [getBB_addSucc_preds]
  · rw [getBB_modifyBB_ne _ b j _ (fun h => hj h.symm), if_neg hj]
    rw [getBB_addSucc_preds]

theorem getBB_link_branch (s : BState) (a b : ℕ) (j : ℕ) :
    (getBB (link s a b) j).branchPred = (getBB s j).branchPred := by
  unfold link
  rw [getBB_addPred_branch, getBB_addSucc_branch]

theorem setBranch_length (s : BState) (b a : ℕ) :
    (setBranch s b a).length = s.length := modifyBB_length s b _

theorem getBB_setBranch_succs (s : BState) (b a j : ℕ) :
    (getBB (setBranch s b a) j).succs = (getBB s j).succs :=
  getBB_modifyBB_succs s b j _ (fun _ => rfl)

theorem getBB_setBranch_preds (s : BState) (b a j : ℕ) :
    (getBB (setBranch s b a) j).preds = (getBB s j).preds :=
  getBB_modifyBB_preds s b j _ (fun _ => rfl)

theorem pushSuccs_length (idNew : ℕ) :
    ∀ (ps : List ℕ) (s : BState), (pushSuccs s idNew ps).length = s.length := by
  intro ps
  induction ps with
  | nil => intro s; rfl
  | cons p ps ih =>
    intro s
    simp only [pushSuccs]
    rw [ih, modifyBB_length]

theorem getBB_pushSuccs_preds (idNew : ℕ) :
    ∀ (ps : List ℕ) (s : BState) (j : ℕ),
    (getBB (pushSuccs s idNew ps) j).preds = (getBB s j).preds := by
  intro ps
  induction ps with
  | nil => intro s j; rfl
  | cons p ps ih =>
    intro s j
    simp only [pushSuccs]
    rw [ih, getBB_addSucc_preds]

theorem getBB_pushSuccs_branch (idNew : ℕ) :
    ∀ (ps : List ℕ) (s : BState) (j : ℕ),
    (getBB (pushSuccs s idNew ps) j).branchPred = (getBB s j).branchPred := by
  intro ps
  induction ps with
  | nil => intro s j; rfl
  | cons p ps ih =>
    intro s j
    simp only [pushSuccs]
    rw [ih, getBB_addSucc_branch]

theorem getBB_pushSuccs_succs (idNew : ℕ) :
    ∀ (ps : List ℕ) (s : BState) (j : ℕ), (∀ p ∈ ps, p < s.length) →
    (getBB (pushSuccs s idNew ps) j).succs =
      (getBB s j).succs ++ List.replicate (ps.count j) idNew := by
  intro ps
  induction ps with
  | nil => intro s j _; simp [pushSuccs]
  | cons p ps ih =>
    intro s j hps
    simp only [pushSuccs]
    rw [ih _ j fun p' hp' => by
      rw [modifyBB_length]; exact hps p' (List.mem_cons_of_mem _ hp')]
    by_cases hj : j = p
    · subst hj
      rw [getBB_modifyBB_self s j _ (hps j (List.mem_cons_self _ _))]
      simp only [List.count_cons_self]
      have hrep : ∀ nrep : ℕ,
          idNew :: List.replicate nrep idNew =
            List.replicate nrep idNew ++ [idNew] := fun nrep => by
        rw [← List.replicate_succ, List.replicate_succ']
      rw [List.replicate_succ', ← List.append_assoc, List.append_assoc,
        List.append_assoc, ← hrep]
      rfl
    · rw [getBB_modifyBB_ne s p j _ (fun h => hj h.symm)]
      rw [List.count_cons_of_ne (fun h => hj h)]

theorem getBB_append_lt (s : BState) (x : MBB) (j : ℕ) (h : j < s.length) :
    getBB (s ++ [x]) j = getBB s j := by
  unfold getBB
  rw [List.getD_eq_getElem?_getD, List.getD_eq_getElem?_getD,
    List.getElem?_append_left h]

theorem getBB_append_self (s : BState) (x : MBB) :
    getBB (s ++ [x]) s.length = x := by
  unfold getBB
  rw [List.getD_eq_getElem?_getD, List.getElem?_append_right le_rfl]
  simp

theorem getBB_append_gt (s : BState) (x : MBB) (j : ℕ) (h : s.length < j) :
    getBB (s ++ [x]) j = ⟨[], [], none⟩ := by
  unfold getBB
  rw [List.getD_eq_getElem?_getD, List.getElem?_eq_none (by simp; omega)]
  rfl

theorem getBB_oob (s : BState) (j : ℕ) (h : ¬ j < s.length) :
    getBB s j = ⟨[], [], none⟩ := by
  unfold getBB
  rw [List.getD_eq_getElem?_getD, List.getElem?_eq_none (by omega)]
  rfl

theorem new_bb_length (s : BState) (ps : List ℕ) :
    (new_bb s ps).length = s.length + 1 := by
  unfold new_bb
  rw [pushSuccs_length]
  simp

theorem getBB_new_bb_succs (s : BState) (ps : List ℕ)
    (hps : ∀ p ∈ ps, p < s.length) (j : ℕ) :
    (getBB (new_bb s ps) j).succs =
      (if j < s.length then (getBB s j).succs else []) ++
        List.replicate (ps.count j) s.length := by
  unfold new_bb
  rw [getBB_pushSuccs_succs _ ps _ j (fun p hp => by
    simp only [List.length_append, List.length_singleton]
    exact Nat.lt_succ_of_lt (hps p hp))]
  by_cases hj : j < s.length
  · rw [if_pos hj, getBB_append_lt s _ j hj]
  · rw [if_neg hj]
    rcases Nat.lt_or_ge s.length j with h | h
    · rw [getBB_append_gt s _ j h]
    · have : j = s.length := by omega
      subst this
      rw [getBB_append_self]

theorem getBB_new_bb_preds (s : BState) (ps : List ℕ) (j : ℕ) :
    (getBB (new_bb s ps) j).preds =
      if j < s.length then (getBB s j).preds
      else if j = s.length then ps else [] := by
  unfold new_bb
  rw [getBB_pushSuccs_preds]
  by_cases hj : j < s.length
  · rw [if_pos hj, getBB_append_lt s _ j hj]
  · rw [if_neg hj]
    by_cases hj' : j = s.length
    · subst hj'; rw [if_pos rfl, getBB_append_self]
    · rw [if_neg hj', getBB_append_gt s _ j (by omega)]

theorem getBB_new_bb_branch (s : BState) (ps : List ℕ) (j : ℕ) :
    (getBB (new_bb s ps) j).branchPred =
      if j < s.length then (getBB s j).branchPred else none := by
  unfold new_bb
  rw [getBB_pushSuccs_branch]
  by_cases hj : j < s.length
  · rw [if_pos hj, getBB_append_lt s _ j hj]
  · rw [if_neg hj]
    rcases Nat.lt_or_ge s.length j with h | h
    · rw [getBB_append_gt s _ j h]
    · have : j = s.length := by omega
      subst this
      rw [getBB_append_self]

/-- The edge invariant of claim C8: every block's successor and
predecessor multiplicities agree (`s` occurs in `p.successors` as often
as `p` occurs in `s.predecessors`), and all recorded indices denote
existing blocks. -/
def EdgeInv (s : BState) : Prop :=
  (∀ p q, ((getBB s p).succs.count q) = ((getBB s q).preds.count p)) ∧
  (∀ b, (∀ x ∈ (getBB s b).succs, x < s.length) ∧
    (∀ x ∈ (getBB s b).preds, x < s.length))

theorem setBranch_edgeInv (s : BState) (b a : ℕ) (h : EdgeInv s) :
    EdgeInv (setBranch s b a) := by
  refine ⟨fun p q => ?_, fun b' => ?_⟩
  · rw [getBB_setBranch_succs, getBB_setBranch_preds]
    exact h.1 p q
  · rw [getBB_setBranch_succs, getBB_setBranch_preds, setBranch_length]
    exact h.2 b'

theorem link_edgeInv (s : BState) (a b : ℕ) (ha : a < s.length)
    (hb : b < s.length) (h : EdgeInv s) : EdgeInv (link s a b) := by
  refine ⟨fun p q => ?_, fun b' => ?_⟩
  · rw [getBB_link_succs s a b ha p, getBB_link_preds s a b hb q]
    by_cases hpa : p = a
    · subst hpa
      by_cases hqb : q = b
      · subst hqb
        rw [if_pos rfl, if_pos rfl, List.count_append, List.count_append]
        simp [h.1 p q]
      · rw [if_pos rfl, if_neg hqb, List.count_append]
        have : [b].count q = 0 := by
          simp [List.count_singleton']
          exact fun hc => hqb hc.symm
        rw [this, Nat.add_zero]
        exact h.1 p q
    · by_cases hqb : q = b
      · subst hqb
        rw [if_neg hpa, if_pos rfl, List.count_append]
        have : [a].count p = 0 := by
          simp [List.count_singleton']
          exact fun hc => hpa hc.symm
        rw [this, Nat.add_zero]
        exact h.1 p q
      · rw [if_neg hpa, if_neg hqb]
        exact h.1 p q
  · rw [getBB_link_succs s a b ha b', getBB_link_preds s a b hb b',
      link_length]
    constructor
    · intro x hx
      by_cases hb' : b' = a
      · rw [if_pos hb'] at hx
        rcases List.mem_append.mp hx with hx | hx
        · exact (h.2 b').1 x hx
        · rw [List.mem_singleton.mp hx]; exact hb
      · rw [if_neg hb'] at hx
        exact (h.2 b').1 x hx
    · intro x hx
      by_cases hb' : b' = b
      · rw [if_pos hb'] at hx
        rcases List.mem_append.mp hx with hx | hx
        · exact (h.2 b').2 x hx
        · rw [List.mem_singleton.mp hx]; exact ha
      · rw [if_neg hb'] at hx
        exact (h.2 b').2 x hx

theorem new_bb_edgeInv (s : BState) (ps : List ℕ)
    (hps : ∀ p ∈ ps, p < s.length) (h : EdgeInv s) : EdgeInv (new_bb s ps) := by
  have hcount0 : ∀ q, ¬ q < s.length → ∀ b, (getBB s b).succs.count q = 0 := by
    intro q hq b
    rw [List.count_eq_zero]
    intro hmem
    exact hq ((h.2 b).1 q hmem)
  have hcount0' : ∀ p, ¬ p < s.length → ∀ b, (getBB s b).preds.count p = 0 := by
    intro p hp b
    rw [List.count_eq_zero]
    intro hmem
    exact hp ((h.2 b).2 p hmem)
  refine ⟨fun p q => ?_, fun b' => ?_⟩
  · rw [getBB_new_bb_succs s ps hps p, getBB_new_bb_preds s ps q,
      List.count_append]
    simp only [List.count_replicate, beq_iff_eq]
    by_cases hq : q < s.length
    · rw [if_pos hq, if_neg (by omega : ¬ s.length = q), Nat.add_zero]
      by_cases hp : p < s.length
      · rw [if_pos hp]
        exact h.1 p q
      · rw [if_neg hp, hcount0' p hp q]
        simp
    · by_cases hq' : s.length = q
      · rw [if_pos hq', if_neg hq, if_pos hq'.symm]
        have hz : List.count q
            (if p < s.length then (getBB s p).succs else []) = 0 := by
          by_cases hp : p < s.length
          · rw [if_pos hp]; exact hcount0 q (by omega) p
          · rw [if_neg hp]; simp
        rw [hz, Nat.zero_add]
      · rw [if_neg hq', Nat.add_zero, if_neg hq,
          if_neg (show ¬ q = s.length from fun hc => hq' hc.symm),
          List.count_nil]
        by_cases hp : p < s.length
        · rw [if_pos hp]; exact hcount0 q hq p
        · rw [if_neg hp]; simp
  · rw [getBB_new_bb_succs s ps hps b', getBB_new_bb_preds s ps b',
      new_bb_length]
    constructor
    · intro x hx
      rcases List.mem_append.mp hx with hx | hx
      · by_cases hb' : b' < s.length
        · rw [if_pos hb'] at hx
          exact Nat.lt_succ_of_lt ((h.2 b').1 x hx)
        · rw [if_neg hb'] at hx
          cases hx
      · rw [List.eq_of_mem_replicate hx]
        exact Nat.lt_succ_self _
    · intro x hx
      by_cases hb' : b' < s.length
      · rw [if_pos hb'] at hx
        exact Nat.lt_succ_of_lt ((h.2 b').2 x hx)
      · rw [if_neg hb'] at hx
        by_cases hb'' : b' = s.length
        · rw [if_pos hb''] at hx
          exact Nat.lt_succ_of_lt (hps x hx)
        · rw [if_neg hb''] at hx
          cases hx

/-- Lowering a branch predicate preserves the edge invariant and only
adds blocks. -/
theorem visitBranch_edgeInv (e : GExpr) (s : BState) (bb t f : ℕ) :
    bb < s.length → t < s.length → f < s.length → EdgeInv s →
    EdgeInv (visitBranch e s bb t f) ∧
      s.length ≤ (visitBranch e s bb t f).length := by
  induction e, s, bb, t, f using visitBranch.induct with
  | case1 a s bb t f =>
    intro h1 h2 h3 hinv
    simp only [visitBranch]
    refine ⟨?_, ?_⟩
    · refine link_edgeInv _ bb f ?_ ?_
        (link_edgeInv _ bb t ?_ ?_ (setBranch_edgeInv s bb a hinv))
      · rw [link_length, setBranch_length]; exact h1
      · rw [link_length, setBranch_length]; exact h3
      · rw [setBranch_length]; exact h1
      · rw [setBranch_length]; exact h2
    · rw [link_length, link_length, setBranch_length]
  | case2 e s bb t f ih =>
    intro h1 h2 h3 hinv
    simp only [visitBranch]
    exact ih h1 h3 h2 hinv
  | case3 l r s bb t f extra s₁ ihl1 ihl2 ihr =>
    intro h1 h2 h3 hinv
    have he : extra = s.length := rfl
    have hs : s₁ = new_bb s [] := rfl
    simp only [visitBranch]
    simp only [hs, he] at ihr
    have e1 : (new_bb s []).length = s.length + 1 := new_bb_length s []
    have hinv1 : EdgeInv (new_bb s []) :=
      new_bb_edgeInv s [] (fun p hp => absurd hp (List.not_mem_nil p)) hinv
    obtain ⟨hinv2, hlen2⟩ := ihl2 (by omega) (by omega) (by omega) hinv1
    obtain ⟨hinv3, hlen3⟩ := ihr (by omega) (by omega) (by omega) hinv2
    exact ⟨hinv3, by omega⟩
  | case4 l r s bb t f extra s₁ ihl1 ihl2 ihr =>
    intro h1 h2 h3 hinv
    have he : extra = s.length := rfl
    have hs : s₁ = new_bb s [] := rfl
    simp only [visitBranch]
    simp only [hs, he] at ihr
    have e1 : (new_bb s []).length = s.length + 1 := new_bb_length s []
    have hinv1 : EdgeInv (new_bb s []) :=
      new_bb_edgeInv s [] (fun p hp => absurd hp (List.not_mem_nil p)) hinv
    obtain ⟨hinv2, hlen2⟩ := ihl2 (by omega) (by omega) (by omega) hinv1
    obtain ⟨hinv3, hlen3⟩ := ihr (by omega) (by omega) (by omega) hinv2
    exact ⟨hinv3, by omega⟩
  | case5 l r v vs s bb t f extra s₁ ihl1 ihl2 ihr =>
    intro h1 h2 h3 hinv
    have he : extra = s.length := rfl
    have hs : s₁ = new_bb s [] := rfl
    simp only [visitBranch]
    simp only [hs, he] at ihr
    have e1 : (new_bb s []).length = s.length + 1 := new_bb_length s []
    have hinv1 : EdgeInv (new_bb s []) :=
      new_bb_edgeInv s [] (fun p hp => absurd hp (List.not_mem_nil p)) hinv
    obtain ⟨hinv2, hlen2⟩ := ihl2 (by omega) (by omega) (by omega) hinv1
    obtain ⟨hinv3, hlen3⟩ := ihr (by omega) (by omega) (by omega) hinv2
    exact ⟨hinv3, by omega⟩
  | case6 l r v vs s bb t f extra s₁ ihl1 ihl2 ihr =>
    intro h1 h2 h3 hinv
    have he : extra = s.length := rfl
    have hs : s₁ = new_bb s [] := rfl
    simp only [visitBranch]
    simp only [hs, he] at ihr
    have e1 : (new_bb s []).length = s.length + 1 := new_bb_length s []
    have hinv1 : EdgeInv (new_bb s []) :=
      new_bb_edgeInv s [] (fun p hp => absurd hp (List.not_mem_nil p)) hinv
    obtain ⟨hinv2, hlen2⟩ := ihl2 (by omega) (by omega) (by omega) hinv1
    obtain ⟨hinv3, hlen3⟩ := ihr (by omega) (by omega) (by omega) hinv2
    exact ⟨hinv3, by omega⟩
  | case7 c a b s bb t f ifId s₁ elseId s₂ s₃ s₄ ihc1 ihc2 iha1 iha2 ihb =>
    intro h1 h2 h3 hinv
    have he1 : ifId = s.length := rfl
    have he2 : s₁ = new_bb s [] := rfl
    have he3 : elseId = s₁.length := rfl
    have he4 : s₂ = new_bb s₁ [] := rfl
    have he5 : s₃ = visitBranch c s₂ bb ifId elseId := rfl
    have he6 : s₄ = visitBranch a s₃ ifId t f := rfl
    simp only [visitBranch]
    simp only [he6, he5, he4, he3, he2, he1] at ihb
    have e1 : (new_bb s []).length = s.length + 1 := new_bb_length s []
    have e2 : (new_bb (new_bb s []) []).length = s.length + 2 := by
      rw [new_bb_length, new_bb_length]
    have hinv2 : EdgeInv (new_bb (new_bb s []) []) :=
      new_bb_edgeInv _ [] (fun p hp => absurd hp (List.not_mem_nil p))
        (new_bb_edgeInv s [] (fun p hp => absurd hp (List.not_mem_nil p)) hinv)
    obtain ⟨hinvc, hlenc⟩ := ihc2 (by omega) (by omega) (by omega) hinv2
    obtain ⟨hinva, hlena⟩ := iha2 (by omega) (by omega) (by omega) hinvc
    obtain ⟨hinvb, hlenb⟩ := ihb (by omega) (by omega) (by omega) hinva
    exact ⟨hinvb, by omega⟩

/-- Flattening an expression preserves the edge invariant, only adds
blocks, and returns an existing block. -/
theorem exprBuild_edgeInv (e : GExpr) (s : BState) (bb : ℕ) :
    bb < s.length → EdgeInv s →
    EdgeInv (exprBuild e s bb).1 ∧ s.length ≤ (exprBuild e s bb).1.length ∧
      (exprBuild e s bb).2 < (exprBuild e s bb).1.length := by
  induction e, s, bb using exprBuild.induct with
  | case1 a s bb =>
    intro h1 hinv
    exact ⟨hinv, le_rfl, h1⟩
  | case2 e s bb ih =>
    intro h1 hinv
    simp only [exprBuild]
    exact ih h1 hinv
  | case3 op l r vs s bb =>
    intro h1 hinv
    simp only [exprBuild]
    have e1 : (new_bb s []).length = s.length + 1 := new_bb_length s []
    have e2 : (new_bb (new_bb s []) []).length = s.length + 2 := by
      rw [new_bb_length, new_bb_length]
    have hinv2 : EdgeInv (new_bb (new_bb s []) []) :=
      new_bb_edgeInv _ [] (fun p hp => absurd hp (List.not_mem_nil p))
        (new_bb_edgeInv s [] (fun p hp => absurd hp (List.not_mem_nil p)) hinv)
    obtain ⟨hinv3, hlen3⟩ := visitBranch_edgeInv (.boolop op l r vs)
      (new_bb (new_bb s []) []) bb s.length (s.length + 1)
      (by omega) (by omega) (by omega) hinv2
    simp only [new_bb_length]
    refine ⟨?_, ?_, ?_⟩
    · refine new_bb_edgeInv _ [s.length, s.length + 1] ?_ hinv3
      intro p hp
      rcases List.mem_cons.mp hp with h | h
      · omega
      · rcases List.mem_cons.mp h with h | h
        · omega
        · cases h
    · omega
    · omega
  | case4 c a b s bb ifId s₁ elseId s₂ s₃ r₁ iha ihb =>
    intro h1 hinv
    have he1 : ifId = s.length := rfl
    have he2 : s₁ = new_bb s [] := rfl
    have he3 : elseId = s₁.length := rfl
    have he4 : s₂ = new_bb s₁ [] := rfl
    have he5 : s₃ = visitBranch c s₂ bb ifId elseId := rfl
    have he6 : r₁ = exprBuild a s₃ ifId := rfl
    simp only [exprBuild]
    simp only [he6, he5, he4, he3, he2, he1, new_bb_length] at iha ihb
    have e1 : (new_bb s []).length = s.length + 1 := new_bb_length s []
    have e2 : (new_bb (new_bb s []) []).length = s.length + 2 := by
      rw [new_bb_length, new_bb_length]
    have hinv2 : EdgeInv (new_bb (new_bb s []) []) :=
      new_bb_edgeInv _ [] (fun p hp => absurd hp (List.not_mem_nil p))
        (new_bb_edgeInv s [] (fun p hp => absurd hp (List.not_mem_nil p)) hinv)
    obtain ⟨hinv3, hlen3⟩ := visitBranch_edgeInv c
      (new_bb (new_bb s []) []) bb s.length (s.length + 1)
      (by omega) (by omega) (by omega) hinv2
    obtain ⟨hinva, hlena, hba⟩ := iha (by omega) hinv3
    obtain ⟨hinvb, hlenb, hbb⟩ := ihb (by omega) hinva
    simp only [new_bb_length]
    refine ⟨?_, ?_, ?_⟩
    · refine new_bb_edgeInv _ _ ?_ hinvb
      intro p hp
      rcases List.mem_cons.mp hp with h | h
      · omega
      · rcases List.mem_cons.mp h with h | h
        · omega
        · cases h
    · omega
    · omega

theorem except_bind_ok {ε α β : Type} (x : Except ε α) (f : α → Except ε β)
    (y : β) : (x >>= f = Except.ok y) ↔ ∃ v, x = .ok v ∧ f v = .ok y := by
  cases x <;> simp [Bind.bind, Except.bind]

/-- The jump targets denote existing blocks. -/
def JumpsWf (j : Jumps) (len : ℕ) : Prop :=
  j.ret < len ∧ (∀ t ∈ j.cont, t < len) ∧ (∀ t ∈ j.brk, t < len)

theorem jumpsWf_mono {j : Jumps} {len len' : ℕ} (h : JumpsWf j len)
    (hle : len ≤ len') : JumpsWf j len' :=
  ⟨lt_of_lt_of_le h.1 hle, fun t ht => lt_of_lt_of_le (h.2.1 t ht) hle,
    fun t ht => lt_of_lt_of_le (h.2.2 t ht) hle⟩

mutual

/-- Building one statement preserves the edge invariant. -/
theorem visitStmt_edgeInv (n : GStmt) :
    ∀ (s : BState) (bb : ℕ) (j : Jumps) (s' : BState) (bbOpt' : Option ℕ),
    bb < s.length → JumpsWf j s.length → EdgeInv s →
    visitStmt n s bb j = .ok (s', bbOpt') →
    EdgeInv s' ∧ s.length ≤ s'.length ∧ ∀ b ∈ bbOpt', b < s'.length := by
  intro s bb j s' bbOpt' hbb hj hinv hok
  cases n with
  | assign value =>
    simp only [visitStmt, Except.ok.injEq, Prod.mk.injEq] at hok
    obtain ⟨h1, h2⟩ := hok
    subst h1; subst h2
    obtain ⟨hi, hl, hb⟩ := exprBuild_edgeInv value s bb hbb hinv
    exact ⟨hi, hl, fun b hbm => by
      rw [Option.mem_def, Option.some.injEq] at hbm
      omega⟩
  | augAssign value =>
    simp only [visitStmt, Except.ok.injEq, Prod.mk.injEq] at hok
    obtain ⟨h1, h2⟩ := hok
    subst h1; subst h2
    exact ⟨hinv, le_rfl, fun b hbm => by
      rw [Option.mem_def, Option.some.injEq] at hbm
      omega⟩
  | exprStmt value =>
    simp only [visitStmt, Except.ok.injEq, Prod.mk.injEq] at hok
    obtain ⟨h1, h2⟩ := hok
    subst h1; subst h2
    obtain ⟨hi, hl, hb⟩ := exprBuild_edgeInv value s bb hbb hinv
    exact ⟨hi, hl, fun b hbm => by
      rw [Option.mem_def, Option.some.injEq] at hbm
      omega⟩
  | ifStmt test body orelse =>
    simp only [visitStmt] at hok
    rw [except_bind_ok] at hok
    obtain ⟨r₁, hb1, hok⟩ := hok
    rw [except_bind_ok] at hok
    obtain ⟨r₂, hb2, hok⟩ := hok
    have e2 : (new_bb (new_bb s []) []).length = s.length + 2 := by
      rw [new_bb_length, new_bb_length]
    have hinv2 : EdgeInv (new_bb (new_bb s []) []) :=
      new_bb_edgeInv _ [] (fun p hp => absurd hp (List.not_mem_nil p))
        (new_bb_edgeInv s [] (fun p hp => absurd hp (List.not_mem_nil p)) hinv)
    obtain ⟨hinv3, hlen3⟩ := visitBranch_edgeInv test
      (new_bb (new_bb s []) []) bb s.length (s.length + 1)
      (by omega) (by omega) (by omega) hinv2
    rw [new_bb_length] at hb1 hb2
    obtain ⟨hinv4, hlen4, hb4⟩ := visitStmtsAux_edgeInv body
      (visitBranch test (new_bb (new_bb s []) []) bb s.length (s.length + 1))
      (some s.length) j false r₁.1 r₁.2
      (fun b hbm => by
        rw [Option.mem_def, Option.some.injEq] at hbm
        omega)
      (jumpsWf_mono hj (by omega)) hinv3 hb1
    obtain ⟨hinv5, hlen5, hb5⟩ := visitStmtsAux_edgeInv orelse
      r₁.1 (some (s.length + 1)) j false r₂.1 r₂.2
      (fun b hbm => by
        rw [Option.mem_def, Option.some.injEq] at hbm
        omega)
      (jumpsWf_mono hj (by omega)) hinv4 hb2
    cases h1 : r₁.2 with
    | none =>
      cases h2 : r₂.2 with
      | none =>
        rw [h1, h2] at hok
        simp only [Except.ok.injEq, Prod.mk.injEq] at hok
        obtain ⟨ha, hb⟩ := hok
        subst ha; subst hb
        exact ⟨hinv5, by omega, fun b hbm => by cases hbm⟩
      | some e =>
        rw [h1, h2] at hok
        simp only [Except.ok.injEq, Prod.mk.injEq] at hok
        obtain ⟨ha, hb⟩ := hok
        subst ha; subst hb
        refine ⟨hinv5, by omega, fun b hbm => ?_⟩
        rw [Option.mem_def, Option.some.injEq] at hbm
        have hlt : e < r₂.1.length := hb5 e (by rw [h2]; rfl)
        omega
    | some i =>
      cases h2 : r₂.2 with
      | none =>
        rw [h1, h2] at hok
        simp only [Except.ok.injEq, Prod.mk.injEq] at hok
        obtain ⟨ha, hb⟩ := hok
        subst ha; subst hb
        refine ⟨hinv5, by omega, fun b hbm => ?_⟩
        rw [Option.mem_def, Option.some.injEq] at hbm
        have hlt : i < r₁.1.length := hb4 i (by rw [h1]; rfl)
        omega
      | some e =>
        rw [h1, h2] at hok
        simp only [Except.ok.injEq, Prod.mk.injEq] at hok
        obtain ⟨ha, hb⟩ := hok
        subst ha; subst hb
        have hi : i < r₂.1.length := by
          have hlt : i < r₁.1.length := hb4 i (by rw [h1]; rfl)
          omega
        have he : e < r₂.1.length := hb5 e (by rw [h2]; rfl)
        refine ⟨new_bb_edgeInv _ [i, e] ?_ hinv5, ?_, fun b hbm => ?_⟩
        · intro p hp
          rcases List.mem_cons.mp hp with h | h
          · omega
          · rcases List.mem_cons.mp h with h | h
            · omega
            · cases h
        · rw [new_bb_length]; omega
        · rw [Option.mem_def, Option.some.injEq] at hbm
          rw [new_bb_length]
          omega
  | whileStmt test body =>
    simp only [visitStmt] at hok
    rw [except_bind_ok] at hok
    obtain ⟨r, hb1, hok⟩ := hok
    simp only [new_bb_length] at hb1
    have e1 : (new_bb s [bb]).length = s.length + 1 := new_bb_length s [bb]
    have e2 : (new_bb (new_bb s [bb]) []).length = s.length + 2 := by
      rw [new_bb_length, new_bb_length]
    have e3 : (new_bb (new_bb (new_bb s [bb]) []) []).length = s.length + 3 := by
      rw [new_bb_length, new_bb_length, new_bb_length]
    have hinv3 : EdgeInv (new_bb (new_bb (new_bb s [bb]) []) []) :=
      new_bb_edgeInv _ [] (fun p hp => absurd hp (List.not_mem_nil p))
        (new_bb_edgeInv _ [] (fun p hp => absurd hp (List.not_mem_nil p))
          (new_bb_edgeInv s [bb]
            (fun p hp => by rw [List.mem_singleton.mp hp]; exact hbb) hinv))
    obtain ⟨hinv4, hlen4⟩ := visitBranch_edgeInv test
      (new_bb (new_bb (new_bb s [bb]) []) []) s.length (s.length + 1)
      (s.length + 1 + 1) (by omega) (by omega) (by omega) hinv3
    obtain ⟨hinv5, hlen5, hb5⟩ := visitStmtsAux_edgeInv body
      (visitBranch test (new_bb (new_bb (new_bb s [bb]) []) []) s.length
        (s.length + 1) (s.length + 1 + 1))
      (some (s.length + 1)) ⟨j.ret, some s.length, some (s.length + 1 + 1)⟩
      false r.1 r.2
      (fun b hbm => by
        rw [Option.mem_def, Option.some.injEq] at hbm
        omega)
      (by
        refine ⟨?_, ?_, ?_⟩
        · show j.ret < _
          have hr := hj.1
          omega
        · intro t ht
          have he : s.length = t := by simpa using ht
          omega
        · intro t ht
          have he : s.length + 1 + 1 = t := by simpa using ht
          omega) hinv4 hb1
    cases h1 : r.2 with
    | none =>
      rw [h1] at hok
      simp only [Except.ok.injEq, Prod.mk.injEq] at hok
      obtain ⟨ha, hb⟩ := hok
      subst ha; subst hb
      refine ⟨hinv5, by omega, fun b hbm => ?_⟩
      rw [Option.mem_def, Option.some.injEq] at hbm
      omega
    | some b' =>
      rw [h1] at hok
      simp only [Except.ok.injEq, Prod.mk.injEq] at hok
      obtain ⟨ha, hb⟩ := hok
      subst ha; subst hb
      have hb'lt : b' < r.1.length := hb5 b' (by rw [h1]; rfl)
      refine ⟨link_edgeInv _ b' s.length hb'lt (by omega) hinv5, ?_,
        fun b hbm => ?_⟩
      · rw [link_length]; omega
      · rw [Option.mem_def, Option.some.injEq] at hbm
        rw [link_length]
        omega
  | brk =>
    simp only [visitStmt] at hok
    match ht : j.brk with
    | none => rw [ht] at hok; exact Except.noConfusion hok
    | some t =>
      rw [ht] at hok
      simp only [Except.ok.injEq, Prod.mk.injEq] at hok
      obtain ⟨ha, hb⟩ := hok
      subst ha; subst hb
      exact ⟨link_edgeInv s bb t hbb (hj.2.2 t (by rw [ht]; rfl)) hinv,
        by rw [link_length], fun b hbm => by cases hbm⟩
  | cont =>
    simp only [visitStmt] at hok
    match ht : j.cont with
    | none => rw [ht] at hok; exact Except.noConfusion hok
    | some t =>
      rw [ht] at hok
      simp only [Except.ok.injEq, Prod.mk.injEq] at hok
      obtain ⟨ha, hb⟩ := hok
      subst ha; subst hb
      exact ⟨link_edgeInv s bb t hbb (hj.2.1 t (by rw [ht]; rfl)) hinv,
        by rw [link_length], fun b hbm => by cases hbm⟩
  | ret value =>
    simp only [visitStmt] at hok
    match value with
    | some e =>
      simp only [Except.ok.injEq, Prod.mk.injEq] at hok
      obtain ⟨ha, hb⟩ := hok
      subst ha; subst hb
      obtain ⟨hi, hl, hb⟩ := exprBuild_edgeInv e s bb hbb hinv
      exact ⟨link_edgeInv _ _ _ hb (by have := hj.1; omega) hi,
        by rw [link_length]; omega, fun b hbm => by cases hbm⟩
    | none =>
      simp only [Except.ok.injEq, Prod.mk.injEq] at hok
      obtain ⟨ha, hb⟩ := hok
      subst ha; subst hb
      exact ⟨link_edgeInv s bb j.ret hbb hj.1 hinv,
        by rw [link_length], fun b hbm => by cases hbm⟩
  | pass =>
    simp only [visitStmt, Except.ok.injEq, Prod.mk.injEq] at hok
    obtain ⟨h1, h2⟩ := hok
    subst h1; subst h2
    exact ⟨hinv, le_rfl, fun b hbm => by
      rw [Option.mem_def, Option.some.injEq] at hbm
      omega⟩
  | functionalAnno =>
    simp only [visitStmt, Except.ok.injEq, Prod.mk.injEq] at hok
    obtain ⟨h1, h2⟩ := hok
    subst h1; subst h2
    exact ⟨hinv, le_rfl, fun b hbm => by
      rw [Option.mem_def, Option.some.injEq] at hbm
      omega⟩

/-- Building a statement list preserves the edge invariant. -/
theorem visitStmtsAux_edgeInv (ns : List GStmt) :
    ∀ (s : BState) (bbOpt : Option ℕ) (j : Jumps) (flag : Bool)
      (s' : BState) (bbOpt' : Option ℕ),
    (∀ b ∈ bbOpt, b < s.length) → JumpsWf j s.length → EdgeInv s →
    visitStmtsAux ns s bbOpt j flag = .ok (s', bbOpt') →
    EdgeInv s' ∧ s.length ≤ s'.length ∧ ∀ b ∈ bbOpt', b < s'.length := by
  intro s bbOpt j flag s' bbOpt' hbb hj hinv hok
  match ns with
  | [] =>
    simp only [visitStmtsAux, Except.ok.injEq, Prod.mk.injEq] at hok
    obtain ⟨h1, h2⟩ := hok
    subst h1; subst h2
    exact ⟨hinv, le_rfl, hbb⟩
  | n :: ns =>
    simp only [visitStmtsAux] at hok
    match hb : bbOpt with
    | none => exact Except.noConfusion hok
    | some bb =>
      simp only at hok
      by_cases hfa : is_functional_anno n
      · rw [if_pos hfa] at hok
        exact visitStmtsAux_edgeInv ns s (some bb) j true s' bbOpt'
          (fun b hbm => by
            rw [Option.mem_def, Option.some.injEq] at hbm
            have hlt := hbb bb rfl
            omega) hj hinv hok
      · rw [if_neg hfa] at hok
        cases flag with
        | true => rw [if_pos rfl] at hok; exact Except.noConfusion hok
        | false =>
          rw [if_neg (by decide)] at hok
          rw [except_bind_ok] at hok
          obtain ⟨r, hr, hok⟩ := hok
          obtain ⟨hinv1, hlen1, hb1⟩ := visitStmt_edgeInv n s bb j r.1 r.2
            (hbb bb rfl) hj hinv (by rw [← hr])
          obtain ⟨hinv2, hlen2, hb2⟩ := visitStmtsAux_edgeInv ns r.1 r.2 j
            false s' bbOpt' hb1 (jumpsWf_mono hj hlen1) hinv1 hok
          exact ⟨hinv2, by omega, hb2⟩

end

/-- Claim C8: every control-flow edge of a CFG produced by
`CFGBuilder.build` is recorded symmetrically — for every pair of basic
blocks `(p, q)`, `q` occurs in `p.successors` exactly as many times as
`p` occurs in `q.predecessors` — because `new_bb` (with its predecessor
list) and `link` always update the two adjacency lists together. -/
theorem build_edges_symmetric (nodes : List GStmt) (numReturns : ℕ)
    (s : BState) (hok : buildCFG nodes numReturns = .ok s) :
    ∀ p q, ((getBB s p).succs.count q) = ((getBB s q).preds.count p) := by
  unfold buildCFG at hok
  rw [except_bind_ok] at hok
  obtain ⟨r, hr, hok⟩ := hok
  have hempty : ∀ x, getBB ([⟨[], [], none⟩, ⟨[], [], none⟩] : BState) x =
      ⟨[], [], none⟩ := by
    intro x
    match x with
    | 0 => rfl
    | 1 => rfl
    | n + 2 => rfl
  have hinv0 : EdgeInv ([⟨[], [], none⟩, ⟨[], [], none⟩] : BState) := by
    refine ⟨fun p q => ?_, fun b => ⟨fun x hx => ?_, fun x hx => ?_⟩⟩
    · rw [hempty p, hempty q]
      rfl
    · rw [hempty b] at hx; cases hx
    · rw [hempty b] at hx; cases hx
  obtain ⟨hinv1, hlen1, hb1⟩ := visitStmtsAux_edgeInv nodes
    ([⟨[], [], none⟩, ⟨[], [], none⟩] : BState) (some 0) ⟨1, none, none⟩ false
    r.1 r.2
    (fun b hbm => by
      rw [Option.mem_def, Option.some.injEq] at hbm
      simp only [List.length_cons, List.length_nil]
      omega)
    (by refine ⟨by simp, ?_, ?_⟩ <;> intro t ht <;> simp at ht) hinv0 hr
  simp only [List.length_cons, List.length_nil] at hlen1
  cases h2 : r.2 with
  | some bb =>
    rw [h2] at hok
    dsimp only at hok
    by_cases hn : numReturns > 0
    · rw [if_pos hn] at hok
      exact Except.noConfusion hok
    · rw [if_neg hn] at hok
      simp only [Except.ok.injEq] at hok
      subst hok
      have hbb : bb < r.1.length := hb1 bb (by rw [h2]; rfl)
      exact (link_edgeInv r.1 bb 1 hbb (by omega) hinv1).1
  | none =>
    rw [h2] at hok
    dsimp only at hok
    simp only [Except.ok.injEq] at hok
    subst hok
    exact hinv1.1

theorem build_edges_symmetric_witness :
    buildCFG [GStmt.pass] 0 = .ok (link exS0 0 1) ∧
    ∀ p q, ((getBB (link exS0 0 1) p).succs.count q) =
      ((getBB (link exS0 0 1) q).preds.count p) := by
  constructor
  · rfl
  · exact build_edges_symmetric [GStmt.pass] 0 _ rfl

/-! ### Claim C4: `visit_BoolOp` wiring and short-circuit layout

A conditional block branches to `successors[0]` when its predicate is
true and to `successors[1]` otherwise (spec: "successor 0 = true,
successor 1 = false").  `stepOf` is that transition relation on the
blocks built by the branch builder; `BPathIn s v S a c` says the
machine can run from `a` to `c` taking steps only from blocks
satisfying `S`. -/

/-- One control-flow step out of a conditional block under atom
valuation `v`. -/
def stepOf (s : BState) (v : ℕ → Bool) (b : ℕ) : Option ℕ :=
  match (getBB s b).branchPred, (getBB s b).succs with
  | some a, [t, f] => some (if v a then t else f)
  | _, _ => none

/-- A run from `a` to `c` whose every intermediate source block
satisfies `S`. -/
inductive BPathIn (s : BState) (v : ℕ → Bool) (S : ℕ → Prop) : ℕ → ℕ → Prop where
  | nil (b : ℕ) : BPathIn s v S b b
  | cons (b b' c : ℕ) : S b → stepOf s v b = some b' →
      BPathIn s v S b' c → BPathIn s v S b c

/-- Boolean value of an expression under an atom valuation; `and`/`or`
evaluate their operand lists in the right-nested way the branch builder
rewrites them. -/
def evalB (v : ℕ → Bool) : GExpr → Bool
  | .atom a => v a
  | .bnot e => ! evalB v e
  | .boolop .andOp l r [] => evalB v l && evalB v r
  | .boolop .orOp l r [] => evalB v l || evalB v r
  | .boolop .andOp l r (x :: vs) => evalB v l && evalB v (.boolop .andOp r x vs)
  | .boolop .orOp l r (x :: vs) => evalB v l || evalB v (.boolop .orOp r x vs)
  | .ifexp c a b => if evalB v c then evalB v a else evalB v b
termination_by e => sizeOf e
decreasing_by all_goals (simp_wf <;> omega)

theorem bpathIn_mono_set {s : BState} {v : ℕ → Bool} {S T : ℕ → Prop}
    (hST : ∀ b, S b → T b) {a c : ℕ} (h : BPathIn s v S a c) :
    BPathIn s v T a c := by
  induction h with
  | nil b => exact .nil b
  | cons b b' c hS hstep _ ih => exact .cons b b' c (hST b hS) hstep ih

theorem bpathIn_trans {s : BState} {v : ℕ → Bool} {S : ℕ → Prop}
    {a b c : ℕ} (h1 : BPathIn s v S a b) (h2 : BPathIn s v S b c) :
    BPathIn s v S a c := by
  induction h1 with
  | nil _ => exact h2
  | cons x x' y hS hstep _ ih => exact .cons x x' c hS hstep (ih h2)

theorem bpathIn_mono_state {s₁ s₂ : BState} {v : ℕ → Bool} {S : ℕ → Prop}
    (hstep : ∀ b x, stepOf s₁ v b = some x → stepOf s₂ v b = some x)
    {a c : ℕ} (h : BPathIn s₁ v S a c) : BPathIn s₂ v S a c := by
  induction h with
  | nil b => exact .nil b
  | cons b b' c hS hst _ ih => exact .cons b b' c hS (hstep b b' hst) ih

/-- A block beyond the end of the list cannot step. -/
theorem stepOf_oob (s : BState) (v : ℕ → Bool) (b : ℕ)
    (h : ¬ b < s.length) : stepOf s v b = none := by
  unfold stepOf
  rw [getBB_oob s b h]

/-- An unterminated block (no branch predicate) cannot step. -/
theorem stepOf_no_branch (s : BState) (v : ℕ → Bool) (b : ℕ)
    (h : (getBB s b).branchPred = none) : stepOf s v b = none := by
  unfold stepOf
  rw [h]

theorem getBB_link_succs_ne (s : BState) (a b j : ℕ) (hj : j ≠ a) :
    (getBB (link s a b) j).succs = (getBB s j).succs := by
  unfold link
  rw [getBB_addPred_succs, getBB_modifyBB_ne _ a j _ (fun h => hj h.symm)]

theorem getBB_setBranch_branch_ne (s : BState) (i a j : ℕ) (hj : j ≠ i) :
    (getBB (setBranch s i a) j).branchPred = (getBB s j).branchPred := by
  unfold setBranch
  rw [getBB_modifyBB_ne _ i j _ (fun h => hj h.symm)]

theorem new_bb_nil_getBB (s : BState) (b : ℕ) (h : b < s.length) :
    getBB (new_bb s []) b = getBB s b :=
  getBB_append_lt s _ b h

/-- The branch builder does not touch the successor lists or branch
predicates of existing blocks other than the one it is lowering into
(targets only gain predecessor entries), and it only adds blocks. -/
theorem visitBranch_frame (e : GExpr) (s : BState) (bb t f : ℕ) :
    s.length ≤ (visitBranch e s bb t f).length ∧
    ∀ b, b < s.length → b ≠ bb →
      (getBB (visitBranch e s bb t f) b).succs = (getBB s b).succs ∧
      (getBB (visitBranch e s bb t f) b).branchPred =
        (getBB s b).branchPred := by
  induction e, s, bb, t, f using visitBranch.induct with
  | case1 a s bb t f =>
    simp only [visitBranch]
    refine ⟨?_, fun b hb hbb => ⟨?_, ?_⟩⟩
    · rw [link_length, link_length, setBranch_length]
    · rw [getBB_link_succs_ne _ _ _ _ hbb, getBB_link_succs_ne _ _ _ _ hbb,
        getBB_setBranch_succs]
    · rw [getBB_link_branch, getBB_link_branch,
        getBB_setBranch_branch_ne _ _ _ _ hbb]
  | case2 e s bb t f ih =>
    simp only [visitBranch]
    exact ⟨ih.1, fun b hb hbb => ih.2 b hb hbb⟩
  | case3 l r s bb t f extra s₁ ihl1 ihl2 ihr =>
    have he : extra = s.length := rfl
    have hs : s₁ = new_bb s [] := rfl
    simp only [visitBranch]
    simp only [hs, he] at ihl2 ihr
    have e1 : (new_bb s []).length = s.length + 1 := new_bb_length s []
    obtain ⟨ihl2a, ihl2b⟩ := ihl2
    obtain ⟨ihra, ihrb⟩ := ihr
    refine ⟨by omega, fun b hb hbb => ?_⟩
    obtain ⟨h1s, h1b⟩ := ihl2b b (by omega) hbb
    obtain ⟨h2s, h2b⟩ := ihrb b (by omega) (by omega)
    exact ⟨by rw [h2s, h1s, new_bb_nil_getBB s b hb],
      by rw [h2b, h1b, new_bb_nil_getBB s b hb]⟩
  | case4 l r s bb t f extra s₁ ihl1 ihl2 ihr =>
    have he : extra = s.length := rfl
    have hs : s₁ = new_bb s [] := rfl
    simp only [visitBranch]
    simp only [hs, he] at ihl2 ihr
    have e1 : (new_bb s []).length = s.length + 1 := new_bb_length s []
    obtain ⟨ihl2a, ihl2b⟩ := ihl2
    obtain ⟨ihra, ihrb⟩ := ihr
    refine ⟨by omega, fun b hb hbb => ?_⟩
    obtain ⟨h1s, h1b⟩ := ihl2b b (by omega) hbb
    obtain ⟨h2s, h2b⟩ := ihrb b (by omega) (by omega)
    exact ⟨by rw [h2s, h1s, new_bb_nil_getBB s b hb],
      by rw [h2b, h1b, new_bb_nil_getBB s b hb]⟩
  | case5 l r v vs s bb t f extra s₁ ihl1 ihl2 ihr =>
    have he : extra = s.length := rfl
    have hs : s₁ = new_bb s [] := rfl
    simp only [visitBranch]
    simp only [hs, he] at ihl2 ihr
    have e1 : (new_bb s []).length = s.length + 1 := new_bb_length s []
    obtain ⟨ihl2a, ihl2b⟩ := ihl2
    obtain ⟨ihra, ihrb⟩ := ihr
    refine ⟨by omega, fun b hb hbb => ?_⟩
    obtain ⟨h1s, h1b⟩ := ihl2b b (by omega) hbb
    obtain ⟨h2s, h2b⟩ := ihrb b (by omega) (by omega)
    exact ⟨by rw [h2s, h1s, new_bb_nil_getBB s b hb],
      by rw [h2b, h1b, new_bb_nil_getBB s b hb]⟩
  | case6 l r v vs s bb t f extra s₁ ihl1 ihl2 ihr =>
    have he : extra = s.length := rfl
    have hs : s₁ = new_bb s [] := rfl
    simp only [visitBranch]
    simp only [hs, he] at ihl2 ihr
    have e1 : (new_bb s []).length = s.length + 1 := new_bb_length s []
    obtain ⟨ihl2a, ihl2b⟩ := ihl2
    obtain ⟨ihra, ihrb⟩ := ihr
    refine ⟨by omega, fun b hb hbb => ?_⟩
    obtain ⟨h1s, h1b⟩ := ihl2b b (by omega) hbb
    obtain ⟨h2s, h2b⟩ := ihrb b (by omega) (by omega)
    exact ⟨by rw [h2s, h1s, new_bb_nil_getBB s b hb],
      by rw [h2b, h1b, new_bb_nil_getBB s b hb]⟩
  | case7 c a b s bb t f ifId s₁ elseId s₂ s₃ s₄ ihc1 ihc2 iha1 iha2 ihb =>
    have he1 : ifId = s.length := rfl
    have he2 : s₁ = new_bb s [] := rfl
    have he3 : elseId = s₁.length := rfl
    have he4 : s₂ = new_bb s₁ [] := rfl
    have he5 : s₃ = visitBranch c s₂ bb ifId elseId := rfl
    have he6 : s₄ = visitBranch a s₃ ifId t f := rfl
    simp only [visitBranch]
    simp only [he6, he5, he4, he3, he2, he1] at ihc2 iha2 ihb
    have e1 : (new_bb s []).length = s.length + 1 := new_bb_length s []
    have e2 : (new_bb (new_bb s []) []).length = s.length + 2 := by
      rw [new_bb_length, new_bb_length]
    obtain ⟨ihca, ihcb⟩ := ihc2
    obtain ⟨ihaa, ihab⟩ := iha2
    obtain ⟨ihba, ihbb'⟩ := ihb
    refine ⟨by omega, fun b' hb' hbb' => ?_⟩
    obtain ⟨h1s, h1b⟩ := ihcb b' (by omega) hbb'
    obtain ⟨h2s, h2b⟩ := ihab b' (by omega) (by omega)
    obtain ⟨h3s, h3b⟩ := ihbb' b' (by omega) (by omega)
    have hbase : getBB (new_bb (new_bb s []) []) b' = getBB s b' := by
      rw [new_bb_nil_getBB _ b' (by omega), new_bb_nil_getBB s b' hb']
    exact ⟨by rw [h3s, h2s, h1s, hbase], by rw [h3b, h2b, h1b, hbase]⟩

/-- Transporting a path across a later lowering step: any block that can
step in the earlier state steps identically in the later state, because
the later lowering only writes to its own (then-unterminated) block and
to fresh blocks. -/
theorem stepOf_mono_of_frame (ex : GExpr) (s₁ : BState) (bb₂ t₂ f₂ : ℕ)
    (v : ℕ → Bool) (hbp : (getBB s₁ bb₂).branchPred = none) :
    ∀ b x, stepOf s₁ v b = some x →
      stepOf (visitBranch ex s₁ bb₂ t₂ f₂) v b = some x := by
  intro b x hbx
  by_cases hlen : b < s₁.length
  · by_cases hbe : b = bb₂
    · subst hbe
      rw [stepOf_no_branch s₁ v b hbp] at hbx
      exact Option.noConfusion hbx
    · have hfr := (visitBranch_frame ex s₁ bb₂ t₂ f₂).2 b hlen hbe
      unfold stepOf at hbx ⊢
      rw [hfr.1, hfr.2]
      exact hbx
  · rw [stepOf_oob s₁ v b hlen] at hbx
    exact Option.noConfusion hbx

/-- Claim C4, semantic core: lowering `e` as a branch predicate of the
unterminated block `bb` with targets `t` (true) and `f` (false) yields a
region from which, under any atom valuation `v`, control runs from `bb`
to `t` when `e` evaluates to true and to `f` when it evaluates to
false; the run only passes through `bb` and blocks created by this
lowering. -/
theorem visitBranch_sem (e : GExpr) (s : BState) (bb t f : ℕ) :
    ∀ (v : ℕ → Bool),
    bb < s.length → t < s.length → f < s.length → t ≠ bb → f ≠ bb →
    (getBB s bb).succs = [] → (getBB s bb).branchPred = none →
    BPathIn (visitBranch e s bb t f) v (fun b => b = bb ∨ s.length ≤ b) bb
      (if evalB v e then t else f) := by
  induction e, s, bb, t, f using visitBranch.induct with
  | case1 a s bb t f =>
    intro v h1 h2 h3 h4 h5 hsucc hbp
    simp only [visitBranch, evalB]
    have hl1 : bb < (setBranch s bb a).length := by
      rw [setBranch_length]; exact h1
    have hl2 : bb < (link (setBranch s bb a) bb t).length := by
      rw [link_length, setBranch_length]; exact h1
    have hsucc' : (getBB (link (link (setBranch s bb a) bb t) bb f) bb).succs
        = [t, f] := by
      rw [getBB_link_succs _ _ _ hl2 bb, if_pos rfl,
        getBB_link_succs _ _ _ hl1 bb, if_pos rfl, getBB_setBranch_succs,
        hsucc]
      rfl
    have hbp' : (getBB (link (link (setBranch s bb a) bb t) bb f)
        bb).branchPred = some a := by
      rw [getBB_link_branch, getBB_link_branch]
      unfold setBranch
      rw [getBB_modifyBB_self s bb _ h1]
    have hstep : stepOf (link (link (setBranch s bb a) bb t) bb f) v bb =
        some (if v a then t else f) := by
      unfold stepOf
      rw [hbp', hsucc']
    exact .cons bb _ _ (Or.inl rfl) hstep (.nil _)
  | case2 e s bb t f ih =>
    intro v h1 h2 h3 h4 h5 hsucc hbp
    simp only [visitBranch, evalB]
    have hp := ih v h1 h3 h2 h5 h4 hsucc hbp
    cases hE : evalB v e
    · rw [hE] at hp
      simpa using hp
    · rw [hE] at hp
      simpa using hp
  | case3 l r s bb t f extra s₁ ihl1 ihl2 ihr =>
    intro v h1 h2 h3 h4 h5 hsucc hbp
    have he : extra = s.length := rfl
    have hs : s₁ = new_bb s [] := rfl
    simp only [visitBranch, evalB]
    simp only [hs, he] at ihl2 ihr
    have e1 : (new_bb s []).length = s.length + 1 := new_bb_length s []
    have hExtraClean : getBB (new_bb s []) s.length = ⟨[], [], none⟩ :=
      getBB_append_self s _
    have pathL := ihl2 v (by omega) (by omega) (by omega) (by omega) (by omega)
      (by rw [new_bb_nil_getBB s bb h1]; exact hsucc)
      (by rw [new_bb_nil_getBB s bb h1]; exact hbp)
    have frameL := visitBranch_frame l (new_bb s []) bb s.length f
    have hExtraClean₂ := frameL.2 s.length (by omega) (by omega)
    have pathR := ihr v (by omega) (by omega) (by omega) (by omega) (by omega)
      (by rw [hExtraClean₂.1, hExtraClean]) (by rw [hExtraClean₂.2, hExtraClean])
    have hbpExtra : (getBB (visitBranch l (new_bb s []) bb s.length f)
        s.length).branchPred = none := by
      rw [hExtraClean₂.2, hExtraClean]
    have pathL' := bpathIn_mono_state
      (stepOf_mono_of_frame r (visitBranch l (new_bb s []) bb s.length f)
        s.length t f v hbpExtra) pathL
    cases hEl : evalB v l
    · rw [hEl] at pathL'
      simp only [Bool.false_and, if_neg (by decide : ¬ false = true)]
      refine bpathIn_mono_set (fun b hb => ?_) pathL'
      rcases hb with hb | hb
      · exact Or.inl hb
      · exact Or.inr (by omega)
    · rw [hEl] at pathL'
      simp only [Bool.true_and]
      refine bpathIn_trans
        (bpathIn_mono_set (fun b hb => ?_) pathL')
        (bpathIn_mono_set (fun b hb => ?_) pathR)
      · rcases hb with hb | hb
        · exact Or.inl hb
        · exact Or.inr (by omega)
      · rcases hb with hb | hb
        · exact Or.inr (by omega)
        · exact Or.inr (by omega)
  | case4 l r s bb t f extra s₁ ihl1 ihl2 ihr =>
    intro v h1 h2 h3 h4 h5 hsucc hbp
    have he : extra = s.length := rfl
    have hs : s₁ = new_bb s [] := rfl
    simp only [visitBranch, evalB]
    simp only [hs, he] at ihl2 ihr
    have e1 : (new_bb s []).length = s.length + 1 := new_bb_length s []
    have hExtraClean : getBB (new_bb s []) s.length = ⟨[], [], none⟩ :=
      getBB_append_self s _
    have pathL := ihl2 v (by omega) (by omega) (by omega) (by omega) (by omega)
      (by rw [new_bb_nil_getBB s bb h1]; exact hsucc)
      (by rw [new_bb_nil_getBB s bb h1]; exact hbp)
    have frameL := visitBranch_frame l (new_bb s []) bb t s.length
    have hExtraClean₂ := frameL.2 s.length (by omega) (by omega)
    have pathR := ihr v (by omega) (by omega) (by omega) (by omega) (by omega)
      (by rw [hExtraClean₂.1, hExtraClean]) (by rw [hExtraClean₂.2, hExtraClean])
    have hbpExtra : (getBB (visitBranch l (new_bb s []) bb t s.length)
        s.length).branchPred = none := by
      rw [hExtraClean₂.2, hExtraClean]
    have pathL' := bpathIn_mono_state
      (stepOf_mono_of_frame r (visitBranch l (new_bb s []) bb t s.length)
        s.length t f v hbpExtra) pathL
    cases hEl : evalB v l
    · rw [hEl] at pathL'
      simp only [Bool.false_or]
      refine bpathIn_trans
        (bpathIn_mono_set (fun b hb => ?_) pathL')
        (bpathIn_mono_set (fun b hb => ?_) pathR)
      · rcases hb with hb | hb
        · exact Or.inl hb
        · exact Or.inr (by omega)
      · rcases hb with hb | hb
        · exact Or.inr (by omega)
        · exact Or.inr (by omega)
    · rw [hEl] at pathL'
      simp only [Bool.true_or, if_pos (by decide : true = true)]
      refine bpathIn_mono_set (fun b hb => ?_) pathL'
      rcases hb with hb | hb
      · exact Or.inl hb
      · exact Or.inr (by omega)
  | case5 l r v₀ vs s bb t f extra s₁ ihl1 ihl2 ihr =>
    intro v h1 h2 h3 h4 h5 hsucc hbp
    have he : extra = s.length := rfl
    have hs : s₁ = new_bb s [] := rfl
    simp only [visitBranch, evalB]
    simp only [hs, he] at ihl2 ihr
    have e1 : (new_bb s []).length = s.length + 1 := new_bb_length s []
    have hExtraClean : getBB (new_bb s []) s.length = ⟨[], [], none⟩ :=
      getBB_append_self s _
    have pathL := ihl2 v (by omega) (by omega) (by omega) (by omega) (by omega)
      (by rw [new_bb_nil_getBB s bb h1]; exact hsucc)
      (by rw [new_bb_nil_getBB s bb h1]; exact hbp)
    have frameL := visitBranch_frame l (new_bb s []) bb s.length f
    have hExtraClean₂ := frameL.2 s.length (by omega) (by omega)
    have pathR := ihr v (by omega) (by omega) (by omega) (by omega) (by omega)
      (by rw [hExtraClean₂.1, hExtraClean]) (by rw [hExtraClean₂.2, hExtraClean])
    have hbpExtra : (getBB (visitBranch l (new_bb s []) bb s.length f)
        s.length).branchPred = none := by
      rw [hExtraClean₂.2, hExtraClean]
    have pathL' := bpathIn_mono_state
      (stepOf_mono_of_frame (.boolop .andOp r v₀ vs)
        (visitBranch l (new_bb s []) bb s.length f)
        s.length t f v hbpExtra) pathL
    cases hEl : evalB v l
    · rw [hEl] at pathL'
      simp only [Bool.false_and, if_neg (by decide : ¬ false = true)]
      refine bpathIn_mono_set (fun b hb => ?_) pathL'
      rcases hb with hb | hb
      · exact Or.inl hb
      · exact Or.inr (by omega)
    · rw [hEl] at pathL'
      simp only [Bool.true_and]
      refine bpathIn_trans
        (bpathIn_mono_set (fun b hb => ?_) pathL')
        (bpathIn_mono_set (fun b hb => ?_) pathR)
      · rcases hb with hb | hb
        · exact Or.inl hb
        · exact Or.inr (by omega)
      · rcases hb with hb | hb
        · exact Or.inr (by omega)
        · exact Or.inr (by omega)
  | case6 l r v₀ vs s bb t f extra s₁ ihl1 ihl2 ihr =>
    intro v h1 h2 h3 h4 h5 hsucc hbp
    have he : extra = s.length := rfl
    have hs : s₁ = new_bb s [] := rfl
    simp only [visitBranch, evalB]
    simp only [hs, he] at ihl2 ihr
    have e1 : (new_bb s []).length = s.length + 1 := new_bb_length s []
    have hExtraClean : getBB (new_bb s []) s.length = ⟨[], [], none⟩ :=
      getBB_append_self s _
    have pathL := ihl2 v (by omega) (by omega) (by omega) (by omega) (by omega)
      (by rw [new_bb_nil_getBB s bb h1]; exact hsucc)
      (by rw [new_bb_nil_getBB s bb h1]; exact hbp)
    have frameL := visitBranch_frame l (new_bb s []) bb t s.length
    have hExtraClean₂ := frameL.2 s.length (by omega) (by omega)
    have pathR := ihr v (by omega) (by omega) (by omega) (by omega) (by omega)
      (by rw [hExtraClean₂.1, hExtraClean]) (by rw [hExtraClean₂.2, hExtraClean])
    have hbpExtra : (getBB (visitBranch l (new_bb s []) bb t s.length)
        s.length).branchPred = none := by
      rw [hExtraClean₂.2, hExtraClean]
    have pathL' := bpathIn_mono_state
      (stepOf_mono_of_frame (.boolop .orOp r v₀ vs)
        (visitBranch l (new_bb s []) bb t s.length)
        s.length t f v hbpExtra) pathL
    cases hEl : evalB v l
    · rw [hEl] at pathL'
      simp only [Bool.false_or]
      refine bpathIn_trans
        (bpathIn_mono_set (fun b hb => ?_) pathL')
        (bpathIn_mono_set (fun b hb => ?_) pathR)
      · rcases hb with hb | hb
        · exact Or.inl hb
        · exact Or.inr (by omega)
      · rcases hb with hb | hb
        · exact Or.inr (by omega)
        · exact Or.inr (by omega)
    · rw [hEl] at pathL'
      simp only [Bool.true_or, if_pos (by decide : true = true)]
      refine bpathIn_mono_set (fun b hb => ?_) pathL'
      rcases hb with hb | hb
      · exact Or.inl hb
      · exact Or.inr (by omega)
  | case7 c a b s bb t f ifId s₁ elseId s₂ s₃ s₄ ihc1 ihc2 iha1 iha2 ihb =>
    intro v h1 h2 h3 h4 h5 hsucc hbp
    have he1 : ifId = s.length := rfl
    have he2 : s₁ = new_bb s [] := rfl
    have he3 : elseId = s₁.length := rfl
    have he4 : s₂ = new_bb s₁ [] := rfl
    have he5 : s₃ = visitBranch c s₂ bb ifId elseId := rfl
    have he6 : s₄ = visitBranch a s₃ ifId t f := rfl
    simp only [visitBranch, evalB]
    simp only [he6, he5, he4, he3, he2, he1] at ihc2 iha2 ihb
    have e1 : (new_bb s []).length = s.length + 1 := new_bb_length s []
    have e2 : (new_bb (new_bb s []) []).length = s.length + 2 := by
      rw [new_bb_length, new_bb_length]
    have hIfClean : getBB (new_bb (new_bb s []) []) s.length = ⟨[], [], none⟩ := by
      rw [new_bb_nil_getBB (new_bb s []) s.length (by omega)]
      exact getBB_append_self s _
    have hElseClean : getBB (new_bb (new_bb s []) []) ((new_bb s []).length) =
        ⟨[], [], none⟩ := getBB_append_self (new_bb s []) _
    have hbbClean : getBB (new_bb (new_bb s []) []) bb = getBB s bb := by
      rw [new_bb_nil_getBB (new_bb s []) bb (by omega),
        new_bb_nil_getBB s bb h1]
    have pathC := ihc2 v (by omega) (by omega) (by omega) (by omega) (by omega)
      (by rw [hbbClean]; exact hsucc) (by rw [hbbClean]; exact hbp)
    have frameC := visitBranch_frame c (new_bb (new_bb s []) []) bb s.length
      ((new_bb s []).length)
    have hIfClean₃ := frameC.2 s.length (by omega) (by omega)
    have hElseClean₃ := frameC.2 ((new_bb s []).length) (by omega) (by omega)
    have pathA := iha2 v (by omega) (by omega) (by omega) (by omega) (by omega)
      (by rw [hIfClean₃.1, hIfClean]) (by rw [hIfClean₃.2, hIfClean])
    have frameA := visitBranch_frame a
      (visitBranch c (new_bb (new_bb s []) []) bb s.length
        ((new_bb s []).length)) s.length t f
    have hElseClean₄ : (getBB (visitBranch a
        (visitBranch c (new_bb (new_bb s []) []) bb s.length
          ((new_bb s []).length)) s.length t f)
        ((new_bb s []).length)).succs = [] ∧
        (getBB (visitBranch a
        (visitBranch c (new_bb (new_bb s []) []) bb s.length
          ((new_bb s []).length)) s.length t f)
        ((new_bb s []).length)).branchPred = none := by
      have hfr := frameA.2 ((new_bb s []).length) (by omega) (by omega)
      rw [hfr.1, hfr.2, hElseClean₃.1, hElseClean₃.2, hElseClean]
      exact ⟨rfl, rfl⟩
    have pathB := ihb v (by omega) (by omega) (by omega) (by omega) (by omega)
      hElseClean₄.1 hElseClean₄.2
    have hbpIf : (getBB (visitBranch c (new_bb (new_bb s []) []) bb s.length
        ((new_bb s []).length)) s.length).branchPred = none := by
      rw [hIfClean₃.2, hIfClean]
    have pathC' := bpathIn_mono_state
      (stepOf_mono_of_frame a
        (visitBranch c (new_bb (new_bb s []) []) bb s.length
          ((new_bb s []).length)) s.length t f v hbpIf) pathC
    have pathC'' := bpathIn_mono_state
      (stepOf_mono_of_frame b
        (visitBranch a (visitBranch c (new_bb (new_bb s []) []) bb s.length
          ((new_bb s []).length)) s.length t f)
        ((new_bb s []).length) t f v hElseClean₄.2) pathC'
    have pathA' := bpathIn_mono_state
      (stepOf_mono_of_frame b
        (visitBranch a (visitBranch c (new_bb (new_bb s []) []) bb s.length
          ((new_bb s []).length)) s.length t f)
        ((new_bb s []).length) t f v hElseClean₄.2) pathA
    cases hEc : evalB v c
    · rw [hEc] at pathC''
      simp only [if_neg (by decide : ¬ false = true)]
      refine bpathIn_trans
        (bpathIn_mono_set (fun b' hb' => ?_) pathC'')
        (bpathIn_mono_set (fun b' hb' => ?_) pathB)
      · rcases hb' with hb' | hb'
        · exact Or.inl hb'
        · exact Or.inr (by omega)
      · rcases hb' with hb' | hb'
        · exact Or.inr (by omega)
        · exact Or.inr (by omega)
    · rw [hEc] at pathC''
      simp only [if_pos (by decide : true = true)]
      refine bpathIn_trans
        (bpathIn_mono_set (fun b' hb' => ?_) pathC'')
        (bpathIn_mono_set (fun b' hb' => ?_) pathA')
      · rcases hb' with hb' | hb'
        · exact Or.inl hb'
        · exact Or.inr (by omega)
      · rcases hb' with hb' | hb'
        · exact Or.inr (by omega)
        · exact Or.inr (by omega)

/-- Claim C4: lowering a `BoolOp` as a branch predicate with targets
`(t, f)` creates the fresh `extra_bb` (index `s.length`) and wires:
for `and`, the left operand with targets `(extra, f)` and the right
operand inside `extra` with targets `(t, f)`; for `or`, the left
operand with targets `(t, extra)` and the right operand inside `extra`
with targets `(t, f)`; an operation with more than two operands is
first right-associated into a binary tree.  Consequently, under every
valuation control runs from `bb` to the target selected by the
short-circuit value of the whole operation; it passes through `extra`
exactly when the left operand does not determine the result, and when
the left operand does determine the result the run reaches the final
target while avoiding `extra` entirely. -/
theorem visit_BoolOp_short_circuit (op : BoolOpKind) (l r : GExpr)
    (s : BState) (bb t f : ℕ)
    (h1 : bb < s.length) (h2 : t < s.length) (h3 : f < s.length)
    (h4 : t ≠ bb) (h5 : f ≠ bb)
    (hsucc : (getBB s bb).succs = []) (hbp : (getBB s bb).branchPred = none) :
    (op = .andOp → visitBranch (.boolop op l r []) s bb t f =
      visitBranch r (visitBranch l (new_bb s []) bb s.length f) s.length t f) ∧
    (op = .orOp → visitBranch (.boolop op l r []) s bb t f =
      visitBranch r (visitBranch l (new_bb s []) bb t s.length) s.length t f) ∧
    (∀ (v₀ : GExpr) (vs : List GExpr),
      visitBranch (.boolop op l r (v₀ :: vs)) s bb t f =
        visitBranch (.boolop op l (.boolop op r v₀ vs) []) s bb t f) ∧
    (∀ v : ℕ → Bool,
      BPathIn (visitBranch (.boolop op l r []) s bb t f) v
        (fun b => b = bb ∨ s.length ≤ b) bb
        (if evalB v (.boolop op l r []) then t else f) ∧
      (op = .andOp → evalB v l = true →
        BPathIn (visitBranch (.boolop op l r []) s bb t f) v
          (fun b => b = bb ∨ s.length ≤ b) bb s.length) ∧
      (op = .orOp → evalB v l = false →
        BPathIn (visitBranch (.boolop op l r []) s bb t f) v
          (fun b => b = bb ∨ s.length ≤ b) bb s.length) ∧
      (op = .andOp → evalB v l = false →
        BPathIn (visitBranch (.boolop op l r []) s bb t f) v
          (fun b => b = bb ∨ s.length + 1 ≤ b) bb f) ∧
      (op = .orOp → evalB v l = true →
        BPathIn (visitBranch (.boolop op l r []) s bb t f) v
          (fun b => b = bb ∨ s.length + 1 ≤ b) bb t)) := by
  have e1 : (new_bb s []).length = s.length + 1 := new_bb_length s []
  have hExtraClean : getBB (new_bb s []) s.length = ⟨[], [], none⟩ :=
    getBB_append_self s _
  have hbbClean : getBB (new_bb s []) bb = getBB s bb :=
    new_bb_nil_getBB s bb h1
  refine ⟨?_, ?_, ?_, ?_⟩
  · intro hop; subst hop; simp only [visitBranch]
  · intro hop; subst hop; simp only [visitBranch]
  · intro v₀ vs; cases op <;> simp only [visitBranch]
  · intro v
    cases op with
    | andOp =>
      have pathL := visitBranch_sem l (new_bb s []) bb s.length f v
        (by omega) (by omega) (by omega) (by omega) (by omega)
        (by rw [hbbClean]; exact hsucc) (by rw [hbbClean]; exact hbp)
      have frameL := visitBranch_frame l (new_bb s []) bb s.length f
      have hExtraClean₂ := frameL.2 s.length (by omega) (by omega)
      have hbpExtra : (getBB (visitBranch l (new_bb s []) bb s.length f)
          s.length).branchPred = none := by
        rw [hExtraClean₂.2, hExtraClean]
      have pathL' := bpathIn_mono_state
        (stepOf_mono_of_frame r (visitBranch l (new_bb s []) bb s.length f)
          s.length t f v hbpExtra) pathL
      refine ⟨visitBranch_sem _ s bb t f v h1 h2 h3 h4 h5 hsucc hbp,
        ?_, ?_, ?_, ?_⟩
      · intro _ hEl
        rw [hEl] at pathL'
        simp only [visitBranch]
        refine bpathIn_mono_set (fun b hb => ?_) pathL'
        rcases hb with hb | hb
        · exact Or.inl hb
        · exact Or.inr (by omega)
      · intro hop; cases hop
      · intro _ hEl
        rw [hEl] at pathL'
        simp only [visitBranch]
        refine bpathIn_mono_set (fun b hb => ?_) pathL'
        rcases hb with hb | hb
        · exact Or.inl hb
        · exact Or.inr (by omega)
      · intro hop; cases hop
    | orOp =>
      have pathL := visitBranch_sem l (new_bb s []) bb t s.length v
        (by omega) (by omega) (by omega) (by omega) (by omega)
        (by rw [hbbClean]; exact hsucc) (by rw [hbbClean]; exact hbp)
      have frameL := visitBranch_frame l (new_bb s []) bb t s.length
      have hExtraClean₂ := frameL.2 s.length (by omega) (by omega)
      have hbpExtra : (getBB (visitBranch l (new_bb s []) bb t s.length)
          s.length).branchPred = none := by
        rw [hExtraClean₂.2, hExtraClean]
      have pathL' := bpathIn_mono_state
        (stepOf_mono_of_frame r (visitBranch l (new_bb s []) bb t s.length)
          s.length t f v hbpExtra) pathL
      refine ⟨visitBranch_sem _ s bb t f v h1 h2 h3 h4 h5 hsucc hbp,
        ?_, ?_, ?_, ?_⟩
      · intro hop; cases hop
      · intro _ hEl
        rw [hEl] at pathL'
        simp only [visitBranch]
        refine bpathIn_mono_set (fun b hb => ?_) pathL'
        rcases hb with hb | hb
        · exact Or.inl hb
        · exact Or.inr (by omega)
      · intro hop; cases hop
      · intro _ hEl
        rw [hEl] at pathL'
        simp only [visitBranch]
        refine bpathIn_mono_set (fun b hb => ?_) pathL'
        rcases hb with hb | hb
        · exact Or.inl hb
        · exact Or.inr (by omega)

/-- A three-block state: an unterminated block `0` and two target
blocks `1` and `2`. -/
def exS3 : BState := [⟨[], [], none⟩, ⟨[], [], none⟩, ⟨[], [], none⟩]

theorem visit_BoolOp_short_circuit_witness :
    (0 < exS3.length ∧ 1 < exS3.length ∧ 2 < exS3.length ∧ 1 ≠ 0 ∧ 2 ≠ 0 ∧
      (getBB exS3 0).succs = [] ∧ (getBB exS3 0).branchPred = none) ∧
    ((BoolOpKind.andOp = .andOp →
      visitBranch (.boolop .andOp (.atom 0) (.atom 1) []) exS3 0 1 2 =
      visitBranch (.atom 1) (visitBranch (.atom 0) (new_bb exS3 []) 0
        exS3.length 2) exS3.length 1 2) ∧
    (BoolOpKind.andOp = .orOp →
      visitBranch (.boolop .andOp (.atom 0) (.atom 1) []) exS3 0 1 2 =
      visitBranch (.atom 1) (visitBranch (.atom 0) (new_bb exS3 []) 0 1
        exS3.length) exS3.length 1 2) ∧
    (∀ (v₀ : GExpr) (vs : List GExpr),
      visitBranch (.boolop .andOp (.atom 0) (.atom 1) (v₀ :: vs)) exS3 0 1 2 =
        visitBranch (.boolop .andOp (.atom 0)
          (.boolop .andOp (.atom 1) v₀ vs) []) exS3 0 1 2) ∧
    (∀ v : ℕ → Bool,
      BPathIn (visitBranch (.boolop .andOp (.atom 0) (.atom 1) []) exS3 0 1 2)
        v (fun b => b = 0 ∨ exS3.length ≤ b) 0
        (if evalB v (.boolop .andOp (.atom 0) (.atom 1) []) then 1 else 2) ∧
      (BoolOpKind.andOp = .andOp → evalB v (.atom 0) = true →
        BPathIn (visitBranch (.boolop .andOp (.atom 0) (.atom 1) []) exS3 0 1 2)
          v (fun b => b = 0 ∨ exS3.length ≤ b) 0 exS3.length) ∧
      (BoolOpKind.andOp = .orOp → evalB v (.atom 0) = false →
        BPathIn (visitBranch (.boolop .andOp (.atom 0) (.atom 1) []) exS3 0 1 2)
          v (fun b => b = 0 ∨ exS3.length ≤ b) 0 exS3.length) ∧
      (BoolOpKind.andOp = .andOp → evalB v (.atom 0) = false →
        BPathIn (visitBranch (.boolop .andOp (.atom 0) (.atom 1) []) exS3 0 1 2)
          v (fun b => b = 0 ∨ exS3.length + 1 ≤ b) 0 2) ∧
      (BoolOpKind.andOp = .orOp → evalB v (.atom 0) = true →
        BPathIn (visitBranch (.boolop .andOp (.atom 0) (.atom 1) []) exS3 0 1 2)
          v (fun b => b = 0 ∨ exS3.length + 1 ≤ b) 0 1))) :=
  ⟨⟨by decide, by decide, by decide, by decide, by decide, rfl, rfl⟩,
    visit_BoolOp_short_circuit .andOp (.atom 0) (.atom 1) exS3 0 1 2
      (by decide) (by decide) (by decide) (by decide) (by decide) rfl rfl⟩

/-! ### The successor loops of `check_bb` (checker/cfg_checker.py, 142-179) -/

/-- A source location `(lineno, col_offset)` as returned by `line_col`. -/
structure AstLoc where
  line : ℕ
  col : ℕ
deriving DecidableEq

/-- The `line_col` comparison: lexicographic order on `(lineno, col_offset)`,
mirroring Python tuple comparison. -/
def locLt (a b : AstLoc) : Prop :=
  a.line < b.line ∨ (a.line = b.line ∧ a.col < b.col)

instance (a b : AstLoc) : Decidable (locLt a b) := by
  unfold locLt; infer_instance

/-- A Guppy type as far as the linearity checks are concerned: an identity
(for error messages and equality tests) and the `linear` flag. -/
structure GuppyType where
  id : ℕ
  linear : Bool
deriving DecidableEq

/-- A variable of the checker context `ctx.locals`: its name, type, the
location where it was defined and (if any) the location of its prior use. -/
structure Variable where
  name : String
  ty : GuppyType
  defined_at : Option AstLoc
  used : Option AstLoc
deriving DecidableEq

/-- Dict lookup `ctx.locals[x]`. -/
def lookupVar (locals : List Variable) (x : String) : Option Variable :=
  locals.find? (fun v => v.name == x)

/-- One entry of `cfg.live_before[succ]`: the variable name, the location of
the use requesting it, and whether the name is in `maybe_ass_before` of the
using block. -/
structure LiveEntry where
  name : String
  useLoc : AstLoc
  maybeAss : Bool
deriving DecidableEq

/-- The errors raised by the successor loops of `check_bb`. -/
inductive BBErr where
  | notDefinedAllPaths (x : String) (loc : AstLoc)
  | notDefined (x : String) (loc : AstLoc)
  | alreadyUsed (x : String) (ty : GuppyType) (loc : AstLoc) (firstUse : AstLoc)
  | notUsedAllPaths (x : String) (ty : GuppyType) (definedLoc : Option AstLoc)
deriving DecidableEq

/-- The loop over `cfg.live_before[succ]` (cfg_checker.py 143-167): names
requested by the successor must be defined, and a linear local that was
already used must not be requested again. -/
def checkLiveEntries (locals : List Variable) (globals : List String) :
    List LiveEntry → Except BBErr Unit
  | [] => .ok ()
  | e :: rest =>
    match lookupVar locals e.name with
    | none =>
      if e.name ∈ globals then checkLiveEntries locals globals rest
      else if e.maybeAss then .error (.notDefinedAllPaths e.name e.useLoc)
      else .error (.notDefined e.name e.useLoc)
    | some var =>
      match var.used with
      | some fu =>
        if var.ty.linear then .error (.alreadyUsed e.name var.ty e.useLoc fu)
        else checkLiveEntries locals globals rest
      | none => checkLiveEntries locals globals rest

/-- The loop over `ctx.locals` (cfg_checker.py 170-179): an unused linear
variable must be outputted to, i.e. live before, the successor. -/
def checkLinearOutputs (se : List LiveEntry) : List Variable → Except BBErr Unit
  | [] => .ok ()
  | v :: rest =>
    if v.ty.linear = true ∧ v.used = none ∧ v.name ∉ se.map LiveEntry.name then
      .error (.notUsedAllPaths v.name v.ty v.defined_at)
    else checkLinearOutputs se rest

/-- All checks `check_bb` performs for one successor edge. -/
def checkSucc (locals : List Variable) (globals : List String)
    (se : List LiveEntry) : Except BBErr Unit := do
  checkLiveEntries locals globals se
  checkLinearOutputs se locals

/-- The `for succ in bb.successors` loop of `check_bb` (lines 142-179),
given the `live_before` rows of the successors. -/
def check_bb_succs (locals : List Variable) (globals : List String) :
    List (List LiveEntry) → Except BBErr Unit
  | [] => .ok ()
  | se :: rest => do
    checkSucc locals globals se
    check_bb_succs locals globals rest

theorem except_bind_err {ε α β : Type} (x : Except ε α) (f : α → Except ε β)
    (e : ε) : (x >>= f = Except.error e) ↔
      x = .error e ∨ ∃ v, x = .ok v ∧ f v = .error e := by
  cases x <;> simp [Bind.bind, Except.bind]

theorem lookupVar_of_nodup (locals : List Variable)
    (hnd : (locals.map Variable.name).Nodup) (v : Variable) (hv : v ∈ locals) :
    lookupVar locals v.name = some v := by
  induction locals with
  | nil => cases hv
  | cons w rest ih =>
    rw [List.map_cons, List.nodup_cons] at hnd
    rcases List.mem_cons.mp hv with hv | hv
    · subst hv
      simp only [lookupVar, List.find?, beq_self_eq_true]
    · have hne : (w.name == v.name) = false := by
        rw [beq_eq_false_iff_ne]
        intro hEq
        exact hnd.1 (by rw [hEq]; exact List.mem_map_of_mem Variable.name hv)
      simp only [lookupVar, List.find?, hne]
      exact ih hnd.2 hv

theorem checkLiveEntries_ok_iff (locals : List Variable) (globals : List String)
    (se : List LiveEntry) :
    checkLiveEntries locals globals se = .ok () ↔
      ∀ e ∈ se,
        (lookupVar locals e.name = none → e.name ∈ globals) ∧
        (∀ var ∈ locals, lookupVar locals e.name = some var →
          var.ty.linear = true → var.used = none) := by
  induction se with
  | nil => simp [checkLiveEntries]
  | cons e rest ih =>
    rw [List.forall_mem_cons]
    cases hl : lookupVar locals e.name with
    | none =>
      by_cases hg : e.name ∈ globals
      · simp only [checkLiveEntries, hl, if_pos hg]
        rw [ih]
        constructor
        · intro h
          refine ⟨⟨fun _ => hg, fun var _ hv => ?_⟩, h⟩
          cases hv
        · exact fun h => h.2
      · simp only [checkLiveEntries, hl, if_neg hg]
        constructor
        · intro h
          split at h <;> cases h
        · intro h
          exact absurd (h.1.1 (by trivial)) hg
    | some var =>
      cases hu : var.used with
      | some fu =>
        by_cases hlin : var.ty.linear = true
        · simp only [checkLiveEntries, hl, hu, if_pos hlin]
          constructor
          · intro h; cases h
          · intro h
            have hmem : var ∈ locals :=
              List.mem_of_find?_eq_some hl
            have h2 := h.1.2 var hmem (by trivial) hlin
            rw [hu] at h2; cases h2
        · simp only [checkLiveEntries, hl, hu, if_neg hlin]
          rw [ih]
          constructor
          · intro h
            refine ⟨⟨fun hn => ?_, fun var' _ hv' hlin' => ?_⟩, h⟩
            · cases hn
            · injection hv' with hv'
              subst hv'
              exact absurd hlin' hlin
          · exact fun h => h.2
      | none =>
        simp only [checkLiveEntries, hl, hu]
        rw [ih]
        constructor
        · intro h
          refine ⟨⟨fun hn => ?_, fun var' _ hv' _ => ?_⟩, h⟩
          · cases hn
          · injection hv' with hv'
            subst hv'
            exact hu
        · exact fun h => h.2

theorem checkLinearOutputs_ok_iff (se : List LiveEntry) (locals : List Variable) :
    checkLinearOutputs se locals = .ok () ↔
      ∀ v ∈ locals, v.ty.linear = true → v.used = none →
        v.name ∈ se.map LiveEntry.name := by
  induction locals with
  | nil => simp [checkLinearOutputs]
  | cons v rest ih =>
    rw [List.forall_mem_cons]
    by_cases hc : v.ty.linear = true ∧ v.used = none ∧
        v.name ∉ se.map LiveEntry.name
    · simp only [checkLinearOutputs, if_pos hc]
      constructor
      · intro h; cases h
      · intro h
        exact absurd (h.1 hc.1 hc.2.1) hc.2.2
    · simp only [checkLinearOutputs, if_neg hc]
      rw [ih]
      constructor
      · intro h
        refine ⟨fun hlin hun => ?_, h⟩
        by_contra hmem
        exact hc ⟨hlin, hun, hmem⟩
      · exact fun h => h.2

theorem checkSucc_ok_iff (locals : List Variable) (globals : List String)
    (se : List LiveEntry) :
    checkSucc locals globals se = .ok () ↔
      checkLiveEntries locals globals se = .ok () ∧
      checkLinearOutputs se locals = .ok () := by
  simp only [checkSucc]
  rw [except_bind_ok]
  constructor
  · rintro ⟨⟨⟩, h1, h2⟩
    exact ⟨h1, h2⟩
  · rintro ⟨h1, h2⟩
    exact ⟨(), h1, h2⟩

theorem check_bb_succs_ok_iff (locals : List Variable) (globals : List String)
    (succs : List (List LiveEntry)) :
    check_bb_succs locals globals succs = .ok () ↔
      ∀ se ∈ succs, checkSucc locals globals se = .ok () := by
  induction succs with
  | nil => simp [check_bb_succs]
  | cons se rest ih =>
    rw [List.forall_mem_cons]
    simp only [check_bb_succs]
    rw [except_bind_ok]
    constructor
    · rintro ⟨⟨⟩, h1, h2⟩
      exact ⟨h1, ih.mp h2⟩
    · rintro ⟨h1, h2⟩
      exact ⟨(), h1, ih.mpr h2⟩

theorem checkLiveEntries_err (locals : List Variable) (globals : List String)
    (se : List LiveEntry) (err : BBErr)
    (h : checkLiveEntries locals globals se = .error err) :
    ∃ e ∈ se,
      (lookupVar locals e.name = none ∧ e.name ∉ globals ∧
        (err = .notDefinedAllPaths e.name e.useLoc ∨
         err = .notDefined e.name e.useLoc)) ∨
      (∃ var fu, lookupVar locals e.name = some var ∧
        var.ty.linear = true ∧ var.used = some fu ∧
        err = .alreadyUsed e.name var.ty e.useLoc fu) := by
  induction se with
  | nil => simp [checkLiveEntries] at h
  | cons e rest ih =>
    cases hl : lookupVar locals e.name with
    | none =>
      by_cases hg : e.name ∈ globals
      · simp only [checkLiveEntries, hl] at h
        rw [if_pos hg] at h
        obtain ⟨e', he', hc⟩ := ih h
        exact ⟨e', List.mem_cons_of_mem _ he', hc⟩
      · simp only [checkLiveEntries, hl] at h
        rw [if_neg hg] at h
        by_cases hm : e.maybeAss = true
        · rw [if_pos hm] at h
          injection h with h
          exact ⟨e, List.mem_cons_self e rest, Or.inl ⟨hl, hg, Or.inl h.symm⟩⟩
        · rw [if_neg hm] at h
          injection h with h
          exact ⟨e, List.mem_cons_self e rest, Or.inl ⟨hl, hg, Or.inr h.symm⟩⟩
    | some var =>
      cases hu : var.used with
      | some fu =>
        by_cases hlin : var.ty.linear = true
        · simp only [checkLiveEntries, hl, hu] at h
          rw [if_pos hlin] at h
          injection h with h
          exact ⟨e, List.mem_cons_self e rest,
            Or.inr ⟨var, fu, hl, hlin, hu, h.symm⟩⟩
        · simp only [checkLiveEntries, hl, hu] at h
          rw [if_neg hlin] at h
          obtain ⟨e', he', hc⟩ := ih h
          exact ⟨e', List.mem_cons_of_mem _ he', hc⟩
      | none =>
        simp only [checkLiveEntries, hl, hu] at h
        obtain ⟨e', he', hc⟩ := ih h
        exact ⟨e', List.mem_cons_of_mem _ he', hc⟩

theorem checkLinearOutputs_err (se : List LiveEntry) (locals : List Variable)
    (err : BBErr) (h : checkLinearOutputs se locals = .error err) :
    ∃ v ∈ locals, v.ty.linear = true ∧ v.used = none ∧
      v.name ∉ se.map LiveEntry.name ∧
      err = .notUsedAllPaths v.name v.ty v.defined_at := by
  induction locals with
  | nil => simp [checkLinearOutputs] at h
  | cons v rest ih =>
    by_cases hc : v.ty.linear = true ∧ v.used = none ∧
        v.name ∉ se.map LiveEntry.name
    · simp only [checkLinearOutputs] at h
      rw [if_pos hc] at h
      injection h with h
      exact ⟨v, List.mem_cons_self v rest, hc.1, hc.2.1, hc.2.2, h.symm⟩
    · simp only [checkLinearOutputs] at h
      rw [if_neg hc] at h
      obtain ⟨v', hv', hrest⟩ := ih h
      exact ⟨v', List.mem_cons_of_mem _ hv', hrest⟩

theorem checkSucc_err (locals : List Variable) (globals : List String)
    (se : List LiveEntry) (err : BBErr)
    (h : checkSucc locals globals se = .error err) :
    checkLiveEntries locals globals se = .error err ∨
      (checkLiveEntries locals globals se = .ok () ∧
       checkLinearOutputs se locals = .error err) := by
  simp only [checkSucc] at h
  rcases (except_bind_err _ _ _).mp h with h | ⟨⟨⟩, h1, h2⟩
  · exact Or.inl h
  · exact Or.inr ⟨h1, h2⟩

theorem check_bb_succs_err (locals : List Variable) (globals : List String)
    (succs : List (List LiveEntry)) (err : BBErr)
    (h : check_bb_succs locals globals succs = .error err) :
    ∃ se ∈ succs, checkSucc locals globals se = .error err := by
  induction succs with
  | nil => simp [check_bb_succs] at h
  | cons se rest ih =>
    simp only [check_bb_succs] at h
    rcases (except_bind_err _ _ _).mp h with h | ⟨⟨⟩, _, h2⟩
    · exact ⟨se, List.mem_cons_self se rest, h⟩
    · obtain ⟨se', hm, h'⟩ := ih h2
      exact ⟨se', List.mem_cons_of_mem _ hm, h'⟩

/-- Claim C1: for every basic block and every successor edge, checking
succeeds exactly when every name requested by a successor is defined and the
linear discipline holds: a linear local that was already used may not be
live before any successor (otherwise the error "already used" reports the
variable, its type, the new use and the first use), and an unused linear
local must be live before every successor (otherwise the error "not used on
all control-flow paths" reports the variable, its type and its definition
site).  Hence under a successful check a linear variable is live before
every successor or before none, and a block whose paths consume each linear
variable exactly once passes both checks. -/
theorem check_bb_linearity (locals : List Variable) (globals : List String)
    (succs : List (List LiveEntry))
    (hnd : (locals.map Variable.name).Nodup) :
    (check_bb_succs locals globals succs = .ok () ↔
      ∀ se ∈ succs,
        (∀ e ∈ se,
          (lookupVar locals e.name = none → e.name ∈ globals) ∧
          (∀ var ∈ locals, lookupVar locals e.name = some var →
            var.ty.linear = true → var.used = none)) ∧
        (∀ v ∈ locals, v.ty.linear = true → v.used = none →
          v.name ∈ se.map LiveEntry.name)) ∧
    (check_bb_succs locals globals succs = .ok () →
      ∀ v ∈ locals, v.ty.linear = true →
        ((∀ se ∈ succs, v.name ∈ se.map LiveEntry.name) ∨
         (∀ se ∈ succs, v.name ∉ se.map LiveEntry.name))) ∧
    (∀ x ty loc fu,
      check_bb_succs locals globals succs = .error (.alreadyUsed x ty loc fu) →
      ∃ var, lookupVar locals x = some var ∧ var.ty = ty ∧
        var.ty.linear = true ∧ var.used = some fu ∧
        ∃ se ∈ succs, ∃ e ∈ se, e.name = x ∧ e.useLoc = loc) ∧
    (∀ x ty dl,
      check_bb_succs locals globals succs = .error (.notUsedAllPaths x ty dl) →
      ∃ var ∈ locals, var.name = x ∧ var.ty = ty ∧ var.ty.linear = true ∧
        var.used = none ∧ var.defined_at = dl ∧
        ∃ se ∈ succs, x ∉ se.map LiveEntry.name) := by
  refine ⟨?_, ?_, ?_, ?_⟩
  · rw [check_bb_succs_ok_iff]
    constructor
    · intro h se hse
      have h2 := (checkSucc_ok_iff locals globals se).mp (h se hse)
      exact ⟨(checkLiveEntries_ok_iff locals globals se).mp h2.1,
        (checkLinearOutputs_ok_iff se locals).mp h2.2⟩
    · intro h se hse
      exact (checkSucc_ok_iff locals globals se).mpr
        ⟨(checkLiveEntries_ok_iff locals globals se).mpr (h se hse).1,
         (checkLinearOutputs_ok_iff se locals).mpr (h se hse).2⟩
  · intro h v hv hlin
    have hA := (check_bb_succs_ok_iff locals globals succs).mp h
    cases hu : v.used with
    | none =>
      left
      intro se hse
      have h2 := (checkLinearOutputs_ok_iff se locals).mp
        ((checkSucc_ok_iff locals globals se).mp (hA se hse)).2
      exact h2 v hv hlin hu
    | some fu =>
      right
      intro se hse hmem
      obtain ⟨e, he, hename⟩ := List.mem_map.mp hmem
      have h1 := (checkLiveEntries_ok_iff locals globals se).mp
        ((checkSucc_ok_iff locals globals se).mp (hA se hse)).1
      have h2 := (h1 e he).2 v hv
        (by rw [hename]; exact lookupVar_of_nodup locals hnd v hv) hlin
      rw [hu] at h2
      cases h2
  · intro x ty loc fu h
    obtain ⟨se, hse, hsucc⟩ := check_bb_succs_err locals globals succs _ h
    rcases checkSucc_err locals globals se _ hsucc with h1 | ⟨_, h2⟩
    · obtain ⟨e, he, hcase⟩ := checkLiveEntries_err locals globals se _ h1
      rcases hcase with ⟨_, _, herr | herr⟩ | ⟨var, fu', hl, hlin, hu, herr⟩
      · cases herr
      · cases herr
      · injection herr with e1 e2 e3 e4
        refine ⟨var, ?_, e2.symm, hlin, ?_, se, hse, e, he, e1.symm, e3.symm⟩
        · rw [e1]; exact hl
        · rw [e4]; exact hu
    · obtain ⟨v, _, _, _, _, herr⟩ := checkLinearOutputs_err se locals _ h2
      cases herr
  · intro x ty dl h
    obtain ⟨se, hse, hsucc⟩ := check_bb_succs_err locals globals succs _ h
    rcases checkSucc_err locals globals se _ hsucc with h1 | ⟨_, h2⟩
    · obtain ⟨e, he, hcase⟩ := checkLiveEntries_err locals globals se _ h1
      rcases hcase with ⟨_, _, herr | herr⟩ | ⟨var, fu', hl, hlin, hu, herr⟩
      · cases herr
      · cases herr
      · cases herr
    · obtain ⟨v, hv, hlin, hu, hmem, herr⟩ := checkLinearOutputs_err se locals _ h2
      injection herr with e1 e2 e3
      refine ⟨v, hv, e1.symm, e2.symm, hlin, hu, e3.symm, se, hse, ?_⟩
      rw [e1]; exact hmem

/-- A context with a single unused linear variable that is live before the
only successor: every path consumes it exactly once, and the check passes. -/
def exLocalsC1 : List Variable := [⟨"q", ⟨0, true⟩, some ⟨1, 0⟩, none⟩]

/-- The single successor's live-before row for `exLocalsC1`. -/
def exSuccsC1 : List (List LiveEntry) := [[⟨"q", ⟨2, 4⟩, false⟩]]

theorem check_bb_linearity_witness :
    (exLocalsC1.map Variable.name).Nodup ∧
    check_bb_succs exLocalsC1 [] exSuccsC1 = .ok () :=
  ⟨by decide,
    ((check_bb_linearity exLocalsC1 [] exSuccsC1 (by decide)).1).mpr (by decide)⟩

/-! ### `check_rows_match` (checker/cfg_checker.py, 196-223) -/

/-- The asymmetry of the `line_col` order. -/
theorem locLt_asymm (a b : AstLoc) (h : locLt a b) : ¬ locLt b a := by
  unfold locLt at h ⊢
  omega

/-- The looked-up entry carries the name it was looked up under. -/
theorem lookupVar_name (row : List Variable) (x : String) (v : Variable)
    (h : lookupVar row x = some v) : v.name = x := by
  unfold lookupVar at h
  have h2 := List.find?_some h
  exact eq_of_beq h2

/-- The `assert map1.keys() == map2.keys()` test: both rows bind the same
set of names. -/
def sameKeys (row1 row2 : List Variable) : Bool :=
  (row1.map Variable.name).all
    (fun x => decide (x ∈ row2.map Variable.name)) &&
  (row2.map Variable.name).all
    (fun x => decide (x ∈ row1.map Variable.name))

/-- The error raised by `check_rows_match`: the rendered identity of the
variable named first, the two types and the two definition sites in the
order they are reported; or failure of the keys assertion. -/
inductive RowsErr where
  | diffTypes (ident : String) (ty1 ty2 : GuppyType) (loc1 loc2 : Option AstLoc)
  | assertKeysMismatch
deriving DecidableEq

/-- Render a variable for the error message: temporaries (names starting
with `%`) are shown as "Expression" rather than by name. -/
def mkIdent (name : String) : String :=
  if name.startsWith "%" then "Expression" else "Variable `" ++ name ++ "`"

/-- The `for x in map1` loop of `check_rows_match` (cfg_checker.py 204-223):
on a type disagreement, the pair is swapped if both definition sites exist
and the second comes earlier in `line_col` order, and the error names the
(possibly swapped) first variable via `mkIdent`. -/
def rowsLoop (row2 : List Variable) : List Variable → Except RowsErr Unit
  | [] => .ok ()
  | v1 :: rest =>
    match lookupVar row2 v1.name with
    | none => rowsLoop row2 rest
    | some v2 =>
      if v1.ty ≠ v2.ty then
        match v1.defined_at, v2.defined_at with
        | some d1, some d2 =>
          if locLt d2 d1 then
            .error (.diffTypes (mkIdent v2.name) v2.ty v1.ty
              v2.defined_at v1.defined_at)
          else
            .error (.diffTypes (mkIdent v1.name) v1.ty v2.ty
              v1.defined_at v2.defined_at)
        | _, _ =>
          .error (.diffTypes (mkIdent v1.name) v1.ty v2.ty
            v1.defined_at v2.defined_at)
      else rowsLoop row2 rest

/-- `check_rows_match` (cfg_checker.py 196-223). -/
def check_rows_match (row1 row2 : List Variable) : Except RowsErr Unit :=
  if sameKeys row1 row2 then rowsLoop row2 row1
  else .error .assertKeysMismatch

theorem rowsLoop_ok_iff (row2 : List Variable) (row1 : List Variable) :
    rowsLoop row2 row1 = .ok () ↔
      ∀ v1 ∈ row1, ∀ v2 ∈ row2, lookupVar row2 v1.name = some v2 →
        v1.ty = v2.ty := by
  induction row1 with
  | nil => simp [rowsLoop]
  | cons v1 rest ih =>
    rw [List.forall_mem_cons]
    cases hl : lookupVar row2 v1.name with
    | none =>
      simp only [rowsLoop, hl]
      rw [ih]
      constructor
      · intro h
        refine ⟨fun v2 _ hv2 => ?_, h⟩
        cases hv2
      · exact fun h => h.2
    | some v2 =>
      by_cases hty : v1.ty ≠ v2.ty
      · simp only [rowsLoop, hl, if_pos hty]
        constructor
        · intro h
          split at h <;> (try split at h) <;> cases h
        · intro h
          exact absurd (h.1 v2 (List.mem_of_find?_eq_some hl) (by trivial)) hty
      · simp only [rowsLoop, hl, if_neg hty]
        rw [ih]
        constructor
        · intro h
          refine ⟨fun v2' _ hv2' => ?_, h⟩
          injection hv2' with hv2'
          subst hv2'
          exact not_not.mp hty
        · exact fun h => h.2

theorem rowsLoop_err (row2 : List Variable) (row1 : List Variable)
    (err : RowsErr) (h : rowsLoop row2 row1 = .error err) :
    ∃ v1 ∈ row1, ∃ v2, lookupVar row2 v1.name = some v2 ∧ v1.ty ≠ v2.ty ∧
      (((∃ d1 d2, v1.defined_at = some d1 ∧ v2.defined_at = some d2 ∧
          locLt d2 d1) ∧
        err = .diffTypes (mkIdent v2.name) v2.ty v1.ty
          v2.defined_at v1.defined_at) ∨
       (¬(∃ d1 d2, v1.defined_at = some d1 ∧ v2.defined_at = some d2 ∧
          locLt d2 d1) ∧
        err = .diffTypes (mkIdent v1.name) v1.ty v2.ty
          v1.defined_at v2.defined_at)) := by
  induction row1 with
  | nil => simp [rowsLoop] at h
  | cons v1 rest ih =>
    cases hl : lookupVar row2 v1.name with
    | none =>
      simp only [rowsLoop, hl] at h
      obtain ⟨v1', hm, hrest⟩ := ih h
      exact ⟨v1', List.mem_cons_of_mem _ hm, hrest⟩
    | some v2 =>
      by_cases hty : v1.ty ≠ v2.ty
      · simp only [rowsLoop, hl, if_pos hty] at h
        refine ⟨v1, List.mem_cons_self v1 rest, v2, hl, hty, ?_⟩
        cases hd1 : v1.defined_at with
        | none =>
          cases hd2 : v2.defined_at with
          | none =>
            rw [hd1, hd2] at h
            dsimp only at h
            injection h with h
            refine Or.inr ⟨?_, h.symm⟩
            rintro ⟨d1, d2, hd1', _, _⟩
            cases hd1'
          | some d2 =>
            rw [hd1, hd2] at h
            dsimp only at h
            injection h with h
            refine Or.inr ⟨?_, h.symm⟩
            rintro ⟨d1, d2', hd1', _, _⟩
            cases hd1'
        | some d1 =>
          cases hd2 : v2.defined_at with
          | none =>
            rw [hd1, hd2] at h
            dsimp only at h
            injection h with h
            refine Or.inr ⟨?_, h.symm⟩
            rintro ⟨d1', d2', _, hd2', _⟩
            cases hd2'
          | some d2 =>
            rw [hd1, hd2] at h
            dsimp only at h
            by_cases hlt : locLt d2 d1
            · rw [if_pos hlt] at h
              injection h with h
              exact Or.inl ⟨⟨d1, d2, rfl, rfl, hlt⟩, h.symm⟩
            · rw [if_neg hlt] at h
              injection h with h
              refine Or.inr ⟨?_, h.symm⟩
              rintro ⟨d1', d2', hd1', hd2', hlt'⟩
              injection hd1' with hd1'
              injection hd2' with hd2'
              subst hd1'
              subst hd2'
              exact hlt hlt'
      · simp only [rowsLoop, hl, if_neg hty] at h
        obtain ⟨v1', hm, hrest⟩ := ih h
        exact ⟨v1', List.mem_cons_of_mem _ hm, hrest⟩

/-- Claim C5: `check_rows_match` succeeds exactly when both rows bind the
same set of names and every shared name carries the same type in both rows;
the keys assertion fails exactly when the name sets differ; and every
"can refer to different types" error reports a genuinely mismatched pair,
naming first the variable whose definition site comes earlier in
`line_col` order (never naming second an earlier site), rendered through
`mkIdent` so that a `%`-prefixed temporary reads "Expression". -/
theorem check_rows_match_correct (row1 row2 : List Variable) :
    (check_rows_match row1 row2 = .ok () ↔
      sameKeys row1 row2 = true ∧
      ∀ v1 ∈ row1, ∀ v2 ∈ row2, lookupVar row2 v1.name = some v2 →
        v1.ty = v2.ty) ∧
    (check_rows_match row1 row2 = .error .assertKeysMismatch ↔
      sameKeys row1 row2 = false) ∧
    (∀ ident t1 t2 l1 l2,
      check_rows_match row1 row2 = .error (.diffTypes ident t1 t2 l1 l2) →
      sameKeys row1 row2 = true ∧
      ∃ v1 ∈ row1, ∃ v2, lookupVar row2 v1.name = some v2 ∧
        v2.name = v1.name ∧ v1.ty ≠ v2.ty ∧
        ∃ w1 w2, ((w1 = v1 ∧ w2 = v2) ∨ (w1 = v2 ∧ w2 = v1)) ∧
          ident = mkIdent w1.name ∧ t1 = w1.ty ∧ t2 = w2.ty ∧
          l1 = w1.defined_at ∧ l2 = w2.defined_at ∧
          (∀ d1 d2, w1.defined_at = some d1 → w2.defined_at = some d2 →
            ¬ locLt d2 d1)) := by
  have hdef : check_rows_match row1 row2 =
      if sameKeys row1 row2 then rowsLoop row2 row1
      else .error .assertKeysMismatch := rfl
  refine ⟨?_, ?_, ?_⟩
  · by_cases hsk : sameKeys row1 row2 = true
    · rw [hdef, if_pos hsk, rowsLoop_ok_iff]
      exact ⟨fun h => ⟨hsk, h⟩, fun h => h.2⟩
    · rw [hdef, if_neg hsk]
      constructor
      · intro h; cases h
      · intro h; exact absurd h.1 hsk
  · by_cases hsk : sameKeys row1 row2 = true
    · rw [hdef, if_pos hsk]
      constructor
      · intro h
        obtain ⟨v1, _, v2, _, _, hc⟩ := rowsLoop_err row2 row1 _ h
        rcases hc with ⟨_, herr⟩ | ⟨_, herr⟩ <;> cases herr
      · intro h
        rw [hsk] at h
        cases h
    · rw [hdef, if_neg hsk]
      constructor
      · intro _
        exact Bool.eq_false_iff.mpr hsk
      · intro _
        rfl
  · intro ident t1 t2 l1 l2 h
    by_cases hsk : sameKeys row1 row2 = true
    case neg =>
      rw [hdef, if_neg hsk] at h
      injection h with h
      cases h
    case pos =>
      refine ⟨hsk, ?_⟩
      rw [hdef, if_pos hsk] at h
      obtain ⟨v1, hm, v2, hl, hty, hc⟩ := rowsLoop_err row2 row1 _ h
      refine ⟨v1, hm, v2, hl, lookupVar_name row2 v1.name v2 hl, hty, ?_⟩
      rcases hc with ⟨⟨d1, d2, hd1, hd2, hlt⟩, herr⟩ | ⟨hno, herr⟩
      · injection herr with e1 e2 e3 e4 e5
        refine ⟨v2, v1, Or.inr ⟨rfl, rfl⟩, e1, e2, e3, e4, e5, ?_⟩
        intro d1' d2' hd1' hd2'
        rw [hd2] at hd1'
        rw [hd1] at hd2'
        injection hd1' with hd1'
        injection hd2' with hd2'
        subst hd1'
        subst hd2'
        exact locLt_asymm d2 d1 hlt
      · injection herr with e1 e2 e3 e4 e5
        refine ⟨v1, v2, Or.inl ⟨rfl, rfl⟩, e1, e2, e3, e4, e5, ?_⟩
        intro d1' d2' hd1' hd2' hlt'
        exact hno ⟨d1', d2', hd1', hd2', hlt'⟩

/-- Two rows binding the same name at the same type. -/
def exRowA : List Variable := [⟨"x", ⟨3, false⟩, some ⟨1, 0⟩, none⟩]

/-- A second row equal to `exRowA` up to the definition site. -/
def exRowB : List Variable := [⟨"x", ⟨3, false⟩, some ⟨2, 0⟩, none⟩]

theorem check_rows_match_correct_witness :
    check_rows_match exRowA exRowB = .ok () ∧ sameKeys exRowA exRowB = true :=
  ⟨(check_rows_match_correct exRowA exRowB).1.mpr (by decide), by decide⟩

/-! ### The graph compiler (compiler.py): `merge_variables`, `visit_Name`,
`binary_arith_op`, `visit_Assign` -/

namespace Compiler

/-- A Hugr output port: an identity and its (optional) type. -/
structure OutPort where
  id : ℕ
  ty : Option GuppyType
deriving DecidableEq

/-- The message payload of a `GuppyError` raised or stored by the
expression compiler. -/
inductive ErrMsg where
  | diffTypes (name : String) (ty1 ty2 : Option GuppyType)
  | notDefined (name : String)
deriving DecidableEq

/-- A `GuppyError`: its message and the (late-bound) AST location. -/
structure GuppyErr where
  msg : ErrMsg
  location : Option ℕ
deriving DecidableEq

/-- A compiler variable (compiler.py 100-115): name, port, definition
sites, and the errors collected to be raised only on usage. -/
structure Variable where
  name : String
  port : OutPort
  defined_at : List ℕ
  errors_on_usage : List GuppyErr
deriving DecidableEq

/-- `Variable.ty`, delegated to the port. -/
def Variable.ty (v : Variable) : Option GuppyType := v.port.ty

/-- Failure of one of the `assert` statements in `merge_variables`. -/
inductive MergeAssert where
  | emptyList
  | assertFail
deriving DecidableEq

/-- One iteration of the `for v in vs` loop of `merge_variables`: extend
the error list with `v`'s stored errors, record a fresh "can refer to
different types" error if `v`'s type disagrees with the first variable's,
and merge the definition sites. -/
def mergeStep (name0 : String) (ty0 : Option GuppyType)
    (acc : List ℕ × List GuppyErr) (v : Variable) : List ℕ × List GuppyErr :=
  let errs := acc.2 ++ v.errors_on_usage
  ( acc.1 ∪ v.defined_at,
    if v.ty ≠ ty0 then errs ++ [⟨.diffTypes name0 ty0 v.ty, none⟩] else errs )

/-- `merge_variables` (compiler.py 118-139).  Note that the Python list
`errors_on_usage` aliases `vs[0].errors_on_usage`, so the loop, which runs
over all of `vs` including `vs[0]`, appends the first variable's errors a
second time.  A type mismatch is stored, never raised. -/
def merge_variables (vs : List Variable) (new_port : OutPort) :
    Except MergeAssert Variable :=
  match vs with
  | [] => .error .emptyList
  | v0 :: _ =>
    if v0.ty = new_port.ty ∧ ∀ v ∈ vs, v.name = v0.name then
      let r := vs.foldl (mergeStep v0.name v0.ty)
        (v0.defined_at, v0.errors_on_usage)
      .ok ⟨v0.name, new_port, r.1, r.2⟩
    else .error .assertFail

/-- `ExpressionCompiler.visit_Name` (compiler.py 298-308): raise the first
stored error of the variable, with the location set to the use site;
otherwise return the variable's port. -/
def visit_Name (vars : List Variable) (global_variables : List Variable)
    (node : ℕ) (x : String) : Except GuppyErr OutPort :=
  match vars.find? (fun v => v.name == x) with
  | some var =>
    match var.errors_on_usage with
    | err :: _ => .error ⟨err.msg, some node⟩
    | [] => .ok var.port
  | none =>
    match global_variables.find? (fun v => v.name == x) with
    | some var =>
      match var.errors_on_usage with
      | err :: _ => .error ⟨err.msg, some node⟩
      | [] => .ok var.port
    | none => .error ⟨.notDefined x, some node⟩

/-- An int-typed and a float-typed compiler variable of the same name,
merged at a control-flow join. -/
def tyIntC6 : GuppyType := ⟨10, false⟩

/-- The float type used in the counterexample. -/
def tyFloatC6 : GuppyType := ⟨11, false⟩

/-- The variable as defined with type int on one path. -/
def vIntC6 : Variable := ⟨"x", ⟨0, some tyIntC6⟩, [1], []⟩

/-- The variable as defined with type float on the other path. -/
def vFloatC6 : Variable := ⟨"x", ⟨1, some tyFloatC6⟩, [2], []⟩

/-- The merged port, typed like the first variable. -/
def pC6 : OutPort := ⟨2, some tyIntC6⟩

/-- Claim C6 counterexample: merging a variable given type int on one path
and type float on another detects the mismatch but does not abort:
`merge_variables` returns `.ok` with the error merely stored on the
variable, and the error is raised only later, by `visit_Name`, when the
variable is used — with the location rewritten to the use site. -/
theorem merge_variables_defers :
    ∃ var, merge_variables [vIntC6, vFloatC6] pC6 = .ok var ∧
      var.errors_on_usage ≠ [] ∧
      visit_Name [var] [] 7 "x" =
        .error ⟨.diffTypes "x" (some tyIntC6) (some tyFloatC6), some 7⟩ := by
  refine ⟨⟨"x", pC6, [1, 2],
    [⟨.diffTypes "x" (some tyIntC6) (some tyFloatC6), none⟩]⟩, ?_, ?_, ?_⟩
  · rfl
  · decide
  · rfl

/-- Claim C6 (amended): a type mismatch detected while merging variables at
a control-flow join is deferred, not raised: `merge_variables` returns a
merged variable carrying the stored errors (the first variable's errors
appear twice, an artefact of Python list aliasing) together with a freshly
recorded "can refer to different types" error; `visit_Name` then raises the
first stored error, with its location set to the use site, exactly when the
looked-up variable has stored errors, and returns the port otherwise. -/
theorem error_deferral (v0 v1 : Variable) (p : OutPort)
    (hname : v1.name = v0.name) (hty0 : v0.ty = p.ty) (hty : v1.ty ≠ v0.ty) :
    (∃ var, merge_variables [v0, v1] p = .ok var ∧
      var.name = v0.name ∧ var.port = p ∧
      var.errors_on_usage =
        v0.errors_on_usage ++ v0.errors_on_usage ++ v1.errors_on_usage ++
          [⟨.diffTypes v0.name v0.ty v1.ty, none⟩]) ∧
    (∀ (vars gvars : List Variable) (node : ℕ) (x : String) (var : Variable)
      (e : GuppyErr) (rest : List GuppyErr),
      vars.find? (fun v => v.name == x) = some var →
      var.errors_on_usage = e :: rest →
      visit_Name vars gvars node x = .error ⟨e.msg, some node⟩) ∧
    (∀ (vars gvars : List Variable) (node : ℕ) (x : String) (var : Variable),
      vars.find? (fun v => v.name == x) = some var →
      var.errors_on_usage = [] →
      visit_Name vars gvars node x = .ok var.port) := by
  refine ⟨?_, ?_, ?_⟩
  · have hcond : v0.ty = p.ty ∧ ∀ v ∈ [v0, v1], v.name = v0.name := by
      refine ⟨hty0, ?_⟩
      intro v hv
      rcases List.mem_cons.mp hv with h | h
      · subst h; rfl
      · rcases List.mem_cons.mp h with h | h
        · subst h; exact hname
        · cases h
    refine ⟨⟨v0.name, p,
        (v0.defined_at ∪ v0.defined_at) ∪ v1.defined_at,
        v0.errors_on_usage ++ v0.errors_on_usage ++ v1.errors_on_usage ++
          [⟨.diffTypes v0.name v0.ty v1.ty, none⟩]⟩, ?_, rfl, rfl, rfl⟩
    simp only [merge_variables, if_pos hcond, List.foldl, mergeStep]
    rw [if_neg (by simp : ¬(v0.ty ≠ v0.ty)), if_pos hty]
  · intro vars gvars node x var e rest hf he
    simp only [visit_Name, hf, he]
  · intro vars gvars node x var hf he
    simp only [visit_Name, hf, he]

theorem error_deferral_witness :
    (vFloatC6.name = vIntC6.name ∧ vIntC6.ty = pC6.ty ∧
      vFloatC6.ty ≠ vIntC6.ty) ∧
    ∃ var, merge_variables [vIntC6, vFloatC6] pC6 = .ok var ∧
      var.errors_on_usage =
        vIntC6.errors_on_usage ++ vIntC6.errors_on_usage ++
          vFloatC6.errors_on_usage ++
          [⟨.diffTypes vIntC6.name vIntC6.ty vFloatC6.ty, none⟩] :=
  ⟨⟨by decide, by decide, by decide⟩, by
    obtain ⟨var, h1, _, _, h4⟩ :=
      (error_deferral vIntC6 vFloatC6 pC6 (by decide) (by decide)
        (by decide)).1
    exact ⟨var, h1, h4⟩⟩

/-! ### Numeric coercion: `CoercingChecker.synthesize` (guppylang
std/_internal/checker.py 47-57) and `binary_arith_op` (compiler.py
350-364) -/

/-- The numeric kinds of guppylang's `NumericType`. -/
inductive NumKind where
  | natK
  | intK
  | floatK
deriving DecidableEq

/-- A guppylang type as seen by the coercing call checker. -/
inductive GLType where
  | numeric (kind : NumKind)
  | other (id : ℕ)
deriving DecidableEq

/-- An argument expression, possibly wrapped in an inserted `__float__`
instance-method call. -/
inductive CoExpr where
  | atom (id : ℕ)
  | floatCall (arg : CoExpr)
deriving DecidableEq

/-- One argument's treatment by `CoercingChecker.synthesize` (checker.py
50-57): insert a `__float__` call iff the synthesized type is numeric and
its kind is not already Float; the inserted call produces a Float. -/
def coerceArg (e : CoExpr) (ty : GLType) : CoExpr × GLType :=
  match ty with
  | .numeric k =>
    if k ≠ .floatK then (.floatCall e, .numeric .floatK) else (e, ty)
  | .other i => (e, .other i)

/-- A compiler type (compiler.py): `IntType`, `FloatType`, `BoolType`,
`StringType`, or a `TupleType` with element types. -/
inductive CTy where
  | intTy
  | floatTy
  | boolTy
  | stringTy
  | tupleTy (elts : List CTy)

/-- `isinstance(ty, IntType)`. -/
def CTy.isInt : CTy → Bool
  | .intTy => true
  | _ => false

/-- `isinstance(ty, FloatType)`. -/
def CTy.isFloat : CTy → Bool
  | .floatTy => true
  | _ => false

/-- A Hugr port in the arithmetic compiler: identity and tagged type. -/
structure APort where
  id : ℕ
  ty : CTy

/-- A node added by `graph.add_arith`: operation name, argument ports, and
the type tagged on its single output port. -/
structure ArithNode where
  func : String
  args : List APort
  out_ty : CTy

/-- Failure of `assert_arith_type` (compiler.py 60-65). -/
inductive ArithErr where
  | notArith (ty : CTy)

/-- `ExpressionCompiler.binary_arith_op` (compiler.py 350-364): assert both
operands arithmetic; if either is float, coerce an int left operand via an
`int_to_float` node tagged `FloatType` (line 359) and an int right operand
via an `int_to_float` node tagged `IntType` (line 361 — the source really
tags the right coercion's output as int); then emit the arithmetic node on
the (possibly coerced) ports. -/
def binary_arith_op (left right : APort) (int_func float_func : String)
    (bool_out : Bool) (fresh : ℕ) :
    Except ArithErr (List ArithNode × APort) :=
  if (left.ty.isInt || left.ty.isFloat) = false then
    .error (.notArith left.ty)
  else if (right.ty.isInt || right.ty.isFloat) = false then
    .error (.notArith right.ty)
  else
    let is_float := left.ty.isFloat || right.ty.isFloat
    let coerceL := is_float && left.ty.isInt
    let coerceR := is_float && right.ty.isInt
    let left₁ := if coerceL then APort.mk fresh CTy.floatTy else left
    let right₁ := if coerceR then APort.mk (fresh + 1) CTy.intTy else right
    let return_ty := if bool_out then CTy.boolTy else left₁.ty
    let nodes :=
      (if coerceL then [ArithNode.mk "int_to_float" [left] CTy.floatTy]
        else []) ++
      (if coerceR then [ArithNode.mk "int_to_float" [right] CTy.intTy]
        else []) ++
      [ArithNode.mk (if is_float then float_func else int_func)
        [left₁, right₁] return_ty]
    .ok (nodes, APort.mk (fresh + 2) return_ty)

/-- Claim C7: the checker-level coercion is indeed idempotent and one-way —
`__float__` is inserted exactly for non-Float numeric kinds, an
already-Float value passes through unchanged, non-numeric types are never
coerced, and the checker's inserted conversion produces a Float.  But in
`binary_arith_op` the conversion inserted for an int right operand is a
node `int_to_float` whose output port is tagged `IntType`, not
`FloatType` (compiler.py line 361, unlike line 359 for the left operand):
the code contradicts "every inserted conversion produces a value of type
Float". -/
theorem float_coercion (e : CoExpr) (i : ℕ) (lId rId : ℕ)
    (intf floatf : String) (b : Bool) (n : ℕ) :
    (coerceArg e (.numeric .natK) = (.floatCall e, .numeric .floatK)) ∧
    (coerceArg e (.numeric .intK) = (.floatCall e, .numeric .floatK)) ∧
    (coerceArg e (.numeric .floatK) = (e, .numeric .floatK)) ∧
    (coerceArg e (.other i) = (e, .other i)) ∧
    (∀ ty, coerceArg (coerceArg e ty).1 (coerceArg e ty).2 = coerceArg e ty) ∧
    (∃ nodes outp,
      binary_arith_op (APort.mk lId .floatTy) (APort.mk rId .intTy)
        intf floatf b n = .ok (nodes, outp) ∧
      ArithNode.mk "int_to_float" [APort.mk rId .intTy] CTy.intTy ∈ nodes ∧
      CTy.intTy ≠ CTy.floatTy) ∧
    (∃ nodes outp,
      binary_arith_op (APort.mk lId .intTy) (APort.mk rId .floatTy)
        intf floatf b n = .ok (nodes, outp) ∧
      ArithNode.mk "int_to_float" [APort.mk lId .intTy] CTy.floatTy ∈ nodes) := by
  refine ⟨rfl, rfl, rfl, rfl, ?_, ?_, ?_⟩
  · intro ty
    cases ty with
    | numeric k => cases k <;> rfl
    | other j => rfl
  · refine ⟨[ArithNode.mk "int_to_float" [APort.mk rId .intTy] CTy.intTy,
      ArithNode.mk floatf
        [APort.mk lId .floatTy, APort.mk (n + 1) .intTy]
        (if b then CTy.boolTy else CTy.floatTy)],
      APort.mk (n + 2) (if b then CTy.boolTy else CTy.floatTy), rfl,
      List.mem_cons_self _ _, ?_⟩
    intro h
    cases h
  · exact ⟨[ArithNode.mk "int_to_float" [APort.mk lId .intTy] CTy.floatTy,
      ArithNode.mk floatf
        [APort.mk n .floatTy, APort.mk rId .floatTy]
        (if b then CTy.boolTy else CTy.floatTy)],
      APort.mk (n + 2) (if b then CTy.boolTy else CTy.floatTy), rfl,
      List.mem_cons_self _ _⟩

theorem float_coercion_witness :
    coerceArg (.atom 0) (.numeric .intK) =
      (.floatCall (.atom 0), .numeric .floatK) ∧
    ∃ nodes outp,
      binary_arith_op (APort.mk 0 .floatTy) (APort.mk 1 .intTy)
        "imul" "fmul" false 5 = .ok (nodes, outp) ∧
      ArithNode.mk "int_to_float" [APort.mk 1 .intTy] CTy.intTy ∈ nodes ∧
      CTy.intTy ≠ CTy.floatTy :=
  ⟨(float_coercion (.atom 0) 0 0 1 "imul" "fmul" false 5).2.1,
   (float_coercion (.atom 0) 0 0 1 "imul" "fmul" false 5).2.2.2.2.2.1⟩

/-! ### Tuple-pattern unpacking in `visit_Assign` (compiler.py 515-575) -/

/-- The left-hand side of an assignment: a name or a nested tuple
pattern. -/
inductive Pattern where
  | nameP (x : String)
  | tupleP (elts : List Pattern)

/-- The errors raised by the unpacking loop of `visit_Assign`
(compiler.py 552-575). -/
inductive AssignErr where
  | dupName (x : String)
  | unpackArity (n m : ℕ)
  | expectedTuple (ty : CTy)

/-- The output ports of `add_unpack_tuple`: `out_port(i)` carries the
`i`-th element type. -/
def portsOf : ℕ → List CTy → List APort
  | _, [] => []
  | i, t :: ts => APort.mk i t :: portsOf (i + 1) ts

mutual

/-- The names bound by a pattern, in syntactic order. -/
def patNames : Pattern → List String
  | .nameP x => [x]
  | .tupleP elts => patNamesList elts

/-- The names bound by a list of patterns. -/
def patNamesList : List Pattern → List String
  | [] => []
  | p :: l => patNames p ++ patNamesList l

end

/-- Summed pattern sizes of a queue, the termination measure of the
unpacking loop. -/
theorem zip_sizeOf_le (elts : List Pattern) (ports : List APort) :
    ((elts.zip ports).map (fun pr => sizeOf pr.1)).sum ≤ sizeOf elts := by
  induction elts generalizing ports with
  | nil => simp
  | cons p l ih =>
    cases ports with
    | nil =>
      simp only [List.zip_nil_right, List.map_nil, List.sum_nil]
      omega
    | cons q qs =>
      simp only [List.zip_cons_cons, List.map_cons, List.sum_cons]
      have h := ih qs
      have hsz : sizeOf (p :: l) = 1 + sizeOf p + sizeOf l := rfl
      omega

/-- The `while len(to_unpack) > 0` loop of `visit_Assign` (compiler.py
552-575): pop a pattern/port pair; a name that was already bound in this
pattern raises "already occurred in this pattern", otherwise it is bound;
a tuple pattern requires a tuple-typed port of matching arity and appends
the element patterns with the unpacked ports to the queue. -/
def unpackLoop (names : List String) (acc : List (String × APort)) :
    List (Pattern × APort) → Except AssignErr (List (String × APort))
  | [] => .ok acc
  | (.nameP x, port) :: rest =>
    if x ∈ names then .error (.dupName x)
    else unpackLoop (x :: names) (acc ++ [(x, port)]) rest
  | (.tupleP elts, port) :: rest =>
    match port.ty with
    | .tupleTy tys =>
      if elts.length ≠ tys.length then
        .error (.unpackArity elts.length tys.length)
      else unpackLoop names acc (rest ++ elts.zip (portsOf 0 tys))
    | ty => .error (.expectedTuple ty)
  termination_by l => (l.map (fun pr => sizeOf pr.1)).sum
  decreasing_by
    all_goals simp_wf
    all_goals first
    | omega
    | (have h := zip_sizeOf_le elts (portsOf 0 tys)
       omega)

/-- `visit_Assign` on a tuple target receiving a single port
(compiler.py 539-541 and 551-575). -/
def visit_Assign_unpack (target : Pattern) (port : APort) :
    Except AssignErr (List (String × APort)) :=
  unpackLoop [] [] [(target, port)]

/-- Well-typedness of a pattern against a compiler type: a name matches
anything, a tuple pattern matches a tuple type of the same arity whose
components match elementwise. -/
inductive Matches : Pattern → CTy → Prop where
  | nameM (x : String) (ty : CTy) : Matches (.nameP x) ty
  | tupleM (elts : List Pattern) (tys : List CTy) :
      elts.length = tys.length →
      (∀ pr ∈ elts.zip tys, Matches pr.1 pr.2) →
      Matches (.tupleP elts) (.tupleTy tys)

/-- The names in a queue of pattern/port pairs. -/
def queueNames : List (Pattern × APort) → List String
  | [] => []
  | (p, _) :: rest => patNames p ++ queueNames rest

theorem queueNames_append (q1 q2 : List (Pattern × APort)) :
    queueNames (q1 ++ q2) = queueNames q1 ++ queueNames q2 := by
  induction q1 with
  | nil => rfl
  | cons pr rest ih =>
    obtain ⟨p, port⟩ := pr
    show patNames p ++ queueNames (rest ++ q2) =
      (patNames p ++ queueNames rest) ++ queueNames q2
    rw [ih, List.append_assoc]

theorem queueNames_zip (elts : List Pattern) (tys : List CTy) (k : ℕ)
    (hlen : elts.length = tys.length) :
    queueNames (elts.zip (portsOf k tys)) = patNamesList elts := by
  induction elts generalizing tys k with
  | nil => rfl
  | cons p l ih =>
    cases tys with
    | nil => cases hlen
    | cons t ts =>
      show patNames p ++ queueNames (l.zip (portsOf (k + 1) ts)) =
        patNames p ++ patNamesList l
      rw [ih ts (k + 1) (by simpa using hlen)]

theorem matches_zip (elts : List Pattern) (tys : List CTy) (k : ℕ)
    (h : ∀ pr ∈ elts.zip tys, Matches pr.1 pr.2) :
    ∀ pr ∈ elts.zip (portsOf k tys), Matches pr.1 pr.2.ty := by
  induction elts generalizing tys k with
  | nil =>
    intro pr hpr
    simp at hpr
  | cons p l ih =>
    cases tys with
    | nil =>
      intro pr hpr
      simp [portsOf] at hpr
    | cons t ts =>
      intro pr hpr
      simp only [portsOf, List.zip_cons_cons, List.mem_cons] at hpr
      rcases hpr with hpr | hpr
      · subst hpr
        exact h (p, t) (by simp [List.zip_cons_cons])
      · exact ih ts (k + 1)
          (fun pr' hpr' => h pr' (by simp [List.zip_cons_cons, hpr'])) pr hpr

theorem unpackLoop_ok (names : List String) (acc : List (String × APort))
    (queue : List (Pattern × APort)) :
    (∀ pr ∈ queue, Matches pr.1 pr.2.ty) →
    (∀ x ∈ queueNames queue, x ∉ names) →
    (queueNames queue).Nodup →
    ∃ res, unpackLoop names acc queue = .ok res ∧
      ∀ x, (res.map Prod.fst).count x =
        (acc.map Prod.fst).count x + (queueNames queue).count x := by
  induction names, acc, queue using unpackLoop.induct with
  | case1 names acc =>
    intro _ _ _
    refine ⟨acc, ?_, fun x => ?_⟩
    · simp only [unpackLoop]
    · simp [queueNames]
  | case2 names acc x port rest hx =>
    intro _ hdis _
    exact absurd hx (hdis x (by simp [queueNames, patNames]))
  | case3 names acc x port rest hx ih =>
    intro hwf hdis hnd
    have hqn : queueNames ((Pattern.nameP x, port) :: rest) =
        x :: queueNames rest := rfl
    rw [hqn] at hdis hnd ⊢
    rw [List.nodup_cons] at hnd
    obtain ⟨res, hres, hcount⟩ := ih
      (fun pr hpr => hwf pr (List.mem_cons_of_mem _ hpr))
      (fun y hy hmem => by
        rcases List.mem_cons.mp hmem with h | h
        · exact hnd.1 (h ▸ hy)
        · exact hdis y (List.mem_cons_of_mem _ hy) h)
      hnd.2
    refine ⟨res, ?_, fun y => ?_⟩
    · simp only [unpackLoop, if_neg hx]
      exact hres
    · rw [hcount y]
      simp only [List.map_append, List.map_cons, List.map_nil,
        List.count_append, List.count_cons, List.count_nil]
      omega
  | case4 names acc elts port rest tys hty hlen =>
    intro hwf _ _
    have hm := hwf _ (List.mem_cons_self _ _)
    rw [hty] at hm
    cases hm with
    | tupleM e t h1 h2 => exact absurd h1 hlen
  | case5 names acc elts port rest tys hty hlen ih =>
    intro hwf hdis hnd
    have hm := hwf _ (List.mem_cons_self _ _)
    rw [hty] at hm
    obtain ⟨hlen', hzip⟩ : elts.length = tys.length ∧
        ∀ pr ∈ elts.zip tys, Matches pr.1 pr.2 := by
      cases hm with
      | tupleM e t h1 h2 => exact ⟨h1, h2⟩
    have hperm : List.Perm (queueNames (rest ++ elts.zip (portsOf 0 tys)))
        (queueNames ((Pattern.tupleP elts, port) :: rest)) := by
      rw [queueNames_append, queueNames_zip elts tys 0 hlen']
      show List.Perm (queueNames rest ++ patNamesList elts)
        (patNamesList elts ++ queueNames rest)
      exact List.perm_append_comm
    obtain ⟨res, hres, hcount⟩ := ih
      (fun pr hpr => by
        rcases List.mem_append.mp hpr with h | h
        · exact hwf pr (List.mem_cons_of_mem _ h)
        · exact matches_zip elts tys 0 hzip pr h)
      (fun y hy => hdis y (hperm.mem_iff.mp hy))
      (hperm.nodup_iff.mpr hnd)
    refine ⟨res, ?_, fun y => ?_⟩
    · simp only [unpackLoop]
      rw [hty]
      dsimp only
      rw [if_neg hlen]
      exact hres
    · rw [hcount y, hperm.count_eq y]
  | case6 names acc elts port rest hne =>
    intro hwf _ _
    have hm := hwf _ (List.mem_cons_self _ _)
    cases hmt : port.ty with
    | tupleTy tys => exact (hne tys hmt).elim
    | intTy => rw [hmt] at hm; cases hm
    | floatTy => rw [hmt] at hm; cases hm
    | boolTy => rw [hmt] at hm; cases hm
    | stringTy => rw [hmt] at hm; cases hm

theorem unpackLoop_err_complete (names : List String)
    (acc : List (String × APort)) (queue : List (Pattern × APort)) :
    (∀ pr ∈ queue, Matches pr.1 pr.2.ty) →
    (¬ (queueNames queue).Nodup ∨ ∃ x ∈ queueNames queue, x ∈ names) →
    ∃ y, unpackLoop names acc queue = .error (.dupName y) ∧
      y ∈ queueNames queue ∧
      (2 ≤ (queueNames queue).count y ∨ y ∈ names) := by
  induction names, acc, queue using unpackLoop.induct with
  | case1 names acc =>
    intro _ hbad
    rcases hbad with h | ⟨x, hx, _⟩
    · exact absurd List.nodup_nil h
    · cases hx
  | case2 names acc x port rest hx =>
    intro _ _
    refine ⟨x, ?_, by simp [queueNames, patNames], Or.inr hx⟩
    simp only [unpackLoop, if_pos hx]
  | case3 names acc x port rest hx ih =>
    intro hwf hbad
    have hqn : queueNames ((Pattern.nameP x, port) :: rest) =
        x :: queueNames rest := rfl
    rw [hqn] at hbad ⊢
    have hwf' : ∀ pr ∈ rest, Matches pr.1 pr.2.ty :=
      fun pr hpr => hwf pr (List.mem_cons_of_mem _ hpr)
    by_cases hxr : x ∈ queueNames rest
    · obtain ⟨y, herr, hymem, hyp⟩ := ih hwf'
        (Or.inr ⟨x, hxr, List.mem_cons_self x names⟩)
      refine ⟨y, ?_, List.mem_cons_of_mem _ hymem, ?_⟩
      · simp only [unpackLoop, if_neg hx]
        exact herr
      · rcases hyp with h | h
        · left
          rw [List.count_cons]
          omega
        · rcases List.mem_cons.mp h with h | h
          · subst h
            left
            have hc := List.count_pos_iff_mem.mpr hxr
            rw [List.count_cons_self]
            omega
          · exact Or.inr h
    · have hbad' : ¬ (queueNames rest).Nodup ∨
          ∃ z ∈ queueNames rest, z ∈ x :: names := by
        rcases hbad with h | ⟨z, hz, hzn⟩
        · rw [List.nodup_cons] at h
          left
          intro hnd
          exact h ⟨hxr, hnd⟩
        · rcases List.mem_cons.mp hz with h | h
          · exact absurd (h ▸ hzn) hx
          · exact Or.inr ⟨z, h, List.mem_cons_of_mem _ hzn⟩
      obtain ⟨y, herr, hymem, hyp⟩ := ih hwf' hbad'
      refine ⟨y, ?_, List.mem_cons_of_mem _ hymem, ?_⟩
      · simp only [unpackLoop, if_neg hx]
        exact herr
      · rcases hyp with h | h
        · left
          rw [List.count_cons]
          omega
        · rcases List.mem_cons.mp h with h | h
          · exact absurd (h ▸ hymem) hxr
          · exact Or.inr h
  | case4 names acc elts port rest tys hty hlen =>
    intro hwf _
    have hm := hwf _ (List.mem_cons_self _ _)
    rw [hty] at hm
    cases hm with
    | tupleM e t h1 h2 => exact absurd h1 hlen
  | case5 names acc elts port rest tys hty hlen ih =>
    intro hwf hbad
    have hm := hwf _ (List.mem_cons_self _ _)
    rw [hty] at hm
    obtain ⟨hlen', hzip⟩ : elts.length = tys.length ∧
        ∀ pr ∈ elts.zip tys, Matches pr.1 pr.2 := by
      cases hm with
      | tupleM e t h1 h2 => exact ⟨h1, h2⟩
    have hperm : List.Perm (queueNames (rest ++ elts.zip (portsOf 0 tys)))
        (queueNames ((Pattern.tupleP elts, port) :: rest)) := by
      rw [queueNames_append, queueNames_zip elts tys 0 hlen']
      show List.Perm (queueNames rest ++ patNamesList elts)
        (patNamesList elts ++ queueNames rest)
      exact List.perm_append_comm
    obtain ⟨y, herr, hymem, hyp⟩ := ih
      (fun pr hpr => by
        rcases List.mem_append.mp hpr with h | h
        · exact hwf pr (List.mem_cons_of_mem _ h)
        · exact matches_zip elts tys 0 hzip pr h)
      (by
        rcases hbad with h | ⟨z, hz, hzn⟩
        · exact Or.inl (fun hnd => h (hperm.nodup_iff.mp hnd))
        · exact Or.inr ⟨z, hperm.mem_iff.mpr hz, hzn⟩)
    refine ⟨y, ?_, hperm.mem_iff.mp hymem, ?_⟩
    · simp only [unpackLoop]
      rw [hty]
      dsimp only
      rw [if_neg hlen]
      exact herr
    · rcases hyp with h | h
      · left
        rw [← hperm.count_eq y]
        exact h
      · exact Or.inr h
  | case6 names acc elts port rest hne =>
    intro hwf _
    have hm := hwf _ (List.mem_cons_self _ _)
    cases hmt : port.ty with
    | tupleTy tys => exact (hne tys hmt).elim
    | intTy => rw [hmt] at hm; cases hm
    | floatTy => rw [hmt] at hm; cases hm
    | boolTy => rw [hmt] at hm; cases hm
    | stringTy => rw [hmt] at hm; cases hm

theorem unpackLoop_err_sound (names : List String)
    (acc : List (String × APort)) (queue : List (Pattern × APort)) :
    ∀ y, unpackLoop names acc queue = .error (.dupName y) →
      y ∈ queueNames queue ∧
      (2 ≤ (queueNames queue).count y ∨ y ∈ names) := by
  induction names, acc, queue using unpackLoop.induct with
  | case1 names acc =>
    intro y h
    simp only [unpackLoop] at h
    cases h
  | case2 names acc x port rest hx =>
    intro y h
    simp only [unpackLoop, if_pos hx] at h
    injection h with h
    injection h with h
    subst h
    exact ⟨by simp [queueNames, patNames], Or.inr hx⟩
  | case3 names acc x port rest hx ih =>
    intro y h
    simp only [unpackLoop, if_neg hx] at h
    obtain ⟨hymem, hyp⟩ := ih y h
    have hqn : queueNames ((Pattern.nameP x, port) :: rest) =
        x :: queueNames rest := rfl
    rw [hqn]
    refine ⟨List.mem_cons_of_mem _ hymem, ?_⟩
    rcases hyp with h2 | h2
    · left
      rw [List.count_cons]
      omega
    · rcases List.mem_cons.mp h2 with h2 | h2
      · subst h2
        left
        have hc := List.count_pos_iff_mem.mpr hymem
        rw [List.count_cons_self]
        omega
      · exact Or.inr h2
  | case4 names acc elts port rest tys hty hlen =>
    intro y h
    simp only [unpackLoop] at h
    rw [hty] at h
    dsimp only at h
    rw [if_pos hlen] at h
    injection h with h
    cases h
  | case5 names acc elts port rest tys hty hlen ih =>
    intro y h
    simp only [unpackLoop] at h
    rw [hty] at h
    dsimp only at h
    rw [if_neg hlen] at h
    obtain ⟨hymem, hyp⟩ := ih y h
    have hlen' : elts.length = tys.length := by omega
    have hperm : List.Perm (queueNames (rest ++ elts.zip (portsOf 0 tys)))
        (queueNames ((Pattern.tupleP elts, port) :: rest)) := by
      rw [queueNames_append, queueNames_zip elts tys 0 hlen']
      show List.Perm (queueNames rest ++ patNamesList elts)
        (patNamesList elts ++ queueNames rest)
      exact List.perm_append_comm
    refine ⟨hperm.mem_iff.mp hymem, ?_⟩
    rcases hyp with h2 | h2
    · left
      rw [← hperm.count_eq y]
      exact h2
    · exact Or.inr h2
  | case6 names acc elts port rest hne =>
    intro y h
    cases hmt : port.ty
    case tupleTy tys => exact (hne tys hmt).elim
    all_goals simp only [unpackLoop, hmt] at h
    all_goals simp at h

/-- Claim C10: an assignment whose left-hand side is a (well-typed) tuple
pattern binding the same variable name more than once is rejected: the
unpacking loop fails with the "already occurred in this pattern" error,
and the reported name really occurs at least twice in the pattern; every
such error reports a repeated name; and a pattern without repeated names
unpacks successfully, binding each name exactly as often as it occurs in
the pattern — rather than silently binding a repeated name to the last
value as Python does. -/
theorem visit_Assign_duplicate (target : Pattern) (port : APort)
    (hm : Matches target port.ty) :
    (¬ (patNames target).Nodup →
      ∃ y, visit_Assign_unpack target port = .error (.dupName y) ∧
        2 ≤ (patNames target).count y) ∧
    (∀ y, visit_Assign_unpack target port = .error (.dupName y) →
      2 ≤ (patNames target).count y) ∧
    ((patNames target).Nodup →
      ∃ res, visit_Assign_unpack target port = .ok res ∧
        ∀ x, (res.map Prod.fst).count x = (patNames target).count x) := by
  have hq : queueNames [(target, port)] = patNames target := by
    show patNames target ++ queueNames [] = patNames target
    exact List.append_nil _
  have hwf : ∀ pr ∈ [(target, port)], Matches pr.1 pr.2.ty := by
    intro pr hpr
    rcases List.mem_cons.mp hpr with h | h
    · subst h; exact hm
    · cases h
  refine ⟨?_, ?_, ?_⟩
  · intro hdup
    obtain ⟨y, herr, _, hyp⟩ := unpackLoop_err_complete [] [] [(target, port)]
      hwf (by rw [hq]; exact Or.inl hdup)
    refine ⟨y, herr, ?_⟩
    rw [hq] at hyp
    rcases hyp with h | h
    · exact h
    · cases h
  · intro y herr
    obtain ⟨_, hyp⟩ := unpackLoop_err_sound [] [] [(target, port)] y herr
    rw [hq] at hyp
    rcases hyp with h | h
    · exact h
    · cases h
  · intro hnd
    obtain ⟨res, hres, hcount⟩ := unpackLoop_ok [] [] [(target, port)]
      hwf (fun x _ hmem => by cases hmem) (by rw [hq]; exact hnd)
    refine ⟨res, hres, fun x => ?_⟩
    have hc := hcount x
    rw [hq] at hc
    simpa using hc

/-- The pattern `x, x` of the assignment `x, x = 1, 2`. -/
def exPatC10 : Pattern := .tupleP [.nameP "x", .nameP "x"]

/-- A pair-typed port for `exPatC10`, as produced for the tuple `(1, 2)`. -/
def exPortC10 : APort := APort.mk 0 (.tupleTy [.intTy, .intTy])

theorem visit_Assign_duplicate_witness :
    Matches exPatC10 exPortC10.ty ∧
    ¬ (patNames exPatC10).Nodup ∧
    ∃ y, visit_Assign_unpack exPatC10 exPortC10 = .error (.dupName y) ∧
      2 ≤ (patNames exPatC10).count y := by
  have hm : Matches exPatC10 exPortC10.ty := by
    show Matches (.tupleP [.nameP "x", .nameP "x"])
      (.tupleTy [.intTy, .intTy])
    apply Matches.tupleM
    · rfl
    · intro pr hpr
      rcases List.mem_cons.mp hpr with h | h
      · subst h; exact Matches.nameM "x" .intTy
      · rcases List.mem_cons.mp h with h | h
        · subst h; exact Matches.nameM "x" .intTy
        · cases h
  have hpn : patNames exPatC10 = ["x", "x"] := by
    show patNames (.tupleP [.nameP "x", .nameP "x"]) = ["x", "x"]
    simp [patNames, patNamesList]
  have hdup : ¬ (patNames exPatC10).Nodup := by
    rw [hpn]
    decide
  exact ⟨hm, hdup, (visit_Assign_duplicate exPatC10 exPortC10 hm).1 hdup⟩

end Compiler

end Guppy
